import Mathlib

/-! ## KFS scatter/gather buffers (`libkfsIO/IOBuffer.cc`)

A shallow embedding of `IOBufferData` (a window with producer/consumer cursors
over a reference-counted `char` array) and of `IOBuffer` (a list of such
blocks).

Modelling conventions.

* The heap is a list of backing arrays; a `boost::shared_array<char>` is the
  index of its array.  Arrays are never freed in the model (dropping the last
  reference is unobservable by the functions embedded here).
* `char *` cursors of a block are offsets from the base of its backing array
  (`Nat`).  C `int` values (lengths, counts, pointer differences) are `Int`;
  sizes are taken to fit in an `int`, so no wrap-around is modelled.
* An `IOBufferDataPtr` held by a list is modelled by the block value itself:
  block *objects* are referenced from one list position, while backing arrays
  may be shared between blocks (views).
* `assert` is modelled: a failing assertion yields `Res.assertFailed`.
  `while` loops whose termination is not structural take a fuel argument and
  yield `Res.outOfFuel` when it runs out.
-/

namespace KFS

/-! ## Results, bytes and the heap -/

/-- Outcome of running a piece of code: a value, a failed `assert`, or an
exhausted iteration budget. -/
inductive Res (α : Type) where
  | ok (val : α)
  | assertFailed
  | outOfFuel
deriving DecidableEq, Repr

/-- Sequencing: run `f` on the value of `r`, propagate a failure of `r`. -/
def Res.bind {α β : Type} (r : Res α) (f : α → Res β) : Res β :=
  match r with
  | .ok a => f a
  | .assertFailed => .assertFailed
  | .outOfFuel => .outOfFuel

/-- A `char`. -/
abbrev Byte := Nat

/-- The heap: backing arrays, plus the (arbitrary) contents that
`new char[n]` leaves in fresh storage. -/
structure Heap where
  arrays : List (List Byte)
  uninit : Nat → Byte

/-- The array behind a `shared_array` handle. -/
def Heap.get (h : Heap) (id : Nat) : List Byte := h.arrays.getD id []

/-- Overwrite `arr[off .. off + src.length)` with `src`. -/
def writeAt (arr : List Byte) (off : Nat) (src : List Byte) : List Byte :=
  arr.take off ++ src ++ arr.drop (off + src.length)

/-- The call `memcpy(base(id) + off, src, src.length)`. -/
def Heap.memcpy (h : Heap) (id off : Nat) (src : List Byte) : Heap :=
  { h with arrays := h.arrays.set id (writeAt (h.get id) off src) }

/-- The call `memset(base(id) + off, c, n)`. -/
def Heap.memset (h : Heap) (id off : Nat) (c : Byte) (n : Nat) : Heap :=
  h.memcpy id off (List.replicate n c)

/-- The expression `new char[bufsz]`: a fresh array, returned with its handle. -/
def Heap.alloc (h : Heap) (bufsz : Nat) : Heap × Nat :=
  ({ h with arrays := h.arrays ++ [(List.range bufsz).map h.uninit] }, h.arrays.length)

/-! ## `IOBufferData` -/

/-- The members of `IOBufferData`: `mData` is the handle of the backing array,
the four cursors are offsets into it. -/
structure IOBufferData where
  mData : Nat
  mStart : Nat
  mEnd : Nat
  mProducer : Nat
  mConsumer : Nat
deriving DecidableEq, Repr

namespace IOBufferData

/-- Embeds `IOBufferData::Init(bufsz)` (IOBuffer.cc:71-78) on a new object. -/
def Init (h : Heap) (bufsz : Nat) : Heap × IOBufferData :=
  let (h1, id) := h.alloc bufsz
  (h1, { mData := id, mStart := 0, mEnd := 0 + bufsz, mProducer := 0, mConsumer := 0 })

/-- Embeds `IOBufferData::IOBufferData(other, s, e)` (IOBuffer.cc:66-69): a
view sharing the array of `other`. -/
def view (other : IOBufferData) (s e : Nat) : IOBufferData :=
  { mData := other.mData, mStart := s, mEnd := e, mProducer := e, mConsumer := s }

/-- Modelled from the spec: `IOBufferData::BytesConsumable()` is declared in
`IOBuffer.h`, which is not among the sources; "bytes consumable" is
`producer − consumer`. -/
def BytesConsumable (b : IOBufferData) : Int := (b.mProducer : Int) - b.mConsumer

/-- Modelled from the spec: `IOBufferData::IsEmpty()` is declared in
`IOBuffer.h`, which is not among the sources; a block is empty when it has no
consumable bytes. -/
def IsEmpty (b : IOBufferData) : Bool := b.mProducer == b.mConsumer

/-- Modelled from the spec: `IOBufferData::IsFull()` is declared in
`IOBuffer.h`, which is not among the sources; a block is full when it has no
space available (`end − producer = 0`). -/
def IsFull (b : IOBufferData) : Bool := b.mProducer == b.mEnd

/-- Embeds `IOBufferData::Fill` (IOBuffer.cc:99-110). -/
def Fill (b : IOBufferData) (nbytes : Int) : Res (IOBufferData × Int) :=
  let fillAvail : Int := (b.mEnd : Int) - b.mProducer
  if nbytes > fillAvail then
    .ok ({ b with mProducer := b.mEnd }, fillAvail)
  else
    let b1 := { b with mProducer := ((b.mProducer : Int) + nbytes).toNat }
    if b1.mProducer ≤ b1.mEnd then .ok (b1, nbytes) else .assertFailed

/-- Embeds `IOBufferData::ZeroFill` (IOBuffer.cc:88-97). -/
def ZeroFill (h : Heap) (b : IOBufferData) (nbytes : Int) : Res (Heap × IOBufferData × Int) :=
  let fillAvail : Int := (b.mEnd : Int) - b.mProducer
  let nbytes := if fillAvail < nbytes then fillAvail else nbytes
  let h1 := h.memset b.mData b.mProducer 0 nbytes.toNat
  (b.Fill nbytes).bind fun (b1, r) => .ok (h1, b1, r)

/-- Embeds `IOBufferData::Consume` (IOBuffer.cc:112-123). -/
def Consume (b : IOBufferData) (nbytes : Int) : Res (IOBufferData × Int) :=
  let consumeAvail : Int := (b.mProducer : Int) - b.mConsumer
  if nbytes > consumeAvail then
    .ok ({ b with mConsumer := b.mProducer }, consumeAvail)
  else
    let b1 := { b with mConsumer := ((b.mConsumer : Int) + nbytes).toNat }
    if b1.mConsumer ≤ b1.mProducer then .ok (b1, nbytes) else .assertFailed

/-- Embeds `IOBufferData::Trim` (IOBuffer.cc:125-135). -/
def Trim (b : IOBufferData) (nbytes : Int) : IOBufferData × Int :=
  let bytesAvail : Int := (b.mProducer : Int) - b.mConsumer
  if bytesAvail < nbytes then
    (b, bytesAvail)
  else
    ({ b with mProducer := ((b.mConsumer : Int) + nbytes).toNat }, nbytes)

/-- Embeds `IOBufferData::CopyIn(const char *buf, int numBytes)`
(IOBuffer.cc:178-191); `buf` lists the bytes found at `buf[0], buf[1], …`. -/
def CopyIn (h : Heap) (b : IOBufferData) (buf : List Byte) (numBytes : Int) :
    Res (Heap × IOBufferData × Int) :=
  let bytesToCopy : Int := (b.mEnd : Int) - b.mProducer
  if bytesToCopy < numBytes then
    let h1 := h.memcpy b.mData b.mProducer (buf.take bytesToCopy.toNat)
    (b.Fill bytesToCopy).bind fun (b1, _) => .ok (h1, b1, bytesToCopy)
  else
    let h1 := h.memcpy b.mData b.mProducer (buf.take numBytes.toNat)
    (b.Fill numBytes).bind fun (b1, _) => .ok (h1, b1, numBytes)

/-- Embeds `IOBufferData::CopyOut(char *buf, int numBytes)`
(IOBuffer.cc:208-223); the destination is the buffer `dst` and `buf` points at
`dst[curr]`.  Returns the buffer afterwards and the count. -/
def CopyOut (h : Heap) (b : IOBufferData) (dst : List Byte) (curr : Nat) (numBytes : Int) :
    Res (List Byte × Int) :=
  let bytesToCopy : Int := (b.mProducer : Int) - b.mConsumer
  if bytesToCopy ≥ 0 then
    if bytesToCopy ≤ 0 then
      .ok (dst, 0)
    else
      let bytesToCopy := if bytesToCopy > numBytes then numBytes else bytesToCopy
      .ok (writeAt dst curr (((h.get b.mData).drop b.mConsumer).take bytesToCopy.toNat),
           bytesToCopy)
  else .assertFailed

/-- The invariant `start ≤ consumer ≤ producer ≤ end`. -/
def Inv (b : IOBufferData) : Prop :=
  b.mStart ≤ b.mConsumer ∧ b.mConsumer ≤ b.mProducer ∧ b.mProducer ≤ b.mEnd

instance (b : IOBufferData) : Decidable b.Inv := by
  unfold Inv; infer_instance

/-- The block `b1` has the window bounds of `b` and satisfies the invariant. -/
def Keeps (b b1 : IOBufferData) : Prop :=
  b1.mStart = b.mStart ∧ b1.mEnd = b.mEnd ∧ b1.Inv

/-- Modelled from the spec: `IOBufferData::Consumer()` is declared in
`IOBuffer.h`, which is not among the sources; it is the `consumer` cursor. -/
def Consumer (b : IOBufferData) : Nat := b.mConsumer

/-- The bytes of the readable window `[consumer, producer)`. -/
def readable (h : Heap) (b : IOBufferData) : List Byte :=
  ((h.get b.mData).drop b.mConsumer).take (b.mProducer - b.mConsumer)

/-- The spare room `[producer, end)` of `t` holds no readable byte of `b`. -/
def roomFree (t b : IOBufferData) : Prop :=
  b.mData ≠ t.mData ∨ min b.mProducer t.mEnd ≤ max b.mConsumer t.mProducer

instance (t b : IOBufferData) : Decidable (t.roomFree b) := by
  unfold roomFree; infer_instance

/-- The block's cursors are ordered and lie inside an allocated array. -/
def WF (h : Heap) (b : IOBufferData) : Prop :=
  b.Inv ∧ b.mEnd ≤ (h.get b.mData).length ∧ b.mData < h.arrays.length

instance (h : Heap) (b : IOBufferData) : Decidable (b.WF h) := by
  unfold WF; infer_instance

end IOBufferData

/-! ## `IOBuffer` -/

/-- The members of `IOBuffer`: the list `mBuf` of blocks. -/
structure IOBuffer where
  mBuf : List IOBufferData
deriving DecidableEq, Repr

namespace IOBuffer

/-- The number `⌈r / B⌉` of blocks of capacity `B` that hold `r` bytes. -/
def blocksFor (B r : Nat) : Nat := (r + B - 1) / B

/-- Specification of the blocks allocated to hold `rem` further bytes: `count`
blocks of capacity `B` on the arrays `base`, `base + 1`, …, each filled with as
much of what remains as fits. -/
def freshBlocks (B base : Nat) : Nat → Nat → List IOBufferData
  | 0, _ => []
  | count + 1, rem =>
    { mData := base, mStart := 0, mEnd := B, mProducer := min B rem, mConsumer := 0 } ::
      freshBlocks B (base + 1) count (rem - B)

/-- Embeds `IOBuffer::IOBuffer()` (IOBuffer.cc:225-228). -/
def empty : IOBuffer := ⟨[]⟩

/-- The logical byte stream: the readable windows of the blocks, in list order. -/
def content (h : Heap) (c : IOBuffer) : List Byte :=
  (c.mBuf.map (IOBufferData.readable h)).flatten

/-- Every block of the chain is well formed in the heap. -/
def WF (h : Heap) (c : IOBuffer) : Prop := ∀ b ∈ c.mBuf, b.WF h

instance (h : Heap) (c : IOBuffer) : Decidable (c.WF h) := by
  unfold WF; infer_instance

/-- No readable byte of another block of the chain lies in the spare room
`[producer, end)` of the last block. -/
def TailRoomFree (c : IOBuffer) : Prop :=
  ∀ t ∈ c.mBuf.getLast?, ∀ b ∈ c.mBuf.dropLast, t.roomFree b

instance (c : IOBuffer) : Decidable c.TailRoomFree := by
  unfold TailRoomFree; infer_instance

/-- Embeds `IOBuffer::Append(IOBuffer *ioBuf)` (IOBuffer.cc:240-250): returns
`this` and `ioBuf` afterwards. -/
def Append (c ioBuf : IOBuffer) : IOBuffer × IOBuffer :=
  (⟨ioBuf.mBuf.foldl (fun mBuf data => mBuf ++ [data]) c.mBuf⟩, ⟨[]⟩)

/-- Embeds `IOBuffer::BytesConsumable` (IOBuffer.cc:427-439). -/
def BytesConsumable (c : IOBuffer) : Int :=
  c.mBuf.foldl (fun numBytes data => numBytes + data.BytesConsumable) 0

/-- The `while` loop of `IOBuffer::ZeroFill`; `B` is `IOBUFSIZE`.  The cast
`(uint32_t) numBytes` is applied to a positive `numBytes` and keeps its value. -/
def ZeroFill.loop (B : Nat) : Nat → Heap → List IOBufferData → Int →
    Res (Heap × List IOBufferData)
  | 0, h, mBuf, numBytes => if numBytes > 0 then .outOfFuel else .ok (h, mBuf)
  | fuel + 1, h, mBuf, numBytes =>
    if numBytes > 0 then
      let zeroed : Int := min (B : Int) numBytes
      let (h1, data) := IOBufferData.Init h B
      (data.ZeroFill h1 zeroed).bind fun (h2, data1, _) =>
        ZeroFill.loop B fuel h2 (mBuf ++ [data1]) (numBytes - zeroed)
    else .ok (h, mBuf)

/-- Embeds `IOBuffer::ZeroFill` (IOBuffer.cc:350-362). -/
def ZeroFill (B fuel : Nat) (h : Heap) (c : IOBuffer) (numBytes : Int) : Res (Heap × IOBuffer) :=
  (ZeroFill.loop B fuel h c.mBuf numBytes).bind fun (h1, mBuf) => .ok (h1, ⟨mBuf⟩)

/-- The `while` loop of `IOBuffer::Consume`: returns the list and `nbytes` at
loop exit. -/
def Consume.loop : Nat → List IOBufferData → Int → Res (List IOBufferData × Int)
  | _, [], nbytes => .ok ([], nbytes)
  | 0, _ :: _, _ => .outOfFuel
  | fuel + 1, data :: rest, nbytes =>
    (data.Consume nbytes).bind fun (data1, bytesConsumed) =>
      let nbytes1 := nbytes - bytesConsumed
      let mBuf1 := if data1.IsEmpty then rest else data1 :: rest
      if nbytes1 ≤ 0 then .ok (mBuf1, nbytes1) else Consume.loop fuel mBuf1 nbytes1

/-- Embeds `IOBuffer::Consume` (IOBuffer.cc:441-460). -/
def Consume (fuel : Nat) (c : IOBuffer) (nbytes : Int) : Res IOBuffer :=
  if nbytes ≥ 0 then
    (Consume.loop fuel c.mBuf nbytes).bind fun (mBuf, nbytes1) =>
      if nbytes1 = 0 then .ok ⟨mBuf⟩ else .assertFailed
  else .assertFailed

/-- The first `while` loop of `IOBuffer::Trim`, from `iter` at the head of the
list with the running total `totBytes`: returns the blocks `iter` has passed
(as the loop left them) and the blocks from `iter` on. -/
def Trim.cut (nbytes : Int) : List IOBufferData → Int → List IOBufferData × List IOBufferData
  | [], _ => ([], [])
  | data :: rest, totBytes =>
    let bytesAvail := data.BytesConsumable
    if bytesAvail + totBytes ≤ nbytes then
      let (passed, todo) := Trim.cut nbytes rest (totBytes + bytesAvail)
      (data :: passed, todo)
    else if totBytes = nbytes then
      ([], data :: rest)
    else
      ([(data.Trim (nbytes - totBytes)).1], rest)

/-- The second `while` loop of `IOBuffer::Trim`: empty every block from `iter` on. -/
def Trim.drain : List IOBufferData → Res (List IOBufferData)
  | [] => .ok []
  | data :: rest =>
    (data.Consume data.BytesConsumable).bind fun (data1, _) =>
      (Trim.drain rest).bind fun rest1 => .ok (data1 :: rest1)

/-- Embeds `IOBuffer::Trim` (IOBuffer.cc:462-494). -/
def Trim (c : IOBuffer) (nbytes : Int) : Res IOBuffer :=
  if nbytes ≤ 0 then .ok c
  else
    let (passed, todo) := Trim.cut nbytes c.mBuf 0
    (Trim.drain todo).bind fun todo1 =>
      let c1 : IOBuffer := ⟨passed ++ todo1⟩
      if c1.BytesConsumable = nbytes then .ok c1 else .assertFailed

/-- The `while` loop of `IOBuffer::CopyIn`; `B` is `IOBUFSIZE`, `front` the
list without its last block and `data` that last block. -/
def CopyIn.loop (B : Nat) (buf : List Byte) (numBytes : Int) :
    Nat → Heap → List IOBufferData → IOBufferData → Int → Res (Heap × IOBuffer × Int)
  | 0, h, front, data, numCopied =>
    if numCopied < numBytes then .outOfFuel else .ok (h, ⟨front ++ [data]⟩, numCopied)
  | fuel + 1, h, front, data, numCopied =>
    if numCopied < numBytes then
      (data.CopyIn h (buf.drop numCopied.toNat) (numBytes - numCopied)).bind
        fun (h1, data1, bytesCopied) =>
          let numCopied1 := numCopied + bytesCopied
          if numCopied1 ≥ numBytes then .ok (h1, ⟨front ++ [data1]⟩, numCopied1)
          else
            let (h2, data2) := IOBufferData.Init h1 B
            CopyIn.loop B buf numBytes fuel h2 (front ++ [data1]) data2 numCopied1
    else .ok (h, ⟨front ++ [data]⟩, numCopied)

/-- Embeds `IOBuffer::CopyIn(const char *buf, int numBytes)`
(IOBuffer.cc:496-520); `buf` lists the bytes found at `buf[0], buf[1], …`.
In both branches of the source `data` is the last element of `mBuf`, so the
list is passed to the loop as the blocks before it and `data` itself
(`data.get() != NULL` always holds there). -/
def CopyIn (B fuel : Nat) (h : Heap) (c : IOBuffer) (buf : List Byte) (numBytes : Int) :
    Res (Heap × IOBuffer × Int) :=
  match c.mBuf.getLast? with
  | none =>
    let (h1, data) := IOBufferData.Init h B
    CopyIn.loop B buf numBytes fuel h1 c.mBuf data 0
  | some data => CopyIn.loop B buf numBytes fuel h c.mBuf.dropLast data 0

/-- The `for` loop of `IOBuffer::CopyOut`; `curr` is the offset of the write
position in the destination buffer `dst`. -/
def CopyOut.loop (h : Heap) (numBytes : Int) :
    List IOBufferData → List Byte → Nat → Int → Res (List Byte × Int)
  | [], dst, _, nread => .ok (dst, nread)
  | data :: rest, dst, curr, nread =>
    (data.CopyOut h dst curr (numBytes - nread)).bind fun (dst1, copied) =>
      if copied ≥ 0 then
        let curr1 := ((curr : Int) + copied).toNat
        let nread1 := nread + copied
        if (curr1 : Int) ≤ 0 + numBytes then
          if nread1 ≥ numBytes then .ok (dst1, nread1)
          else CopyOut.loop h numBytes rest dst1 curr1 nread1
        else .assertFailed
      else .assertFailed

/-- Embeds `IOBuffer::CopyOut(char *buf, int numBytes)` (IOBuffer.cc:522-543);
`dst` is the destination buffer `buf[0], buf[1], …`.  Returns the buffer
afterwards and the count. -/
def CopyOut (h : Heap) (c : IOBuffer) (dst : List Byte) (numBytes : Int) :
    Res (List Byte × Int) :=
  CopyOut.loop h numBytes c.mBuf (dst.set 0 0) 0 0

/-- Embeds `IOBuffer::Clone` (IOBuffer.cc:548-565). -/
def Clone (c : IOBuffer) : IOBuffer :=
  ⟨c.mBuf.foldl (fun mBuf data1 =>
      let numBytes := data1.BytesConsumable
      mBuf ++ [IOBufferData.view data1 data1.Consumer
        ((data1.Consumer : Int) + numBytes).toNat]) []⟩

end IOBuffer

/-! ## `IOBuffer`: `Move`, `Splice`, and sequences of calls -/

namespace IOBufferData

/-- Embeds `IOBufferData::CopyIn(const IOBufferData *other, int numBytes)`
(IOBuffer.cc:193-206), the overload that copies from the readable window of
another block. -/
def CopyInBlock (h : Heap) (b other : IOBufferData) (numBytes : Int) :
    Res (Heap × IOBufferData × Int) :=
  let bytesToCopy : Int := (b.mEnd : Int) - b.mProducer
  if bytesToCopy < numBytes then
    let h1 := h.memcpy b.mData b.mProducer
      (((h.get other.mData).drop other.mConsumer).take bytesToCopy.toNat)
    (b.Fill bytesToCopy).bind fun (b1, _) => .ok (h1, b1, bytesToCopy)
  else
    let h1 := h.memcpy b.mData b.mProducer
      (((h.get other.mData).drop other.mConsumer).take numBytes.toNat)
    (b.Fill numBytes).bind fun (b1, _) => .ok (h1, b1, numBytes)

/-- The block `b1` is `b` with its readable window narrowed: same array and
bounds, `consumer` not lower, `producer` not higher. -/
def narrows (b b1 : IOBufferData) : Prop :=
  b1.mData = b.mData ∧ b1.mStart = b.mStart ∧ b1.mEnd = b.mEnd ∧
    b.mConsumer ≤ b1.mConsumer ∧ b1.mConsumer ≤ b1.mProducer ∧ b1.mProducer ≤ b.mProducer

/-- No readable byte of `b` lies in `[consumer, end)` of `t`, the part of its
array that `t` can ever write to. -/
def reachFree (t b : IOBufferData) : Prop :=
  b.mData ≠ t.mData ∨ min b.mProducer t.mEnd ≤ max b.mConsumer t.mConsumer

instance (t b : IOBufferData) : Decidable (t.reachFree b) := by
  unfold reachFree; infer_instance

end IOBufferData

/-- A call of one of the block operations that take a length. -/
inductive BlockOp where
  | Fill (nbytes : Int)
  | ZeroFill (nbytes : Int)
  | Consume (nbytes : Int)
  | Trim (nbytes : Int)
  | CopyIn (buf : List Byte) (numBytes : Int)
deriving DecidableEq, Repr

/-- The length argument of the call. -/
def BlockOp.len : BlockOp → Int
  | .Fill n => n
  | .ZeroFill n => n
  | .Consume n => n
  | .Trim n => n
  | .CopyIn _ n => n

/-- The call is a `Trim`. -/
def BlockOp.isTrim : BlockOp → Bool
  | .Trim _ => true
  | _ => false

/-- The call can write: it is a `Fill`, a `ZeroFill` or a `CopyIn`. -/
def BlockOp.isWrite : BlockOp → Bool
  | .Fill _ => true
  | .ZeroFill _ => true
  | .CopyIn _ _ => true
  | _ => false

namespace IOBufferData

/-- Run one call on the block: the heap and the block afterwards, and the
value returned. -/
def call (h : Heap) (b : IOBufferData) : BlockOp → Res (Heap × IOBufferData × Int)
  | .Fill n => (b.Fill n).bind fun (b1, r) => .ok (h, b1, r)
  | .ZeroFill n => b.ZeroFill h n
  | .Consume n => (b.Consume n).bind fun (b1, r) => .ok (h, b1, r)
  | .Trim n => .ok (h, (b.Trim n).1, (b.Trim n).2)
  | .CopyIn buf n => b.CopyIn h buf n

/-- What every call keeps of a view made by `IOBufferData(other, s, e)`: the
array, the window, and no space available. -/
def IsViewOf (other : IOBufferData) (s e : Nat) (b : IOBufferData) : Prop :=
  b.mData = other.mData ∧ b.mStart = s ∧ b.mEnd = e ∧ b.mProducer = e ∧ s ≤ b.mConsumer

/-- Run a sequence of calls on the block, in order: the heap and the block
at the end, and the values returned by the calls. -/
def calls : Heap → IOBufferData → List BlockOp → Res (Heap × IOBufferData × List Int)
  | h, b, [] => .ok (h, b, [])
  | h, b, op :: ops =>
    (b.call h op).bind fun (h1, b1, r) =>
      (calls h1 b1 ops).bind fun (h2, b2, rs) => .ok (h2, b2, r :: rs)

end IOBufferData

/-- A call of one of the chain operations `CopyIn`, `ZeroFill`, `Consume`,
`Trim`. -/
inductive ChainOp where
  | CopyIn (buf : List Byte) (numBytes : Int)
  | ZeroFill (numBytes : Int)
  | Consume (nbytes : Int)
  | Trim (nbytes : Int)
deriving DecidableEq, Repr

/-- The length argument of the call. -/
def ChainOp.len : ChainOp → Int
  | .CopyIn _ n => n
  | .ZeroFill n => n
  | .Consume n => n
  | .Trim n => n

/-- The call is well formed: its length is not negative, and a `CopyIn` is
given at least that many bytes. -/
def ChainOp.Valid : ChainOp → Prop
  | .CopyIn buf n => 0 ≤ n ∧ n ≤ buf.length
  | .ZeroFill n => 0 ≤ n
  | .Consume n => 0 ≤ n
  | .Trim n => 0 ≤ n

instance (op : ChainOp) : Decidable op.Valid := by
  cases op <;> unfold ChainOp.Valid <;> infer_instance

namespace IOBuffer

/-- The `while` loop of `IOBuffer::Move`: `mBuf` is the list of `this`, the
second list that of `other` (so that `*iter` is its head), `cfuel` the fuel
given to each call of `other->Consume`. -/
def Move.loop (numBytes : Int) (cfuel : Nat) :
    Nat → List IOBufferData → List IOBufferData → Int →
    Res (List IOBufferData × List IOBufferData)
  | _, mBuf, [], _ => .ok (mBuf, [])
  | 0, mBuf, data :: rest, bytesMoved =>
    if bytesMoved < numBytes then .outOfFuel else .ok (mBuf, data :: rest)
  | fuel + 1, mBuf, data :: rest, bytesMoved =>
    if bytesMoved < numBytes then
      if data.BytesConsumable + bytesMoved < numBytes then
        Move.loop numBytes cfuel fuel (mBuf ++ [data]) rest (bytesMoved + data.BytesConsumable)
      else
        let bytesToMove := numBytes - bytesMoved
        let dataCopy := IOBufferData.view data data.Consumer
          ((data.Consumer : Int) + bytesToMove).toNat
        (Consume cfuel ⟨data :: rest⟩ bytesToMove).bind fun other1 =>
          let bytesMoved1 := bytesMoved + bytesToMove
          if bytesMoved1 ≥ numBytes then
            Move.loop numBytes cfuel fuel (mBuf ++ [dataCopy]) other1.mBuf bytesMoved1
          else .assertFailed
    else .ok (mBuf, data :: rest)

/-- Embeds `IOBuffer::Move` (IOBuffer.cc:252-282): returns `this` and `other`
afterwards. -/
def Move (fuel : Nat) (c other : IOBuffer) (numBytes : Int) : Res (IOBuffer × IOBuffer) :=
  if other.BytesConsumable ≥ numBytes then
    (Move.loop numBytes fuel fuel c.mBuf other.mBuf 0).bind fun (mBuf, otherBuf) =>
      .ok (⟨mBuf⟩, ⟨otherBuf⟩)
  else .assertFailed

/-- A list iterator as an index: `none` is `end()`, `some i` the node at
index `i`.  This is the iterator that stands after `passed` when `rest`
follows. -/
def iterAt (passed rest : List IOBufferData) : Option Nat :=
  if rest.isEmpty then none else some passed.length

/-- The second `while` loop of `IOBuffer::Splice` ("find the insertion
point"); `B` is `IOBUFSIZE`, `passed` are the blocks before `iter` and `rest`
those from `iter` on.  Returns the heap, the two parts of the list, `insertPt`
and `startPos` at loop exit. -/
def Splice.find (B : Nat) (offset : Int) :
    Nat → Heap → List IOBufferData → List IOBufferData → Option Nat → Int →
    Res (Heap × List IOBufferData × List IOBufferData × Option Nat × Int)
  | _, h, passed, [], insertPt, startPos => .ok (h, passed, [], insertPt, startPos)
  | 0, h, passed, data :: rest, insertPt, startPos =>
    if startPos < offset then .outOfFuel else .ok (h, passed, data :: rest, insertPt, startPos)
  | fuel + 1, h, passed, data :: rest, insertPt, startPos =>
    if startPos < offset then
      if data.BytesConsumable + startPos > offset then
        let bytesToCopy := offset - startPos
        let (h1, dataCopy) := IOBufferData.Init h B
        (dataCopy.CopyInBlock h1 data bytesToCopy).bind fun (h2, dataCopy1, _) =>
          (data.Consume bytesToCopy).bind fun (data1, _) =>
            let passed1 := passed ++ [dataCopy1]
            Splice.find B offset fuel h2 passed1 (data1 :: rest)
              (iterAt passed1 (data1 :: rest)) (startPos + dataCopy1.BytesConsumable)
      else
        let passed1 := passed ++ [data]
        Splice.find B offset fuel h passed1 rest (iterAt passed1 rest)
          (startPos + data.BytesConsumable)
    else .ok (h, passed, data :: rest, insertPt, startPos)

/-- The third `while` loop of `IOBuffer::Splice` ("get rid of stuff between
[offset...offset+numBytes]"), on the blocks from `iter` on; `limit` is
`offset + numBytes`. -/
def Splice.erase (limit : Int) : List IOBufferData → Int → Res (List IOBufferData × Int)
  | [], startPos => .ok ([], startPos)
  | data :: rest, startPos =>
    if startPos < limit then
      let extra0 := data.BytesConsumable
      let extra := if startPos + extra0 > limit then limit - startPos else extra0
      (data.Consume extra).bind fun (data1, _) =>
        (Splice.erase limit rest (startPos + extra)).bind fun (rest1, startPos1) =>
          .ok (data1 :: rest1, startPos1)
    else .ok (data :: rest, startPos)

/-- Embeds `IOBuffer::Splice` (IOBuffer.cc:284-348): returns the heap, `this`
and `other` afterwards.  The first loop is, statement for statement, the loop
of `ZeroFill` run on `extra`.  `insertPt` is initialised to `begin()` before
that loop. -/
def Splice (B fuel : Nat) (h : Heap) (c other : IOBuffer) (offset numBytes : Int) :
    Res (Heap × IOBuffer × IOBuffer) :=
  let insertPt0 := iterAt [] c.mBuf
  let extra := offset - c.BytesConsumable
  (ZeroFill.loop B fuel h c.mBuf extra).bind fun (h1, mBuf1) =>
    if BytesConsumable ⟨mBuf1⟩ ≥ offset then
      if other.BytesConsumable ≥ numBytes then
        (Splice.find B offset fuel h1 [] mBuf1 insertPt0 0).bind
          fun (h2, passed, rest, insertPt, startPos) =>
            (Splice.erase (offset + numBytes) rest startPos).bind fun (rest1, _) =>
              let mBuf2 := passed ++ rest1
              match insertPt with
              | some i => .ok (h2, ⟨mBuf2.take i ++ other.mBuf ++ mBuf2.drop i⟩, ⟨[]⟩)
              | none =>
                .ok (h2, ⟨other.mBuf.foldl (fun mBuf data => mBuf ++ [data]) mBuf2⟩, ⟨[]⟩)
      else .assertFailed
    else .assertFailed

/-- No readable byte of a block of `b` lies where the chain `a` can write: in
`[consumer, end)` of the last block of `a`. -/
def Apart (a b : IOBuffer) : Prop :=
  ∀ t ∈ a.mBuf.getLast?, ∀ d ∈ b.mBuf, t.reachFree d

instance (a b : IOBuffer) : Decidable (Apart a b) := by
  unfold Apart; infer_instance

/-- The backing array of the last block of `a` is used by no other block of
`a` and by no block of `b`. -/
def TailArrayOwn (a b : IOBuffer) : Prop :=
  ∀ t ∈ a.mBuf.getLast?, ∀ d ∈ b.mBuf ++ a.mBuf.dropLast, d.mData ≠ t.mData

instance (a b : IOBuffer) : Decidable (TailArrayOwn a b) := by
  unfold TailArrayOwn; infer_instance

/-- Run one call on the chain: the heap and the chain afterwards. -/
def call (B fuel : Nat) (h : Heap) (c : IOBuffer) : ChainOp → Res (Heap × IOBuffer)
  | .CopyIn buf n => (c.CopyIn B fuel h buf n).bind fun (h1, c1, _) => .ok (h1, c1)
  | .ZeroFill n => c.ZeroFill B fuel h n
  | .Consume n => (c.Consume fuel n).bind fun c1 => .ok (h, c1)
  | .Trim n => (c.Trim n).bind fun c1 => .ok (h, c1)

/-- Run a sequence of calls on the chain, in order. -/
def calls (B fuel : Nat) : Heap → IOBuffer → List ChainOp → Res (Heap × IOBuffer)
  | h, c, [] => .ok (h, c)
  | h, c, op :: ops => (c.call B fuel h op).bind fun (h1, c1) => calls B fuel h1 c1 ops

end IOBuffer


/-- The call is a `Trim`. -/
def ChainOp.isTrim : ChainOp → Bool
  | .Trim _ => true
  | _ => false

namespace IOBuffer

/-- No readable byte of a block of `b` lies in the spare room
`[producer, end)` of the last block of `a`, where `CopyIn` on `a` writes. -/
def RoomApart (a b : IOBuffer) : Prop :=
  ∀ t ∈ a.mBuf.getLast?, ∀ d ∈ b.mBuf, t.roomFree d

instance (a b : IOBuffer) : Decidable (RoomApart a b) := by
  unfold RoomApart; infer_instance

end IOBuffer

/-! ## `Read` and `Write` on a descriptor -/

/-- What one `read()` or `write()` call gives: the value it returns, the value
of `errno` after it, and, for a `read()` that returns `ret > 0`, the `ret`
bytes the kernel stores in the buffer. -/
structure SysCall where
  ret : Int
  errno : Int
  bytes : List Byte

namespace IOBufferData

/-- Embeds `IOBufferData::Read(int fd)` (IOBuffer.cc:137-155); `sys` is what
the `read()` call gives.  The byte counter `ctrNetBytesRead` is left out. -/
def Read (h : Heap) (b : IOBufferData) (sys : SysCall) : Res (Heap × IOBufferData × Int) :=
  let numBytes : Int := (b.mEnd : Int) - b.mProducer
  if numBytes > 0 then
    let nread := sys.ret
    if nread > 0 then
      .ok (h.memcpy b.mData b.mProducer (sys.bytes.take nread.toNat),
        { b with mProducer := ((b.mProducer : Int) + nread).toNat }, nread)
    else .ok (h, b, nread)
  else .assertFailed

/-- Embeds `IOBufferData::Write(int fd)` (IOBuffer.cc:157-176); `sys` is what
the `write()` call gives.  The byte counter `ctrNetBytesWritten` is left out. -/
def Write (b : IOBufferData) (sys : SysCall) : Res (IOBufferData × Int) :=
  let numBytes : Int := (b.mProducer : Int) - b.mConsumer
  if numBytes > 0 then
    let nwrote := sys.ret
    if nwrote > 0 then
      .ok ({ b with mConsumer := ((b.mConsumer : Int) + nwrote).toNat }, nwrote)
    else .ok (b, nwrote)
  else .assertFailed

end IOBufferData

namespace IOBuffer

/-- The `while (1)` loop of `IOBuffer::Read`; `B` is `IOBUFSIZE`, `sys k` is
what the `k`-th `read()` call gives, `front` is the list without its last block
and `data` that last block (`mBuf.back()`), `k` counts the `read()` calls made
so far.  Returns the heap, the list, `res`, `numRead` and `errno` at the
`break`. -/
def Read.loop (B : Nat) (sys : Nat → SysCall) :
    Nat → Heap → List IOBufferData → IOBufferData → Nat → Int →
    Res (Heap × List IOBufferData × Int × Int × Int)
  | 0, _, _, _, _, _ => .outOfFuel
  | fuel + 1, h, front, data, k, numRead =>
    if data.IsFull then
      let (h1, data1) := IOBufferData.Init h B
      Read.loop B sys fuel h1 (front ++ [data]) data1 k numRead
    else
      (data.Read h (sys k)).bind fun (h1, data1, res) =>
        if res ≤ 0 then .ok (h1, front ++ [data1], res, numRead, (sys k).errno)
        else Read.loop B sys fuel h1 front data1 (k + 1) (numRead + res)

/-- Embeds `IOBuffer::Read(int fd)` (IOBuffer.cc:364-393); `EAGAIN` is the
value of that constant.  Returns the heap and the chain afterwards and the
value returned.  The loop is left only after a `read()` call, so `errno` at
the `return` is the one that call gave. -/
def Read (B fuel : Nat) (EAGAIN : Int) (sys : Nat → SysCall) (h : Heap) (c : IOBuffer) :
    Res (Heap × IOBuffer × Int) :=
  let r := match c.mBuf.getLast? with
    | none =>
      let (h1, data) := IOBufferData.Init h B
      Read.loop B sys fuel h1 c.mBuf data 0 0
    | some data => Read.loop B sys fuel h c.mBuf.dropLast data 0 0
  r.bind fun (h1, mBuf, res, numRead, errno) =>
    if numRead = 0 ∧ res < 0 then
      .ok (h1, ⟨mBuf⟩, if errno = 0 then -EAGAIN else errno)
    else .ok (h1, ⟨mBuf⟩, numRead)

/-- The `while (!mBuf.empty())` loop of `IOBuffer::Write`; `sys k` is what the
`k`-th `write()` call gives, `errno` is the current value of `errno`.  Returns
the list, `res`, `didSend`, `numWrote` and `errno` at loop exit. -/
def Write.loop (sys : Nat → SysCall) :
    Nat → List IOBufferData → Nat → Int → Int → Bool → Int →
    Res (List IOBufferData × Int × Bool × Int × Int)
  | _, [], _, errno, res, didSend, numWrote => .ok ([], res, didSend, numWrote, errno)
  | 0, _ :: _, _, _, _, _, _ => .outOfFuel
  | fuel + 1, data :: rest, k, errno, res, didSend, numWrote =>
    if data.IsEmpty then Write.loop sys fuel rest k errno res didSend numWrote
    else if data.BytesConsumable > 0 then
      (data.Write (sys k)).bind fun (data1, res1) =>
        if res1 ≤ 0 then .ok (data1 :: rest, res1, true, numWrote, (sys k).errno)
        else Write.loop sys fuel (data1 :: rest) (k + 1) (sys k).errno res1 true (numWrote + res1)
    else .assertFailed

/-- Embeds `IOBuffer::Write(int fd)` (IOBuffer.cc:396-425); `EAGAIN` is the
value of that constant and `errno0` the value of `errno` at the call.  Returns
the chain afterwards and the value returned. -/
def Write (fuel : Nat) (EAGAIN : Int) (sys : Nat → SysCall) (errno0 : Int) (c : IOBuffer) :
    Res (IOBuffer × Int) :=
  (Write.loop sys fuel c.mBuf 0 errno0 (-EAGAIN) false 0).bind
    fun (mBuf, res, didSend, numWrote, errno) =>
      if !didSend then .ok (⟨mBuf⟩, -EAGAIN)
      else if numWrote = 0 ∧ res < 0 then
        .ok (⟨mBuf⟩, if errno = 0 then -EAGAIN else errno)
      else .ok (⟨mBuf⟩, numWrote)

end IOBuffer

/-! ## The disk manager (`libkfsIO/DiskManager.cc`) -/

/-- Modelled from the spec: the operation kinds of a disk event ("operation
kind ∈ {READ, WRITE, SYNC}"), declared in a header that is not among the
sources, under the names `DiskManager.cc` uses. -/
inductive DiskEventOp_t where
  | OP_READ
  | OP_WRITE
  | OP_SYNC
deriving DecidableEq, Repr

/-- Modelled from the spec: the status of a disk event ("status ∈ {QUEUED,
CANCELLED, DONE}"), declared in a header that is not among the sources;
`EVENT_CANCELLED` and `EVENT_DONE` are the names `DiskManager.cc` uses. -/
inductive DiskEventStatus_t where
  | EVENT_QUEUED
  | EVENT_CANCELLED
  | EVENT_DONE
deriving DecidableEq, Repr

/-- Modelled from the spec: a disk event, declared in a header that is not
among the sources, with the members `DiskManager.cc` reads and writes: the
issuing connection, the target block (none for a sync), the operation, the
status, the return value and the kernel control block, here the number under
which the kernel knows the request. -/
structure DiskEvent_t where
  conn : Nat
  data : Option IOBufferData
  op : DiskEventOp_t
  status : DiskEventStatus_t
  retVal : Int
  aio_cb : Nat
deriving DecidableEq, Repr

/-- What the kernel answers during one tick: the constants `EINPROGRESS` and
`ECANCELED`, and for each control block the values of `aio_error` and
`aio_return`. -/
structure Kernel where
  EINPROGRESS : Int
  ECANCELED : Int
  aio_error : Nat → Int
  aio_return : Nat → Int

namespace DiskManager

/-- The `case 0: default:` branch of the switch in `DiskManager::Timeout`
(DiskManager.cc:97-124) up to the callback: the event as it is handed to
`HandleDone`.  A read event without a block would dereference a null pointer
in `event->data->Fill`. -/
def Timeout.complete (k : Kernel) (event : DiskEvent_t) : Res DiskEvent_t :=
  let aioRes := k.aio_return event.aio_cb
  let event1 := { event with status := DiskEventStatus_t.EVENT_DONE }
  (if event1.op = DiskEventOp_t.OP_READ ∧ aioRes > 0 then
      match event1.data with
      | some data => (data.Fill aioRes).bind fun (data1, _) =>
          .ok { event1 with data := some data1 }
      | none => .assertFailed
    else .ok event1).bind fun event2 => .ok { event2 with retVal := aioRes }

/-- The `for` loop of `DiskManager::Timeout` (DiskManager.cc:84-128) on the
list from `iter` on.  The loop has no increment and assigns `iter` only the
result of `erase(iter)`, so `iter` is `begin()` throughout and the list from
`iter` on is all of `mDiskEvents`; `break` leaves the `switch` only.  `calls`
collects the `HandleDone(event, aioStatus)` calls made so far (a callback is
taken not to touch the queue) and `dropped` the events erased without a call.
Returns `mDiskEvents`, `calls` and `dropped` at loop exit. -/
def Timeout.loop (k : Kernel) :
    Nat → List DiskEvent_t → List (DiskEvent_t × Int) → List DiskEvent_t →
    Res (List DiskEvent_t × List (DiskEvent_t × Int) × List DiskEvent_t)
  | _, [], calls, dropped => .ok ([], calls, dropped)
  | 0, _ :: _, _, _ => .outOfFuel
  | fuel + 1, event :: rest, calls, dropped =>
    if event.status = DiskEventStatus_t.EVENT_CANCELLED then
      Timeout.loop k fuel rest calls (dropped ++ [event])
    else
      let aioStatus := k.aio_error event.aio_cb
      if aioStatus = k.EINPROGRESS then
        Timeout.loop k fuel (event :: rest) calls dropped
      else if aioStatus = k.ECANCELED then
        Timeout.loop k fuel (event :: rest) calls dropped
      else
        (Timeout.complete k event).bind fun event1 =>
          Timeout.loop k fuel rest (calls ++ [(event1, aioStatus)]) dropped

/-- Embeds `DiskManager::Timeout` (DiskManager.cc:73-129) for one tick during
which the kernel answers as `k`: the queue `mDiskEvents` afterwards, the
`HandleDone` calls in the order made, and the events erased without a call. -/
def Timeout (k : Kernel) (fuel : Nat) (mDiskEvents : List DiskEvent_t) :
    Res (List DiskEvent_t × List (DiskEvent_t × Int) × List DiskEvent_t) :=
  Timeout.loop k fuel mDiskEvents [] []

/-- The tick cannot get past the event: the issuer has not cancelled it, and
the kernel reports it in progress or cancelled. -/
def Stuck (k : Kernel) (event : DiskEvent_t) : Prop :=
  event.status ≠ DiskEventStatus_t.EVENT_CANCELLED ∧
    (k.aio_error event.aio_cb = k.EINPROGRESS ∨ k.aio_error event.aio_cb = k.ECANCELED)

end DiskManager

/-! ## The disk manager: submission -/

/-- Modelled from the spec: the constructor of a disk event, declared in a
header that is not among the sources ("create a DiskEvent in state QUEUED").
`cb` is the control block of the new event and `retVal` what the constructor
leaves in the member `retVal`. -/
def DiskEvent_t.new (conn : Nat) (data : Option IOBufferData) (op : DiskEventOp_t) (cb : Nat)
    (retVal : Int) : DiskEvent_t :=
  ⟨conn, data, op, DiskEventStatus_t.EVENT_QUEUED, retVal, cb⟩

namespace DiskManager

/-- Embeds `DiskManager::Read` (DiskManager.cc:134-161).  `aio_read` is the
value the kernel returns for the request and `cb` the control block of the new
event; what the function stores in the control block (`aio_fildes`,
`aio_offset`, `aio_nbytes`, `aio_buf = data->Producer()`) is not kept.  Returns
`mDiskEvents`, `resultEvent` and the value returned. -/
def Read (mDiskEvents : List DiskEvent_t) (conn : Nat) (data : IOBufferData) (cb : Nat)
    (retVal0 : Int) (aio_read : Int) (resultEvent : Option DiskEvent_t) :
    Res (List DiskEvent_t × Option DiskEvent_t × Int) :=
  let event := DiskEvent_t.new conn (some data) DiskEventOp_t.OP_READ cb retVal0
  if aio_read < 0 then .ok (mDiskEvents, resultEvent, -1)
  else .ok (mDiskEvents ++ [event], some event, 0)

/-- Embeds `DiskManager::Write` (DiskManager.cc:166-195), as `Read`; the
function asserts `numBytes <= data->BytesConsumable()` before it asks the
kernel. -/
def Write (mDiskEvents : List DiskEvent_t) (conn : Nat) (data : IOBufferData)
    (numBytes : Int) (cb : Nat) (retVal0 : Int) (aio_write : Int)
    (resultEvent : Option DiskEvent_t) : Res (List DiskEvent_t × Option DiskEvent_t × Int) :=
  let event := DiskEvent_t.new conn (some data) DiskEventOp_t.OP_WRITE cb retVal0
  if numBytes ≤ data.BytesConsumable then
    if aio_write < 0 then .ok (mDiskEvents, resultEvent, -1)
    else .ok (mDiskEvents ++ [event], some event, 0)
  else .assertFailed

/-- Embeds `DiskManager::Sync` (DiskManager.cc:203-229), as `Read`; both
branches of the `#if` differ in the flag passed to `aio_fsync` only. -/
def Sync (mDiskEvents : List DiskEvent_t) (conn : Nat) (cb : Nat) (retVal0 : Int)
    (aio_fsync : Int) (resultEvent : Option DiskEvent_t) :
    Res (List DiskEvent_t × Option DiskEvent_t × Int) :=
  let event := DiskEvent_t.new conn none DiskEventOp_t.OP_SYNC cb retVal0
  if aio_fsync < 0 then .ok (mDiskEvents, resultEvent, -1)
  else .ok (mDiskEvents ++ [event], some event, 0)

end DiskManager

/-! ## The disk manager: runs of submissions, cancellations and ticks -/

namespace DiskManager

/-- One step of a run: a submission together with the kernel's answer to it,
the issuer marking the event with control block `cb` as cancelled, or a tick
during which the kernel answers as `k`. -/
inductive Step where
  | read (conn : Nat) (data : IOBufferData) (aio : Int)
  | write (conn : Nat) (data : IOBufferData) (numBytes : Int) (aio : Int)
  | sync (conn : Nat) (aio : Int)
  | cancel (cb : Nat)
  | tick (k : Kernel) (fuel : Nat)

/-- The disk manager during a run: the queue, the number of control blocks
handed out so far (the next event gets that number), and all `HandleDone`
calls made so far, in order. -/
structure State where
  mDiskEvents : List DiskEvent_t
  next : Nat
  calls : List (DiskEvent_t × Int)
deriving DecidableEq, Repr

/-- Modelled from the spec: the issuer marking an event as cancelled ("A
DiskEvent may be marked CANCELLED by the issuer at any time before reaping");
the issuer's code is not among the sources.  The event is found by its
control block. -/
def cancel (cb : Nat) (mDiskEvents : List DiskEvent_t) : List DiskEvent_t :=
  mDiskEvents.map fun e =>
    if e.aio_cb = cb then { e with status := DiskEventStatus_t.EVENT_CANCELLED } else e

/-- Run one step; `retVal0` is what the constructor of an event leaves in
`retVal`. -/
def step (retVal0 : Int) (s : State) : Step → Res State
  | .read conn data aio =>
    (Read s.mDiskEvents conn data s.next retVal0 aio none).bind fun (q, _, _) =>
      .ok ⟨q, s.next + 1, s.calls⟩
  | .write conn data numBytes aio =>
    (Write s.mDiskEvents conn data numBytes s.next retVal0 aio none).bind fun (q, _, _) =>
      .ok ⟨q, s.next + 1, s.calls⟩
  | .sync conn aio =>
    (Sync s.mDiskEvents conn s.next retVal0 aio none).bind fun (q, _, _) =>
      .ok ⟨q, s.next + 1, s.calls⟩
  | .cancel cb => .ok ⟨cancel cb s.mDiskEvents, s.next, s.calls⟩
  | .tick k fuel =>
    (Timeout k fuel s.mDiskEvents).bind fun (q, calls, _) =>
      .ok ⟨q, s.next, s.calls ++ calls⟩

/-- Run the steps in order. -/
def run (retVal0 : Int) : State → List Step → Res State
  | s, [] => .ok s
  | s, st :: sts => (step retVal0 s st).bind fun s1 => run retVal0 s1 sts

/-- The disk manager before any submission. -/
def State.init : State := ⟨[], 0, []⟩

/-- What a run keeps: the events in the queue have distinct control blocks,
all handed out, and none has status `EVENT_DONE`; the events `HandleDone` was
called for have distinct control blocks, all handed out, and none of them is
in the queue. -/
def State.Inv (s : State) : Prop :=
  (s.mDiskEvents.map (fun e => e.aio_cb)).Nodup ∧
  (∀ e ∈ s.mDiskEvents, e.aio_cb < s.next ∧ e.status ≠ DiskEventStatus_t.EVENT_DONE) ∧
  (s.calls.map (fun c => c.1.aio_cb)).Nodup ∧
  (∀ c ∈ s.calls, c.1.aio_cb < s.next) ∧
  (∀ c ∈ s.calls, ∀ e ∈ s.mDiskEvents, e.aio_cb ≠ c.1.aio_cb)

end DiskManager

/-! ## Log replay (`meta/replay.h`, `meta/startup.h`) -/

/-- Modelled from the spec: a record of the operation log ("an append-only
stream of metadata mutations, each tagged with its sequence number"); the
record format is not among the sources, and the mutation is left out. -/
structure LogRecord where
  seq : Int
deriving DecidableEq, Repr

/-- Modelled from the spec: a log file ("filenames carry a numeric suffix
indicating sequence number") with the records it holds, in order. -/
structure LogFile where
  number : Int
  records : List LogRecord
deriving DecidableEq, Repr

/-- Outcome of a replay: the sequence counter and the records applied, in
order, or the fatal error `SequenceGap`. -/
inductive ReplayResult where
  | ok (seq : Int) (applied : List LogRecord)
  | SequenceGap
deriving DecidableEq, Repr

/-- Embeds the data member `number` of `class Replay` (replay.h:35-45), the
sequence number of the log file. -/
structure Replay where
  number : Int
deriving DecidableEq, Repr

namespace Replay

/-- Embeds the constructor `Replay(): number(-1)` (replay.h:40). -/
def new : Replay := ⟨-1⟩

/-- Embeds `Replay::logno()` (replay.h:44). -/
def logno (r : Replay) : Int := r.number

/-- Modelled from the spec: `Replay::openlog`, declared in replay.h, whose
body is not among the sources: "openlog(path) selects a log file and extracts
its sequence number from the filename suffix". -/
def openlog (_ : Replay) (f : LogFile) : Replay := ⟨f.number⟩

/-- Modelled from the spec: `Replay::playlog()`, declared in replay.h, whose
body is not among the sources: "playlog() reads records in order, dispatches
by keyword, and applies mutations. Every applied record must advance a
monotonically increasing sequence counter; any gap or out-of-order record is
fatal."  `seq` is the sequence counter before the records, `applied` the
records applied so far. -/
def playlog : Int → List LogRecord → List LogRecord → ReplayResult
  | seq, applied, [] => .ok seq applied
  | seq, applied, r :: rs =>
    if r.seq = seq + 1 then playlog r.seq (applied ++ [r]) rs else .SequenceGap

/-- Modelled from the spec: the replay step of `kfs_startup`, declared in
startup.h, whose body is not among the sources: "locate log files in `logdir`
with sequence ≥ checkpoint's sequence, invoke Replay in order", where "log
files must form a gap-free sequence covering `[checkpoint_seq, current_seq]`".
`number` is the log file expected next. -/
def replayLogs : Int → Int → List LogRecord → List LogFile → ReplayResult
  | _, seq, applied, [] => .ok seq applied
  | number, seq, applied, f :: fs =>
    if (Replay.new.openlog f).logno = number then
      match playlog seq applied f.records with
      | .ok seq1 applied1 => replayLogs (number + 1) seq1 applied1 fs
      | .SequenceGap => .SequenceGap
    else .SequenceGap

/-- Modelled from the spec: startup from a checkpoint at sequence `cpseq` and
the log files of `logdir`, see `replayLogs`. -/
def startup (cpseq : Int) (logs : List LogFile) : ReplayResult :=
  replayLogs cpseq cpseq [] (logs.filter fun f => cpseq ≤ f.number)

end Replay
/-! ## Block-level facts: the operations on lengths `n ≥ 0` -/

namespace IOBufferData

theorem Fill_nat (b : IOBufferData) (n : Nat) (hb : b.mProducer ≤ b.mEnd) :
    b.Fill n = .ok ({ b with mProducer := b.mProducer + min n (b.mEnd - b.mProducer) },
      ((min n (b.mEnd - b.mProducer) : Nat) : Int)) := by
  unfold Fill
  dsimp only
  split_ifs with h1 h2
  · congr 2
    · congr 1; omega
    · omega
  · congr 2
    · congr 1; omega
    · omega
  · omega

theorem Consume_nat (b : IOBufferData) (n : Nat) (hb : b.mConsumer ≤ b.mProducer) :
    b.Consume n = .ok ({ b with mConsumer := b.mConsumer + min n (b.mProducer - b.mConsumer) },
      ((min n (b.mProducer - b.mConsumer) : Nat) : Int)) := by
  unfold Consume
  dsimp only
  split_ifs with h1 h2
  · congr 2
    · congr 1; omega
    · omega
  · congr 2
    · congr 1; omega
    · omega
  · omega

theorem Trim_nat (b : IOBufferData) (n : Nat) (hb : b.mConsumer ≤ b.mProducer) :
    b.Trim n = if n ≤ b.mProducer - b.mConsumer
      then ({ b with mProducer := b.mConsumer + n }, (n : Int))
      else (b, ((b.mProducer - b.mConsumer : Nat) : Int)) := by
  unfold Trim
  dsimp only
  split_ifs with h1 h2 h2
  · omega
  · congr 1; omega
  · congr 1
  · omega

end IOBufferData

/-! ## The heap -/

theorem Heap.get_of_lt (h : Heap) (id : Nat) (hid : id < h.arrays.length) :
    h.get id = h.arrays[id] := by
  simp [Heap.get, List.getD_eq_getElem?_getD, List.getElem?_eq_getElem hid]

theorem Heap.length_memcpy (h : Heap) (id off : Nat) (src : List Byte) :
    (h.memcpy id off src).arrays.length = h.arrays.length := by
  simp [Heap.memcpy]

theorem Heap.get_memcpy_same (h : Heap) (id off : Nat) (src : List Byte)
    (hid : id < h.arrays.length) :
    (h.memcpy id off src).get id = writeAt (h.get id) off src := by
  simp [Heap.memcpy, Heap.get, List.getD_eq_getElem?_getD, List.getElem?_set, hid]

theorem Heap.get_memcpy_ne (h : Heap) (id id1 off : Nat) (src : List Byte) (hne : id1 ≠ id) :
    (h.memcpy id off src).get id1 = h.get id1 := by
  simp [Heap.memcpy, Heap.get, List.getD_eq_getElem?_getD, List.getElem?_set, Ne.symm hne]

theorem Heap.length_alloc (h : Heap) (n : Nat) :
    (h.alloc n).1.arrays.length = h.arrays.length + 1 := by
  simp [Heap.alloc]

theorem Heap.get_alloc_old (h : Heap) (n id : Nat) (hid : id < h.arrays.length) :
    (h.alloc n).1.get id = h.get id := by
  simp [Heap.alloc, Heap.get, List.getD_eq_getElem?_getD, List.getElem?_append_left hid]

theorem Heap.length_get_alloc_new (h : Heap) (n : Nat) :
    ((h.alloc n).1.get h.arrays.length).length = n := by
  simp [Heap.alloc, Heap.get, List.getD_eq_getElem?_getD]

/-! ## `writeAt` -/

theorem length_writeAt (arr src : List Byte) (off : Nat) (hb : off + src.length ≤ arr.length) :
    (writeAt arr off src).length = arr.length := by
  simp [writeAt]; omega

/-- A window that ends where the write starts grows by the written bytes. -/
theorem slice_writeAt_extend (arr src : List Byte) (c p : Nat) (hcp : c ≤ p)
    (hp : p ≤ arr.length) :
    ((writeAt arr p src).drop c).take (p + src.length - c) =
      (arr.drop c).take (p - c) ++ src := by
  unfold writeAt
  have hl : (arr.take p).length = p := by simp; omega
  rw [List.append_assoc, List.drop_append_of_le_length (by omega)]
  rw [← List.append_assoc, List.take_left' (by simp; omega)]
  rw [List.drop_take]

/-- A window that does not meet the written range is unchanged. -/
theorem slice_writeAt_disjoint (arr src : List Byte) (off c p : Nat)
    (hoff : off + src.length ≤ arr.length)
    (hd : min p (off + src.length) ≤ max c off) :
    ((writeAt arr off src).drop c).take (p - c) = (arr.drop c).take (p - c) := by
  by_cases hcp : p ≤ c
  · have : p - c = 0 := by omega
    simp [this]
  have hl : (arr.take off).length = off := by simp; omega
  by_cases h1 : p ≤ off
  · unfold writeAt
    rw [List.append_assoc, List.drop_append_of_le_length (by omega),
      List.take_append_of_le_length (by rw [List.length_drop, hl]; omega), List.drop_take,
      List.take_take]
    congr 1; omega
  · by_cases hs : src.length = 0
    · have : src = [] := List.length_eq_zero.mp hs
      subst this
      simp [writeAt]
    have h2 : off + src.length ≤ c := by omega
    unfold writeAt
    have hl2 : (arr.take off ++ src).length = off + src.length := by simp; omega
    rw [List.drop_append_eq_append_drop, hl2, List.drop_drop]
    have : List.drop c (List.take off arr ++ src) = [] := by
      apply List.drop_eq_nil_of_le; omega
    rw [this, List.nil_append]
    congr 2; omega

theorem Heap.memcpy_of_not_lt (h : Heap) (id off : Nat) (src : List Byte)
    (hid : ¬ id < h.arrays.length) : h.memcpy id off src = h := by
  unfold Heap.memcpy
  rw [List.set_eq_of_length_le (by omega)]

theorem Heap.length_get_memcpy (h : Heap) (id off : Nat) (src : List Byte)
    (hb : off + src.length ≤ (h.get id).length) (id1 : Nat) :
    ((h.memcpy id off src).get id1).length = (h.get id1).length := by
  by_cases hid : id < h.arrays.length
  · by_cases he : id1 = id
    · subst he
      rw [Heap.get_memcpy_same h _ off src hid, length_writeAt _ _ _ hb]
    · rw [Heap.get_memcpy_ne h id id1 off src he]
  · rw [Heap.memcpy_of_not_lt h id off src hid]

namespace IOBufferData

theorem CopyIn_nat (h : Heap) (b : IOBufferData) (buf : List Byte) (n : Nat)
    (hb : b.mProducer ≤ b.mEnd) :
    b.CopyIn h buf n =
      .ok (h.memcpy b.mData b.mProducer (buf.take (min n (b.mEnd - b.mProducer))),
        { b with mProducer := b.mProducer + min n (b.mEnd - b.mProducer) },
        ((min n (b.mEnd - b.mProducer) : Nat) : Int)) := by
  unfold CopyIn
  dsimp only
  have e1 : ((b.mEnd : Int) - b.mProducer) = ((b.mEnd - b.mProducer : Nat) : Int) := by omega
  split_ifs with hlt
  · have e2 : min n (b.mEnd - b.mProducer) = b.mEnd - b.mProducer := by omega
    rw [e1, Fill_nat b _ hb, e2]
    simp [Res.bind]
  · have e2 : min n (b.mEnd - b.mProducer) = n := by omega
    rw [Fill_nat b _ hb, e2]
    simp [Res.bind]

theorem WF_memcpy (h : Heap) (b : IOBufferData) (id off : Nat) (src : List Byte)
    (hb : off + src.length ≤ (h.get id).length) (hw : b.WF h) :
    b.WF (h.memcpy id off src) := by
  obtain ⟨h1, h2, h3⟩ := hw
  exact ⟨h1, by rw [Heap.length_get_memcpy h id off src hb]; exact h2,
    by rw [Heap.length_memcpy]; exact h3⟩

theorem WF_alloc (h : Heap) (b : IOBufferData) (n : Nat) (hw : b.WF h) :
    b.WF (h.alloc n).1 := by
  obtain ⟨h1, h2, h3⟩ := hw
  exact ⟨h1, by rw [Heap.get_alloc_old h n _ h3]; exact h2,
    by rw [Heap.length_alloc]; omega⟩

theorem WF_Init (h : Heap) (B : Nat) : (Init h B).2.WF (Init h B).1 := by
  refine ⟨?_, ?_, ?_⟩
  · simp [Init, Inv]
  · show 0 + B ≤ ((h.alloc B).1.get h.arrays.length).length
    rw [Heap.length_get_alloc_new]
    omega
  · simp only [Init, Heap.length_alloc]
    show h.arrays.length < _
    omega

theorem readable_alloc (h : Heap) (b : IOBufferData) (n : Nat) (hw : b.mData < h.arrays.length) :
    b.readable (h.alloc n).1 = b.readable h := by
  simp only [readable, Heap.get_alloc_old h n _ hw]

theorem readable_memcpy_frame (h : Heap) (t b : IOBufferData) (src : List Byte)
    (hs : t.mProducer + src.length ≤ t.mEnd) (ht : t.mEnd ≤ (h.get t.mData).length)
    (hf : t.roomFree b) :
    b.readable (h.memcpy t.mData t.mProducer src) = b.readable h := by
  unfold readable
  by_cases he : b.mData = t.mData
  · by_cases hid : t.mData < h.arrays.length
    · rw [he, Heap.get_memcpy_same h _ _ _ hid]
      apply slice_writeAt_disjoint
      · omega
      · rcases hf with hf | hf
        · exact absurd he hf
        · omega
    · rw [Heap.memcpy_of_not_lt h _ _ _ hid]
  · rw [Heap.get_memcpy_ne h _ _ _ _ he]

theorem readable_memcpy_extend (h : Heap) (t : IOBufferData) (src : List Byte)
    (hw : t.WF h) :
    readable (h.memcpy t.mData t.mProducer src)
      { t with mProducer := t.mProducer + src.length } = t.readable h ++ src := by
  obtain ⟨⟨_, h2, h3⟩, h4, h5⟩ := hw
  unfold readable
  dsimp only
  rw [Heap.get_memcpy_same h _ _ _ h5]
  exact slice_writeAt_extend _ _ _ _ h2 (by omega)

theorem length_readable (h : Heap) (b : IOBufferData) (hw : b.WF h) :
    (b.readable h).length = b.mProducer - b.mConsumer := by
  obtain ⟨⟨_, h2, h3⟩, h4, h5⟩ := hw
  simp only [readable, List.length_take, List.length_drop]
  omega

end IOBufferData

namespace IOBuffer

theorem content_append (h : Heap) (l1 l2 : List IOBufferData) :
    content h ⟨l1 ++ l2⟩ = content h ⟨l1⟩ ++ content h ⟨l2⟩ := by
  simp [content]

theorem content_cons (h : Heap) (b : IOBufferData) (l : List IOBufferData) :
    content h ⟨b :: l⟩ = b.readable h ++ content h ⟨l⟩ := by
  simp [content]

theorem content_nil (h : Heap) : content h ⟨[]⟩ = [] := by
  simp [content]

theorem content_congr (h h1 : Heap) (l : List IOBufferData)
    (hf : ∀ b ∈ l, b.readable h1 = b.readable h) :
    content h1 ⟨l⟩ = content h ⟨l⟩ := by
  simp only [content]
  congr 1
  exact List.map_congr_left hf

end IOBuffer

namespace IOBuffer

theorem blocksFor_zero (B : Nat) (hB : 1 ≤ B) : blocksFor B 0 = 0 := by
  unfold blocksFor
  exact Nat.div_eq_of_lt (by omega)

theorem blocksFor_step (B r : Nat) (hB : 1 ≤ B) (hr : 1 ≤ r) :
    blocksFor B r = blocksFor B (r - B) + 1 := by
  unfold blocksFor
  by_cases h : B ≤ r
  · have e : r + B - 1 = (r - B + B - 1) + B := by omega
    rw [e, Nat.add_div_right _ (by omega)]
  · have e0 : r - B = 0 := by omega
    have e : r + B - 1 = (r - 1) + B := by omega
    have e1 : 0 + B - 1 < B := by omega
    rw [e0, Nat.div_eq_of_lt e1, e, Nat.add_div_right _ (by omega), Nat.div_eq_of_lt (by omega)]

theorem freshBlocks_zero (B base : Nat) (hB : 1 ≤ B) :
    freshBlocks B base (blocksFor B 0) 0 = [] := by
  rw [blocksFor_zero B hB]; rfl

theorem freshBlocks_step (B base r : Nat) (hB : 1 ≤ B) (hr : 1 ≤ r) :
    freshBlocks B base (blocksFor B r) r =
      ⟨base, 0, B, min B r, 0⟩ :: freshBlocks B (base + 1) (blocksFor B (r - B)) (r - B) := by
  rw [blocksFor_step B r hB hr]; rfl

end IOBuffer

namespace IOBufferData

theorem Init_eq (h : Heap) (B : Nat) :
    Init h B = ((h.alloc B).1, ⟨h.arrays.length, 0, B, 0, 0⟩) := by
  simp [Init, Heap.alloc]

end IOBufferData

namespace IOBuffer

theorem CopyIn_loop_spec (B : Nat) (hB : 1 ≤ B) (buf : List Byte) (n : Nat)
    (hbuf : n ≤ buf.length) :
    ∀ (fuel : Nat) (h : Heap) (front : List IOBufferData) (data : IOBufferData) (m k : Nat),
      m ≤ n → data.WF h → k = min (n - m) (data.mEnd - data.mProducer) →
      (n - m) + (if data.mProducer = data.mEnd then 1 else 0) ≤ fuel →
      ∃ h1 : Heap,
        CopyIn.loop B buf n fuel h front data m =
          .ok (h1, ⟨front ++ { data with mProducer := data.mProducer + k } ::
            freshBlocks B h.arrays.length (blocksFor B (n - m - k)) (n - m - k)⟩, (n : Int)) ∧
        (∀ b : IOBufferData, b.WF h → b.WF h1) ∧
        (∀ b : IOBufferData, b.WF h → data.roomFree b → b.readable h1 = b.readable h) ∧
        IOBufferData.WF h1 { data with mProducer := data.mProducer + k } ∧
        IOBufferData.readable h1 { data with mProducer := data.mProducer + k } =
          data.readable h ++ (buf.drop m).take k ∧
        (∀ b ∈ freshBlocks B h.arrays.length (blocksFor B (n - m - k)) (n - m - k), b.WF h1) ∧
        content h1 ⟨freshBlocks B h.arrays.length (blocksFor B (n - m - k)) (n - m - k)⟩ =
          (buf.drop (m + k)).take (n - m - k) := by
  intro fuel
  induction fuel with
  | zero =>
    intro h front data m k hm hw hk hf
    have hmn : m = n := by omega
    subst hmn
    have hk0 : k = 0 := by omega
    subst hk0
    have e0 : m - m - 0 = 0 := by omega
    rw [e0, freshBlocks_zero B _ hB]
    refine ⟨h, ?_, fun _ hb => hb, fun _ _ _ => rfl, ?_, ?_, ?_, ?_⟩
    · simp [CopyIn.loop]
    · simpa using hw
    · simp
    · simp
    · simp [content]
  | succ fuel ih =>
    intro h front data m k hm hw hk hf
    by_cases hlt : m < n
    · obtain ⟨⟨hi1, hi2, hi3⟩, hlen, hid⟩ := hw
      have hw : data.WF h := ⟨⟨hi1, hi2, hi3⟩, hlen, hid⟩
      have hc : ((m : Nat) : Int) < (n : Int) := by omega
      have e1 : (n : Int) - (m : Int) = ((n - m : Nat) : Int) := by omega
      have e2 : ∀ j : Nat, (m : Int) + (j : Int) = ((m + j : Nat) : Int) := by
        intro j; omega
      have hsrc : ((buf.drop m).take k).length = k := by
        simp only [List.length_take, List.length_drop]; omega
      simp only [CopyIn.loop, if_pos hc, e1, Int.toNat_ofNat,
        IOBufferData.CopyIn_nat h data _ _ hi3, ← hk, Res.bind, e2]
      -- facts about the first copy
      have hwr : data.mProducer + ((buf.drop m).take k).length ≤ data.mEnd := by
        rw [hsrc]; omega
      have hwr2 : data.mProducer + ((buf.drop m).take k).length ≤ (h.get data.mData).length := by
        omega
      have hW1 : ∀ b : IOBufferData, b.WF h →
          b.WF (h.memcpy data.mData data.mProducer ((buf.drop m).take k)) :=
        fun b hb => IOBufferData.WF_memcpy h b _ _ _ hwr2 hb
      have hR1 : ∀ b : IOBufferData, data.roomFree b →
          b.readable (h.memcpy data.mData data.mProducer ((buf.drop m).take k)) =
            b.readable h := by
        intro b hb
        apply IOBufferData.readable_memcpy_frame h data b _ hwr hlen
        exact hb
      have hD1 : IOBufferData.readable
          (h.memcpy data.mData data.mProducer ((buf.drop m).take k))
          { data with mProducer := data.mProducer + k } =
            data.readable h ++ (buf.drop m).take k := by
        have := IOBufferData.readable_memcpy_extend h data ((buf.drop m).take k) hw
        rw [hsrc] at this
        exact this
      have hDW1 : IOBufferData.WF
          (h.memcpy data.mData data.mProducer ((buf.drop m).take k))
          { data with mProducer := data.mProducer + k } := by
        refine ⟨⟨hi1, ?_, ?_⟩, ?_, ?_⟩
        · show data.mConsumer ≤ data.mProducer + k
          omega
        · show data.mProducer + k ≤ data.mEnd
          omega
        · show data.mEnd ≤ _
          rw [Heap.length_get_memcpy h _ _ _ hwr2]; exact hlen
        · show data.mData < _
          rw [Heap.length_memcpy]; exact hid
      by_cases hdone : n ≤ m + k
      · have hc2 : ((m + k : Nat) : Int) ≥ (n : Int) := by omega
        have e0 : n - m - k = 0 := by omega
        rw [if_pos hc2, e0, freshBlocks_zero B _ hB]
        have e3 : m + k = n := by omega
        refine ⟨_, ?_, hW1, fun b _ hb => hR1 b hb, hDW1, hD1, ?_, ?_⟩
        · rw [e3]
        · simp
        · simp [content]
      · have hc2 : ¬ ((m + k : Nat) : Int) ≥ (n : Int) := by omega
        have hr1 : 1 ≤ n - m - k := by omega
        have hb1 : min B (n - m - k) = 0 + min (n - (m + k)) (B - 0) := by omega
        have er : n - (m + k) - min (n - (m + k)) (B - 0) = n - m - k - B := by omega
        rw [if_neg hc2, IOBufferData.Init_eq, freshBlocks_step B _ _ hB hr1]
        have hfuel : (n - (m + k)) +
            (if (0 : Nat) = B then 1 else 0) ≤ fuel := by
          have hB0 : ¬ (0 : Nat) = B := by omega
          rw [if_neg hB0]
          split_ifs at hf <;> omega
        have hwI := IOBufferData.WF_Init
          (h.memcpy data.mData data.mProducer ((buf.drop m).take k)) B
        rw [IOBufferData.Init_eq] at hwI
        obtain ⟨h2, hres, hW2, hR2, hDW2, hD2, hFW2, hFC2⟩ :=
          ih (Heap.alloc (h.memcpy data.mData data.mProducer ((buf.drop m).take k)) B).1
            (front ++ [{ data with mProducer := data.mProducer + k }])
            ⟨(h.memcpy data.mData data.mProducer ((buf.drop m).take k)).arrays.length, 0, B, 0, 0⟩
            (m + k) (min (n - (m + k)) (B - 0)) (by omega) hwI rfl hfuel
        simp only [Heap.length_alloc, Heap.length_memcpy, er, ← hb1] at hres hW2 hR2 hDW2 hD2 hFW2 hFC2
        have hfresh : ∀ b : IOBufferData,
            b.WF (h.memcpy data.mData data.mProducer ((buf.drop m).take k)) →
            IOBufferData.roomFree ⟨h.arrays.length, 0, B, 0, 0⟩ b := by
          intro b hb
          left
          have := hb.2.2
          rw [Heap.length_memcpy] at this
          show b.mData ≠ h.arrays.length
          omega
        have hold : ∀ b : IOBufferData,
            b.WF (h.memcpy data.mData data.mProducer ((buf.drop m).take k)) →
            b.readable h2 = b.readable (h.memcpy data.mData data.mProducer ((buf.drop m).take k)) := by
          intro b hb
          rw [hR2 b (IOBufferData.WF_alloc _ b B hb) (hfresh b hb),
            IOBufferData.readable_alloc _ b B hb.2.2]
        refine ⟨h2, ?_, ?_, ?_, ?_, ?_, ?_, ?_⟩
        · simp only [Heap.length_memcpy, hres, List.append_assoc, List.singleton_append]
        · intro b hb
          exact hW2 b (IOBufferData.WF_alloc _ b B (hW1 b hb))
        · intro b hb hfree
          rw [hold b (hW1 b hb), hR1 b hfree]
        · exact hW2 _ (IOBufferData.WF_alloc _ _ B hDW1)
        · rw [hold _ hDW1, hD1]
        · intro b hb
          rcases List.mem_cons.mp hb with hb | hb
          · rw [hb]; exact hDW2
          · exact hFW2 b hb
        · rw [content_cons, hD2, hFC2]
          have hsplit : n - m - k = min (n - (m + k)) (B - 0) + (n - m - k - B) := by omega
          have hnil : IOBufferData.readable
              ((h.memcpy data.mData data.mProducer (List.take k (List.drop m buf))).alloc B).1
              ⟨h.arrays.length, 0, B, 0, 0⟩ = [] := by
            simp [IOBufferData.readable]
          rw [hnil, List.nil_append]
          conv_rhs => rw [hsplit, List.take_add, List.drop_drop]
    · have hmn : m = n := by omega
      subst hmn
      have hk0 : k = 0 := by omega
      subst hk0
      have e0 : m - m - 0 = 0 := by omega
      rw [e0, freshBlocks_zero B _ hB]
      refine ⟨h, ?_, fun _ hb => hb, fun _ _ _ => rfl, ?_, ?_, ?_, ?_⟩
      · simp [CopyIn.loop]
      · simpa using hw
      · simp
      · simp
      · simp [content]

end IOBuffer

namespace IOBuffer

theorem foldl_BytesConsumable (l : List IOBufferData) (a : Int) :
    l.foldl (fun numBytes data => numBytes + data.BytesConsumable) a =
      a + (l.map IOBufferData.BytesConsumable).sum := by
  induction l generalizing a with
  | nil => simp
  | cons b l ih => simp only [List.foldl_cons, ih, List.map_cons, List.sum_cons]; omega

theorem BytesConsumable_eq_sum (c : IOBuffer) :
    c.BytesConsumable = (c.mBuf.map IOBufferData.BytesConsumable).sum := by
  simp [BytesConsumable, foldl_BytesConsumable]

theorem BytesConsumable_cons (b : IOBufferData) (l : List IOBufferData) :
    BytesConsumable ⟨b :: l⟩ = b.BytesConsumable + BytesConsumable ⟨l⟩ := by
  simp [BytesConsumable_eq_sum]

theorem BytesConsumable_nil : BytesConsumable ⟨[]⟩ = 0 := rfl

theorem BytesConsumable_eq_length (h : Heap) (c : IOBuffer) (hw : c.WF h) :
    c.BytesConsumable = ((content h c).length : Int) := by
  obtain ⟨l⟩ := c
  induction l with
  | nil => simp [BytesConsumable, content]
  | cons b l ih =>
    have hb : b.WF h := hw b (List.mem_cons_self _ _)
    have hl : WF h ⟨l⟩ := fun x hx => hw x (List.mem_cons_of_mem _ hx)
    rw [BytesConsumable_cons, content_cons, List.length_append, ih hl,
      IOBufferData.length_readable h b hb]
    obtain ⟨⟨_, h2, _⟩, _, _⟩ := hb
    unfold IOBufferData.BytesConsumable
    omega

theorem WF_empty (h : Heap) : empty.WF h := by
  intro b hb
  simp [empty] at hb

theorem CopyIn_spec (B : Nat) (hB : 1 ≤ B) (h : Heap) (c : IOBuffer) (buf : List Byte) (n : Nat)
    (hbuf : n ≤ buf.length) (hw : c.WF h) (hfree : c.TailRoomFree) (fuel : Nat)
    (hfuel : n + 1 ≤ fuel) :
    ∃ h1 c1, c.CopyIn B fuel h buf n = .ok (h1, c1, (n : Int)) ∧
      c1.WF h1 ∧ content h1 c1 = content h c ++ buf.take n ∧
      (∀ b : IOBufferData, b.WF h → b.WF h1) ∧
      (∀ b : IOBufferData, b.WF h → (∀ t ∈ c.mBuf.getLast?, t.roomFree b) →
        b.readable h1 = b.readable h) ∧
      (c.mBuf = [] → 1 ≤ n → c1.mBuf = freshBlocks B h.arrays.length (blocksFor B n) n) := by
  obtain ⟨l⟩ := c
  rcases List.eq_nil_or_concat l with hl | ⟨front, t, hl⟩
  · subst hl
    have hwI := IOBufferData.WF_Init h B
    rw [IOBufferData.Init_eq] at hwI
    obtain ⟨h1, hres, hW, hR, hDW, hD, hFW, hFC⟩ :=
      CopyIn_loop_spec B hB buf n hbuf fuel (h.alloc B).1 [] ⟨h.arrays.length, 0, B, 0, 0⟩ 0
        (min (n - 0) (B - 0)) (by omega) hwI rfl (by
          have hB0 : ¬ (0 : Nat) = B := by omega
          rw [if_neg hB0]; omega)
    dsimp only at hres hW hR hDW hD hFW hFC
    have hun : CopyIn B fuel h ⟨[]⟩ buf n = CopyIn.loop B buf n fuel (h.alloc B).1 []
        ⟨h.arrays.length, 0, B, 0, 0⟩ ((0 : Nat) : Int) := by
      simp only [CopyIn, List.getLast?_nil, IOBufferData.Init_eq]
      rfl
    rw [← hun] at hres
    refine ⟨h1, _, hres, ?_, ?_, ?_, ?_, ?_⟩
    · intro b hb
      rcases List.mem_append.mp hb with hb | hb
      · simp at hb
      · rcases List.mem_cons.mp hb with hb | hb
        · rw [hb]; exact hDW
        · exact hFW b hb
    · rw [content_append, content_cons, hD, hFC, content_nil, content_nil]
      have hsplit : n = min (n - 0) (B - 0) + (n - 0 - min (n - 0) (B - 0)) := by omega
      conv_rhs => rw [hsplit, List.take_add]
      simp [IOBufferData.readable]
    · intro b hb
      exact hW b (IOBufferData.WF_alloc h b B hb)
    · intro b hb _
      rw [hR b (IOBufferData.WF_alloc h b B hb) (by
        left
        have := hb.2.2
        show b.mData ≠ h.arrays.length
        omega), IOBufferData.readable_alloc h b B hb.2.2]
    · intro _ hn
      simp only [List.nil_append, Heap.length_alloc, Nat.sub_zero, Nat.zero_add]
      rw [freshBlocks_step B _ n hB hn]
      have e1 : n ⊓ B = B ⊓ n := Nat.min_comm _ _
      have e2 : n - n ⊓ B = n - B := by omega
      rw [e2, e1]
  · rw [List.concat_eq_append] at hl
    subst hl
    have hwt : t.WF h := hw t (by simp)
    have hwf : ∀ b ∈ front, b.WF h := fun b hb => hw b (by simp [hb])
    have hfr : ∀ b ∈ front, t.roomFree b := by
      intro b hb
      have := hfree t (by simp) b (by simpa using hb)
      exact this
    obtain ⟨h1, hres, hW, hR, hDW, hD, hFW, hFC⟩ :=
      CopyIn_loop_spec B hB buf n hbuf fuel h front t 0
        (min (n - 0) (t.mEnd - t.mProducer)) (by omega) hwt rfl (by
          split_ifs <;> omega)
    have hun : CopyIn B fuel h ⟨front ++ [t]⟩ buf n =
        CopyIn.loop B buf n fuel h front t ((0 : Nat) : Int) := by
      simp only [CopyIn, List.getLast?_concat, List.dropLast_concat]
      rfl
    rw [← hun] at hres
    refine ⟨h1, _, hres, ?_, ?_, hW, ?_, ?_⟩
    · intro b hb
      rcases List.mem_append.mp hb with hb | hb
      · exact hW b (hwf b hb)
      · rcases List.mem_cons.mp hb with hb | hb
        · rw [hb]; exact hDW
        · exact hFW b hb
    · rw [content_append, content_cons, hD, hFC, content_append, content_cons, content_nil,
        content_congr h h1 front (fun b hb => hR b (hwf b hb) (hfr b hb))]
      have hsplit : n = min (n - 0) (t.mEnd - t.mProducer) +
          (n - 0 - min (n - 0) (t.mEnd - t.mProducer)) := by omega
      conv_rhs => rw [hsplit, List.take_add]
      simp
    · intro b hb ht
      exact hR b hb (ht t (by simp))
    · intro hnil
      simp at hnil

end IOBuffer

theorem writeAt_nil (dst : List Byte) (off : Nat) : writeAt dst off [] = dst := by
  simp [writeAt]

theorem writeAt_writeAt (dst a b : List Byte) (off : Nat) (hoff : off ≤ dst.length) :
    writeAt (writeAt dst off a) (off + a.length) b = writeAt dst off (a ++ b) := by
  unfold writeAt
  have hl : (dst.take off ++ a).length = off + a.length := by simp; omega
  rw [List.take_left' hl, List.drop_append_eq_append_drop, hl, List.drop_drop]
  have e : List.drop (off + a.length + b.length) (List.take off dst ++ a) = [] := by
    apply List.drop_eq_nil_of_le; omega
  rw [e]
  have e2 : off + a.length + (off + a.length + b.length - (off + a.length)) =
      off + (a.length + b.length) := by omega
  simp only [List.nil_append, List.append_assoc, List.length_append, e2]

namespace IOBufferData

theorem CopyOut_nat (h : Heap) (b : IOBufferData) (dst : List Byte) (curr j : Nat)
    (hb : b.mConsumer ≤ b.mProducer) :
    b.CopyOut h dst curr j =
      .ok (writeAt dst curr ((b.readable h).take j),
        ((min j (b.mProducer - b.mConsumer) : Nat) : Int)) := by
  unfold CopyOut readable
  dsimp only
  have hge : (b.mProducer : Int) - b.mConsumer ≥ 0 := by omega
  rw [if_pos hge]
  split_ifs with h1 h2
  · have e : b.mProducer - b.mConsumer = 0 := by omega
    simp [e, writeAt_nil]
  · have e : min j (b.mProducer - b.mConsumer) = j := by omega
    rw [Int.toNat_ofNat, List.take_take, e]
  · have e : min j (b.mProducer - b.mConsumer) = b.mProducer - b.mConsumer := by omega
    have e2 : ((b.mProducer : Int) - b.mConsumer).toNat = b.mProducer - b.mConsumer := by omega
    rw [List.take_take, e, e2]
    congr 2
    omega

end IOBufferData

namespace IOBuffer

theorem CopyOut_loop_spec (h : Heap) (n : Nat) :
    ∀ (l : List IOBufferData) (dst : List Byte) (m : Nat),
      (∀ b ∈ l, b.WF h) → m ≤ n → n ≤ dst.length →
      CopyOut.loop h n l dst m m =
        .ok (writeAt dst m ((content h ⟨l⟩).take (n - m)),
          ((m + ((content h ⟨l⟩).take (n - m)).length : Nat) : Int)) := by
  intro l
  induction l with
  | nil =>
    intro dst m _ _ _
    simp [CopyOut.loop, content, writeAt_nil]
  | cons b rest ih =>
    intro dst m hw hm hd
    have hb : b.WF h := hw b (List.mem_cons_self _ _)
    have hrest : ∀ x ∈ rest, x.WF h := fun x hx => hw x (List.mem_cons_of_mem _ hx)
    have hlen := IOBufferData.length_readable h b hb
    obtain ⟨⟨_, h2, _⟩, _, _⟩ := hb
    have e1 : (n : Int) - (m : Int) = ((n - m : Nat) : Int) := by omega
    simp only [CopyOut.loop, e1, IOBufferData.CopyOut_nat h b dst m _ h2, Res.bind]
    have hk : ((min (n - m) (b.mProducer - b.mConsumer) : Nat) : Int) ≥ 0 := by omega
    have e2 : ((m : Int) + ((min (n - m) (b.mProducer - b.mConsumer) : Nat) : Int)).toNat =
        m + min (n - m) (b.mProducer - b.mConsumer) := by omega
    have e3 : (m : Int) + ((min (n - m) (b.mProducer - b.mConsumer) : Nat) : Int) =
        ((m + min (n - m) (b.mProducer - b.mConsumer) : Nat) : Int) := by omega
    have hassert : ((m + min (n - m) (b.mProducer - b.mConsumer) : Nat) : Int) ≤ 0 + (n : Int) := by
      omega
    rw [if_pos hk]
    simp only [e3, Int.toNat_ofNat, if_pos hassert]
    rw [content_cons]
    have hlt : ((b.readable h).take (n - m)).length = min (n - m) (b.mProducer - b.mConsumer) := by
      rw [List.length_take, hlen]
    by_cases hdone : n ≤ m + min (n - m) (b.mProducer - b.mConsumer)
    · have hc : ((m + min (n - m) (b.mProducer - b.mConsumer) : Nat) : Int) ≥ (n : Int) := by omega
      rw [if_pos hc]
      have hta : (b.readable h ++ content h ⟨rest⟩).take (n - m) = (b.readable h).take (n - m) := by
        apply List.take_append_of_le_length; omega
      rw [hta, hlt]
    · have hc : ¬ ((m + min (n - m) (b.mProducer - b.mConsumer) : Nat) : Int) ≥ (n : Int) := by omega
      rw [if_neg hc]
      have hmin : min (n - m) (b.mProducer - b.mConsumer) = b.mProducer - b.mConsumer := by omega
      have hall : (b.readable h).take (n - m) = b.readable h := by
        apply List.take_of_length_le; omega
      have hd1 : n ≤ (writeAt dst m (b.readable h)).length := by
        rw [length_writeAt _ _ _ (by omega)]; exact hd
      rw [hall, hmin, ih (writeAt dst m (b.readable h)) (m + (b.mProducer - b.mConsumer)) hrest
        (by omega) hd1]
      have hta : (b.readable h ++ content h ⟨rest⟩).take (n - m) =
          b.readable h ++ (content h ⟨rest⟩).take (n - (m + (b.mProducer - b.mConsumer))) := by
        rw [List.take_append_eq_append_take, hall, hlen]
        congr 2
        omega
      rw [hta, ← hlen, writeAt_writeAt _ _ _ _ (by omega)]
      simp only [List.length_append]
      congr 2
      rw [hlen]; omega

end IOBuffer

namespace IOBufferData

theorem readable_consume (h : Heap) (b : IOBufferData) (r : Nat) :
    readable h { b with mConsumer := b.mConsumer + r } = (b.readable h).drop r := by
  simp only [readable, List.drop_take, List.drop_drop]
  congr 1
  omega

theorem readable_trim (h : Heap) (b : IOBufferData) (r : Nat)
    (hr : r ≤ b.mProducer - b.mConsumer) :
    readable h { b with mProducer := b.mConsumer + r } = (b.readable h).take r := by
  simp only [readable, List.take_take]
  congr 1
  omega

end IOBufferData

namespace IOBuffer

theorem CopyOut_spec (h : Heap) (c : IOBuffer) (dst : List Byte) (n : Nat) (hw : c.WF h)
    (hd : n ≤ dst.length) :
    c.CopyOut h dst n =
      .ok ((content h c).take n ++ (dst.set 0 0).drop ((content h c).take n).length,
        (((content h c).take n).length : Int)) := by
  have := CopyOut_loop_spec h n c.mBuf (dst.set 0 0) 0 hw (by omega) (by simpa using hd)
  simp only [CopyOut]
  rw [show ((0 : Int) = ((0 : Nat) : Int)) from rfl, this]
  simp [writeAt]

theorem Consume_loop_spec (h : Heap) :
    ∀ (l : List IOBufferData) (n fuel : Nat),
      (∀ b ∈ l, b.WF h) → n ≤ (content h ⟨l⟩).length → l.length ≤ fuel →
      ∃ l1, Consume.loop fuel l n = .ok (l1, 0) ∧
        content h ⟨l1⟩ = (content h ⟨l⟩).drop n ∧ (∀ b ∈ l1, b.WF h) ∧
        ∃ j, l1 = l.drop j ∨
          ∃ b rest r, l.drop j = b :: rest ∧ 0 < r ∧ r < b.mProducer - b.mConsumer ∧
            l1 = { b with mConsumer := b.mConsumer + r } :: rest := by
  intro l
  induction l with
  | nil =>
    intro n fuel _ hn _
    have : n = 0 := by simpa [content] using hn
    subst this
    refine ⟨[], ?_, ?_, ?_, 0, Or.inl rfl⟩
    · cases fuel <;> simp [Consume.loop]
    · simp [content]
    · simp
  | cons b rest ih =>
    intro n fuel hw hn hf
    have hb : b.WF h := hw b (List.mem_cons_self _ _)
    have hrest : ∀ x ∈ rest, x.WF h := fun x hx => hw x (List.mem_cons_of_mem _ hx)
    have hlen := IOBufferData.length_readable h b hb
    obtain ⟨⟨hi1, hi2, hi3⟩, hi4, hi5⟩ := hb
    obtain ⟨f, rfl⟩ : ∃ f, fuel = f + 1 := ⟨fuel - 1, by simp at hf; omega⟩
    rw [content_cons, List.length_append, hlen] at hn
    simp only [Consume.loop, IOBufferData.Consume_nat b n hi2, Res.bind, IOBufferData.IsEmpty]
    by_cases hle : n ≤ b.mProducer - b.mConsumer
    · have hmin : min n (b.mProducer - b.mConsumer) = n := by omega
      have hc : (n : Int) - ((n : Nat) : Int) ≤ 0 := by omega
      have hz : (n : Int) - ((n : Nat) : Int) = 0 := by omega
      rw [hmin, if_pos hc, hz]
      by_cases heq : n = b.mProducer - b.mConsumer
      · have he : (b.mProducer == b.mConsumer + n) = true := by
          simp only [beq_iff_eq]; omega
        refine ⟨rest, ?_, ?_, hrest, 1, Or.inl rfl⟩
        · simp only [he, if_true]
        · rw [content_cons, List.drop_left' (by omega)]
      · have he : (b.mProducer == b.mConsumer + n) = false := by
          simp only [beq_eq_false_iff_ne]; omega
        refine ⟨{ b with mConsumer := b.mConsumer + n } :: rest, ?_, ?_, ?_, 0, ?_⟩
        · simp [he]
        · rw [content_cons, content_cons, IOBufferData.readable_consume,
            List.drop_append_of_le_length (by omega)]
        · intro x hx
          rcases List.mem_cons.mp hx with hx | hx
          · rw [hx]
            exact ⟨⟨by show b.mStart ≤ b.mConsumer + n; omega,
              by show b.mConsumer + n ≤ b.mProducer; omega, hi3⟩, hi4, hi5⟩
          · exact hrest x hx
        · by_cases h0 : n = 0
          · left
            subst h0
            rfl
          · right
            exact ⟨b, rest, n, rfl, by omega, by omega, rfl⟩
    · have hmin : min n (b.mProducer - b.mConsumer) = b.mProducer - b.mConsumer := by omega
      have hc : ¬ (n : Int) - ((b.mProducer - b.mConsumer : Nat) : Int) ≤ 0 := by omega
      have he : (b.mProducer == b.mConsumer + (b.mProducer - b.mConsumer)) = true := by
        simp only [beq_iff_eq]; omega
      have hcast : (n : Int) - ((b.mProducer - b.mConsumer : Nat) : Int) =
          ((n - (b.mProducer - b.mConsumer) : Nat) : Int) := by omega
      rw [hmin, if_neg hc]
      simp only [he, if_true, hcast]
      obtain ⟨l1, hres, hcont, hwf, j, hj⟩ :=
        ih (n - (b.mProducer - b.mConsumer)) f hrest (by omega) (by simp at hf; omega)
      refine ⟨l1, hres, ?_, hwf, j + 1, ?_⟩
      · have hdrop : List.drop n (b.readable h) = [] :=
          List.drop_eq_nil_of_le (by rw [hlen]; omega)
        rw [hcont, content_cons, List.drop_append_eq_append_drop, hdrop, hlen, List.nil_append]
      · simpa using hj

end IOBuffer

namespace IOBufferData

theorem ZeroFill_nat (h : Heap) (b : IOBufferData) (n : Nat) (hb : b.mProducer ≤ b.mEnd) :
    b.ZeroFill h n =
      .ok (h.memset b.mData b.mProducer 0 (min n (b.mEnd - b.mProducer)),
        { b with mProducer := b.mProducer + min n (b.mEnd - b.mProducer) },
        ((min n (b.mEnd - b.mProducer) : Nat) : Int)) := by
  have hmin : (if ((b.mEnd : Int) - b.mProducer) < (n : Int) then ((b.mEnd : Int) - b.mProducer)
      else (n : Int)) = ((min n (b.mEnd - b.mProducer) : Nat) : Int) := by
    split_ifs <;> omega
  have e : min (min n (b.mEnd - b.mProducer)) (b.mEnd - b.mProducer) =
      min n (b.mEnd - b.mProducer) := by omega
  unfold ZeroFill
  simp only [hmin, Fill_nat b _ hb, Res.bind, Int.toNat_ofNat, e]

end IOBufferData

namespace IOBuffer

theorem length_freshBlocks (B : Nat) : ∀ (c base r : Nat),
    (freshBlocks B base c r).length = c := by
  intro c
  induction c with
  | zero => intro _ _; rfl
  | succ c ih => intro base r; simp [freshBlocks, ih]

theorem freshBlocks_mem (B : Nat) : ∀ (c base r : Nat),
    ∀ b ∈ freshBlocks B base c r, base ≤ b.mData ∧ b.mConsumer = 0 := by
  intro c
  induction c with
  | zero => intro _ _ b hb; simp [freshBlocks] at hb
  | succ c ih =>
    intro base r b hb
    simp only [freshBlocks] at hb
    rcases List.mem_cons.mp hb with hb | hb
    · rw [hb]; exact ⟨le_refl _, rfl⟩
    · have := ih (base + 1) (r - B) b hb
      exact ⟨by omega, this.2⟩

theorem freshBlocks_full (B : Nat) (hB : 1 ≤ B) : ∀ (c base r : Nat), c = blocksFor B r →
    ∀ b ∈ (freshBlocks B base c r).dropLast,
      b.mConsumer = 0 ∧ b.mProducer = B ∧ b.mEnd = B := by
  intro c
  induction c with
  | zero => intro _ _ _ b hb; simp [freshBlocks] at hb
  | succ c ih =>
    intro base r hc b hb
    have hr : 1 ≤ r := by
      by_contra hr0
      have : r = 0 := by omega
      rw [this, blocksFor_zero B hB] at hc
      omega
    have hc1 : c = blocksFor B (r - B) := by
      rw [blocksFor_step B r hB hr] at hc
      omega
    simp only [freshBlocks] at hb
    have hlen := length_freshBlocks B c (base + 1) (r - B)
    cases hrest : freshBlocks B (base + 1) c (r - B) with
    | nil => rw [hrest] at hb; simp at hb
    | cons x xs =>
      rw [hrest, List.dropLast_cons₂] at hb
      rcases List.mem_cons.mp hb with hb | hb
      · have hcpos : 1 ≤ c := by
          rw [hrest] at hlen
          simp at hlen
          omega
        have hrB : r - B ≠ 0 := by
          intro h0
          rw [h0, blocksFor_zero B hB] at hc1
          omega
        rw [hb]
        refine ⟨rfl, ?_, rfl⟩
        show min B r = B
        omega
      · have := ih (base + 1) (r - B) hc1 b
        rw [hrest] at this
        exact this hb

theorem Consume_spec (h : Heap) (c : IOBuffer) (n fuel : Nat) (hw : c.WF h)
    (hn : n ≤ (content h c).length) (hf : c.mBuf.length ≤ fuel) :
    ∃ c1, c.Consume fuel n = .ok c1 ∧
      content h c1 = (content h c).drop n ∧ c1.WF h ∧
      ∃ j, c1.mBuf = c.mBuf.drop j ∨
        ∃ b rest r, c.mBuf.drop j = b :: rest ∧ 0 < r ∧ r < b.mProducer - b.mConsumer ∧
          c1.mBuf = { b with mConsumer := b.mConsumer + r } :: rest := by
  obtain ⟨l1, hres, hcont, hwf, hj⟩ := Consume_loop_spec h c.mBuf n fuel hw hn hf
  refine ⟨⟨l1⟩, ?_, hcont, hwf, hj⟩
  have hge : (n : Int) ≥ 0 := by omega
  simp only [Consume, if_pos hge, hres, Res.bind, if_true]

theorem ZeroFill_loop_spec (B : Nat) (hB : 1 ≤ B) :
    ∀ (fuel : Nat) (h : Heap) (l : List IOBufferData) (n : Nat), n ≤ fuel →
      ∃ h1, ZeroFill.loop B fuel h l n =
          .ok (h1, l ++ freshBlocks B h.arrays.length (blocksFor B n) n) ∧
        h.arrays.length ≤ h1.arrays.length ∧
        (∀ id, id < h.arrays.length → h1.get id = h.get id) ∧
        (∀ b ∈ freshBlocks B h.arrays.length (blocksFor B n) n,
          b.WF h1 ∧ b.readable h1 = List.replicate b.mProducer 0) ∧
        content h1 ⟨freshBlocks B h.arrays.length (blocksFor B n) n⟩ = List.replicate n 0 := by
  intro fuel
  induction fuel with
  | zero =>
    intro h l n hn
    have : n = 0 := by omega
    subst this
    rw [freshBlocks_zero B _ hB]
    refine ⟨h, ?_, le_refl _, fun _ _ => rfl, ?_, ?_⟩
    · simp [ZeroFill.loop]
    · simp
    · simp [content]
  | succ fuel ih =>
    intro h l n hn
    by_cases h0 : n = 0
    · subst h0
      rw [freshBlocks_zero B _ hB]
      refine ⟨h, ?_, le_refl _, fun _ _ => rfl, ?_, ?_⟩
      · simp [ZeroFill.loop]
      · simp
      · simp [content]
    · have hpos : (n : Int) > 0 := by omega
      have hmin : min (B : Int) (n : Int) = ((min B n : Nat) : Int) := by omega
      have hsub : (n : Int) - ((min (min B n) (B - 0) : Nat) : Int) = ((n - B : Nat) : Int) := by
        omega
      have hz : 0 + min (min B n) (B - 0) = min B n := by omega
      have hz2 : min (min B n) (B - 0) = min B n := by omega
      simp only [ZeroFill.loop, if_pos hpos, hmin, IOBufferData.Init_eq,
        IOBufferData.ZeroFill_nat _ ⟨h.arrays.length, 0, B, 0, 0⟩ _ (Nat.zero_le B), Res.bind]
      simp only [hz2, Nat.zero_add]
      have hsub2 : (n : Int) - ((min B n : Nat) : Int) = ((n - B : Nat) : Int) := by omega
      rw [hsub2]
      obtain ⟨h3, hres, hlen3, hold3, hfresh3, hcont3⟩ :=
        ih (Heap.memset (h.alloc B).1 h.arrays.length 0 0 (min B n))
          (l ++ [⟨h.arrays.length, 0, B, min B n, 0⟩]) (n - B) (by omega)
      have hl2 : (Heap.memset (h.alloc B).1 h.arrays.length 0 0 (min B n)).arrays.length =
          h.arrays.length + 1 := by
        simp only [Heap.memset, Heap.length_memcpy, Heap.length_alloc]
      rw [hl2] at hres hlen3 hold3 hfresh3 hcont3
      have hnew : (Heap.memset (h.alloc B).1 h.arrays.length 0 0 (min B n)).get h.arrays.length =
          writeAt ((h.alloc B).1.get h.arrays.length) 0 (List.replicate (min B n) 0) := by
        simp only [Heap.memset]
        rw [Heap.get_memcpy_same _ _ _ _ (by rw [Heap.length_alloc]; omega)]
      have hr1 : 1 ≤ n := by omega
      rw [freshBlocks_step B _ n hB hr1]
      have hblk : IOBufferData.WF h3 ⟨h.arrays.length, 0, B, min B n, 0⟩ ∧
          IOBufferData.readable h3 ⟨h.arrays.length, 0, B, min B n, 0⟩ =
            List.replicate (min B n) 0 := by
        have hg := hold3 h.arrays.length (by omega)
        have hla := Heap.length_get_alloc_new h B
        refine ⟨⟨⟨le_refl _, Nat.zero_le _, Nat.min_le_left _ _⟩, ?_, ?_⟩, ?_⟩
        · show B ≤ (h3.get h.arrays.length).length
          rw [hg, hnew, length_writeAt _ _ _ (by simp; omega), hla]
        · show h.arrays.length < h3.arrays.length
          omega
        · simp only [IOBufferData.readable]
          rw [hg, hnew]
          simp [writeAt]
      refine ⟨h3, ?_, by omega, ?_, ?_, ?_⟩
      · rw [hres]; simp
      · intro id hid
        rw [hold3 id (by omega)]
        simp only [Heap.memset]
        rw [Heap.get_memcpy_ne _ _ _ _ _ (by omega), Heap.get_alloc_old h B id hid]
      · intro b hb
        rcases List.mem_cons.mp hb with hb | hb
        · rw [hb]; exact hblk
        · exact hfresh3 b hb
      · rw [content_cons, hblk.2, hcont3, ← List.replicate_add]
        congr 1
        omega

end IOBuffer

/-! ## Frame: what a chain can write to -/

namespace IOBufferData

theorem narrows_refl (b : IOBufferData) (hb : b.mConsumer ≤ b.mProducer) : b.narrows b :=
  ⟨rfl, rfl, rfl, le_refl _, hb, le_refl _⟩

theorem narrows_trans {a b c : IOBufferData} (h1 : a.narrows b) (h2 : b.narrows c) :
    a.narrows c := by
  obtain ⟨a1, a2, a3, a4, a5, a6⟩ := h1
  obtain ⟨b1, b2, b3, b4, b5, b6⟩ := h2
  exact ⟨by omega, by omega, by omega, by omega, by omega, by omega⟩

theorem WF_narrows (h : Heap) {b b1 : IOBufferData} (hw : b.WF h) (hn : b.narrows b1) :
    b1.WF h := by
  obtain ⟨⟨h1, h2, h3⟩, h4, h5⟩ := hw
  obtain ⟨a1, a2, a3, a4, a5, a6⟩ := hn
  refine ⟨⟨by omega, by omega, by omega⟩, ?_, ?_⟩
  · rw [a1, a3]; exact h4
  · rw [a1]; exact h5

theorem reachFree_narrows {t t1 b : IOBufferData} (hn : t.narrows t1) (hf : t.reachFree b) :
    t1.reachFree b := by
  obtain ⟨a1, a2, a3, a4, a5, a6⟩ := hn
  rcases hf with hf | hf
  · left; rw [a1]; exact hf
  · right; omega

theorem roomFree_of_reachFree {t b : IOBufferData} (ht : t.mConsumer ≤ t.mProducer)
    (hf : t.reachFree b) : t.roomFree b := by
  rcases hf with hf | hf
  · left; exact hf
  · right; omega

end IOBufferData

/-! ## `Move` -/

namespace IOBufferData

theorem BytesConsumable_nat (b : IOBufferData) (hb : b.mConsumer ≤ b.mProducer) :
    b.BytesConsumable = ((b.mProducer - b.mConsumer : Nat) : Int) := by
  unfold BytesConsumable; omega

theorem readable_view (h : Heap) (b : IOBufferData) (k : Nat)
    (hk : k ≤ b.mProducer - b.mConsumer) :
    (view b b.mConsumer (b.mConsumer + k)).readable h = (b.readable h).take k := by
  simp only [readable, view, List.take_take]
  congr 1
  omega

theorem WF_view (h : Heap) (b : IOBufferData) (k : Nat) (hw : b.WF h)
    (hk : k ≤ b.mProducer - b.mConsumer) :
    (view b b.mConsumer (b.mConsumer + k)).WF h := by
  obtain ⟨⟨h1, h2, h3⟩, h4, h5⟩ := hw
  refine ⟨⟨le_refl _, ?_, le_refl _⟩, ?_, h5⟩
  · show b.mConsumer ≤ b.mConsumer + k
    omega
  · show b.mConsumer + k ≤ (h.get b.mData).length
    omega

end IOBufferData

namespace IOBuffer

theorem Consume_head (data : IOBufferData) (rest : List IOBufferData) (k fuel : Nat)
    (hd : data.mConsumer ≤ data.mProducer) (hk : k ≤ data.mProducer - data.mConsumer)
    (hf : 1 ≤ fuel) :
    Consume fuel ⟨data :: rest⟩ k = .ok ⟨if k = data.mProducer - data.mConsumer then rest
      else { data with mConsumer := data.mConsumer + k } :: rest⟩ := by
  obtain ⟨f, rfl⟩ : ∃ f, fuel = f + 1 := ⟨fuel - 1, by omega⟩
  have hge : ((k : Nat) : Int) ≥ 0 := by omega
  have hmin : min k (data.mProducer - data.mConsumer) = k := by omega
  have hz : (k : Int) - ((k : Nat) : Int) ≤ 0 := by omega
  have hz2 : (k : Int) - ((k : Nat) : Int) = 0 := by omega
  simp only [Consume, if_pos hge, Consume.loop, IOBufferData.Consume_nat data k hd, hmin,
    Res.bind, if_pos hz, hz2, if_true, IOBufferData.IsEmpty]
  by_cases he : k = data.mProducer - data.mConsumer
  · have hb : (data.mProducer == data.mConsumer + k) = true := by
      simp only [beq_iff_eq]; omega
    simp [hb, if_pos he]
  · have hb : (data.mProducer == data.mConsumer + k) = false := by
      simp only [beq_eq_false_iff_ne]; omega
    simp [hb, if_neg he]

theorem Move_loop_done (n : Int) (cfuel fuel : Nat) (mBuf rest : List IOBufferData) (m : Int)
    (hm : ¬ m < n) : Move.loop n cfuel fuel mBuf rest m = .ok (mBuf, rest) := by
  cases rest with
  | nil => cases fuel <;> simp [Move.loop]
  | cons d r => cases fuel <;> simp [Move.loop, hm]

theorem Move_loop_spec (h : Heap) (n cfuel : Nat) :
    ∀ (rest : List IOBufferData) (fuel : Nat) (mBuf : List IOBufferData) (m : Nat),
      (∀ b ∈ rest, b.WF h) → m ≤ n → n - m ≤ (content h ⟨rest⟩).length →
      rest.length ≤ fuel → rest.length ≤ cfuel →
      ∃ mv rest1, Move.loop n cfuel fuel mBuf rest m = .ok (mBuf ++ mv, rest1) ∧
        content h ⟨mv⟩ = (content h ⟨rest⟩).take (n - m) ∧
        content h ⟨rest1⟩ = (content h ⟨rest⟩).drop (n - m) ∧
        (∀ b ∈ mv, b.WF h) ∧ (∀ b ∈ rest1, b.WF h) ∧
        (∀ t1 ∈ rest1.getLast?, ∃ t ∈ rest.getLast?, t.narrows t1 ∧
          ∀ b ∈ mv, (∃ d ∈ rest.dropLast, b.mData = d.mData) ∨
            (b.mData = t.mData ∧ b.mProducer ≤ t1.mConsumer)) := by
  intro rest
  induction rest with
  | nil =>
    intro fuel mBuf m _ hm hn _ _
    refine ⟨[], [], ?_, ?_, ?_, ?_, ?_, ?_⟩
    · cases fuel <;> simp [Move.loop]
    · simp [content]
    · simp [content]
    · simp
    · simp
    · simp
  | cons data rest ih =>
    intro fuel mBuf m hw hm hn hf hcf
    have hb : data.WF h := hw data (List.mem_cons_self _ _)
    have hrest : ∀ x ∈ rest, x.WF h := fun x hx => hw x (List.mem_cons_of_mem _ hx)
    have hlen := IOBufferData.length_readable h data hb
    have hi2 : data.mConsumer ≤ data.mProducer := hb.1.2.1
    have hf0 : rest.length + 1 ≤ fuel := by simpa using hf
    have hcf0 : rest.length + 1 ≤ cfuel := by simpa using hcf
    by_cases hlt : m < n
    · obtain ⟨f, rfl⟩ : ∃ f, fuel = f + 1 := ⟨fuel - 1, by omega⟩
      have hc : ((m : Nat) : Int) < (n : Int) := by omega
      rw [content_cons, List.length_append, hlen] at hn
      simp only [Move.loop, if_pos hc, IOBufferData.BytesConsumable_nat data hi2]
      by_cases hwhole : (data.mProducer - data.mConsumer) + m < n
      · have hc2 : ((data.mProducer - data.mConsumer : Nat) : Int) + (m : Int) < (n : Int) := by
          omega
        have e : (m : Int) + ((data.mProducer - data.mConsumer : Nat) : Int) =
            ((m + (data.mProducer - data.mConsumer) : Nat) : Int) := by omega
        rw [if_pos hc2, e]
        obtain ⟨mv, rest1, hres, hc1, hc3, hw1, hw2, hq⟩ :=
          ih f (mBuf ++ [data]) (m + (data.mProducer - data.mConsumer)) hrest (by omega)
            (by omega) (by omega) (by omega)
        refine ⟨data :: mv, rest1, ?_, ?_, ?_, ?_, hw2, ?_⟩
        · rw [hres]; simp
        · have ht : List.take (n - m) (data.readable h) = data.readable h :=
            List.take_of_length_le (by rw [hlen]; omega)
          rw [content_cons, content_cons, hc1, List.take_append_eq_append_take, ht, hlen]
          congr 2
          omega
        · have hdrop : List.drop (n - m) (data.readable h) = [] :=
            List.drop_eq_nil_of_le (by rw [hlen]; omega)
          rw [hc3, content_cons, List.drop_append_eq_append_drop, hdrop, hlen, List.nil_append]
          congr 1
          omega
        · intro b hb'
          rcases List.mem_cons.mp hb' with hb' | hb'
          · rw [hb']; exact hb
          · exact hw1 b hb'
        · intro t1 ht1
          obtain ⟨t, ht, hnar, hmv⟩ := hq t1 ht1
          have hne : rest ≠ [] := by
            intro he
            rw [he] at ht
            simp at ht
          obtain ⟨x, xs, hx⟩ := List.exists_cons_of_ne_nil hne
          refine ⟨t, by rw [hx, List.getLast?_cons_cons, ← hx]; exact ht, hnar, ?_⟩
          rw [List.dropLast_cons_of_ne_nil hne]
          intro b hb'
          rcases List.mem_cons.mp hb' with hb' | hb'
          · left
            exact ⟨data, List.mem_cons_self _ _, by rw [hb']⟩
          · rcases hmv b hb' with ⟨d, hd, he⟩ | hr
            · left
              exact ⟨d, List.mem_cons_of_mem _ hd, he⟩
            · right
              exact hr
      · have hc2 : ¬ ((data.mProducer - data.mConsumer : Nat) : Int) + (m : Int) < (n : Int) := by
          omega
        have e1 : (n : Int) - (m : Int) = ((n - m : Nat) : Int) := by omega
        have e2 : ((data.Consumer : Nat) : Int) + ((n - m : Nat) : Int) =
            ((data.mConsumer + (n - m) : Nat) : Int) := by
          simp only [IOBufferData.Consumer]; omega
        have e3 : (m : Int) + ((n - m : Nat) : Int) ≥ (n : Int) := by omega
        rw [if_neg hc2]
        simp only [e1, e2, Int.toNat_ofNat, IOBufferData.Consumer]
        obtain ⟨c1, hcons, hcc, hcw, -⟩ :=
          Consume_spec h ⟨data :: rest⟩ (n - m) cfuel hw
            (by rw [content_cons, List.length_append, hlen]; omega) hcf
        rw [hcons]
        simp only [Res.bind, if_pos e3]
        rw [Move_loop_done _ _ _ _ _ _ (by omega)]
        have hhead := Consume_head data rest (n - m) cfuel hi2 (by omega) (by omega)
        rw [hcons] at hhead
        simp only [Res.ok.injEq] at hhead
        refine ⟨[IOBufferData.view data data.mConsumer (data.mConsumer + (n - m))], c1.mBuf,
          rfl, ?_, hcc, ?_, hcw, ?_⟩
        · rw [content_cons, content_nil, List.append_nil,
            IOBufferData.readable_view h data _ (by omega), content_cons,
            List.take_append_of_le_length (by omega)]
        · intro b hb'
          simp only [List.mem_singleton] at hb'
          rw [hb']
          exact IOBufferData.WF_view h data _ hb (by omega)
        · intro t1 ht1
          rw [hhead] at ht1
          dsimp only at ht1
          cases rest with
          | nil =>
            split_ifs at ht1 with he
            · simp at ht1
            · simp only [List.getLast?_singleton, Option.mem_def, Option.some.injEq] at ht1
              refine ⟨data, by simp, ?_, ?_⟩
              · rw [← ht1]
                exact ⟨rfl, rfl, rfl, by show data.mConsumer ≤ data.mConsumer + _; omega,
                  by show data.mConsumer + _ ≤ data.mProducer; omega, le_refl _⟩
              · intro b hb'
                simp only [List.mem_singleton] at hb'
                right
                rw [hb', ← ht1]
                exact ⟨rfl, le_refl _⟩
          | cons x xs =>
            have hl : t1 ∈ (x :: xs).getLast? := by
              split_ifs at ht1 with he
              · exact ht1
              · rw [List.getLast?_cons_cons] at ht1
                exact ht1
            refine ⟨t1, by rw [List.getLast?_cons_cons]; exact hl,
              IOBufferData.narrows_refl t1
                (hw t1 (List.mem_cons_of_mem _ (List.mem_of_mem_getLast? hl))).1.2.1, ?_⟩
            intro b hb'
            simp only [List.mem_singleton] at hb'
            left
            exact ⟨data, by simp [List.dropLast], by rw [hb']; rfl⟩
    · have hmn : n - m = 0 := by omega
      have hc : ¬ ((m : Nat) : Int) < (n : Int) := by omega
      rw [Move_loop_done _ _ _ _ _ _ hc, hmn]
      refine ⟨[], data :: rest, by simp, by simp [content], by simp, by simp, hw, ?_⟩
      intro t1 ht1
      exact ⟨t1, ht1, IOBufferData.narrows_refl t1 (hw t1 (List.mem_of_mem_getLast? ht1)).1.2.1,
        by simp⟩

theorem Move_spec (h : Heap) (c other : IOBuffer) (n fuel : Nat) (hwc : c.WF h)
    (hwo : other.WF h) (hn : n ≤ (content h other).length) (hf : other.mBuf.length ≤ fuel) :
    ∃ c1 other1, c.Move fuel other n = .ok (c1, other1) ∧
      content h c1 = content h c ++ (content h other).take n ∧
      content h other1 = (content h other).drop n ∧ c1.WF h ∧ other1.WF h ∧
      ∃ mv, c1.mBuf = c.mBuf ++ mv ∧
        ∀ t1 ∈ other1.mBuf.getLast?, ∃ t ∈ other.mBuf.getLast?, t.narrows t1 ∧
          ∀ b ∈ mv, (∃ d ∈ other.mBuf.dropLast, b.mData = d.mData) ∨
            (b.mData = t.mData ∧ b.mProducer ≤ t1.mConsumer) := by
  obtain ⟨mv, rest1, hres, hc1, hc2, hw1, hw2, hq⟩ :=
    Move_loop_spec h n fuel other.mBuf fuel c.mBuf 0 hwo (by omega) (by simpa using hn) hf hf
  have hge : other.BytesConsumable ≥ (n : Int) := by
    rw [BytesConsumable_eq_length h other hwo]; omega
  refine ⟨⟨c.mBuf ++ mv⟩, ⟨rest1⟩, ?_, ?_, ?_, ?_, hw2, mv, rfl, hq⟩
  · simp only [Move, if_pos hge]
    rw [show ((0 : Int) = ((0 : Nat) : Int)) from rfl, hres]
    rfl
  · rw [content_append, hc1]; simp
  · rw [hc2]; simp
  · intro b hb
    rcases List.mem_append.mp hb with hb | hb
    · exact hwc b hb
    · exact hw1 b hb

end IOBuffer
namespace IOBuffer

theorem getLast?_forall₂ {R : IOBufferData → IOBufferData → Prop} :
    ∀ {l l1 : List IOBufferData}, List.Forall₂ R l l1 →
      ∀ t1 ∈ l1.getLast?, ∃ t ∈ l.getLast?, R t t1 := by
  intro l l1 hf
  induction hf with
  | nil => intro t1 ht; simp at ht
  | @cons a b l l1 hab hrest ih =>
    intro t1 ht
    cases hrest with
    | nil =>
      simp only [List.getLast?_singleton, Option.mem_def, Option.some.injEq] at ht ⊢
      exact ⟨a, rfl, ht ▸ hab⟩
    | @cons a2 b2 l2 l3 h2 h3 =>
      rw [List.getLast?_cons_cons] at ht ⊢
      exact ih t1 ht

theorem mem_forall₂ {R : IOBufferData → IOBufferData → Prop} :
    ∀ {l l1 : List IOBufferData}, List.Forall₂ R l l1 →
      ∀ b1 ∈ l1, ∃ b ∈ l, R b b1 := by
  intro l l1 hf
  induction hf with
  | nil => intro b1 hb; simp at hb
  | @cons a b l l1 hab _ ih =>
    intro b1 hb
    rcases List.mem_cons.mp hb with hb | hb
    · exact ⟨a, List.mem_cons_self _ _, hb ▸ hab⟩
    · obtain ⟨x, hx, hr⟩ := ih b1 hb
      exact ⟨x, List.mem_cons_of_mem _ hx, hr⟩

theorem forall₂_narrows_refl : ∀ (l : List IOBufferData),
    (∀ b ∈ l, b.mConsumer ≤ b.mProducer) → List.Forall₂ IOBufferData.narrows l l := by
  intro l
  induction l with
  | nil => intro _; exact List.Forall₂.nil
  | cons a l ih =>
    intro hl
    exact List.Forall₂.cons (IOBufferData.narrows_refl a (hl a (List.mem_cons_self _ _)))
      (ih fun b hb => hl b (List.mem_cons_of_mem _ hb))

/-- What `Consume` leaves: every block left is a narrowed block of the list
before, and so is the last one with respect to the last one before. -/
theorem Consume_loop_narrows :
    ∀ (fuel : Nat) (l : List IOBufferData) (n : Nat) (l1 : List IOBufferData) (r : Int),
      Consume.loop fuel l n = .ok (l1, r) → (∀ b ∈ l, b.mConsumer ≤ b.mProducer) →
      (∀ b1 ∈ l1, ∃ b ∈ l, b.narrows b1) ∧
      (∀ t1 ∈ l1.getLast?, ∃ t ∈ l.getLast?, t.narrows t1) := by
  intro fuel
  induction fuel with
  | zero =>
    intro l n l1 r hres _
    cases l with
    | nil =>
      simp only [Consume.loop, Res.ok.injEq, Prod.mk.injEq] at hres
      obtain ⟨rfl, -⟩ := hres
      exact ⟨by simp, by simp⟩
    | cons d rest => simp [Consume.loop] at hres
  | succ f ih =>
    intro l n l1 r hres hinv
    cases l with
    | nil =>
      simp only [Consume.loop, Res.ok.injEq, Prod.mk.injEq] at hres
      obtain ⟨rfl, -⟩ := hres
      exact ⟨by simp, by simp⟩
    | cons d rest =>
      have hd : d.mConsumer ≤ d.mProducer := hinv d (List.mem_cons_self _ _)
      have hrest : ∀ b ∈ rest, b.mConsumer ≤ b.mProducer :=
        fun b hb => hinv b (List.mem_cons_of_mem _ hb)
      obtain ⟨d1, hd1⟩ : ∃ d1 : IOBufferData, d1 =
          { d with mConsumer := d.mConsumer + min n (d.mProducer - d.mConsumer) } := ⟨_, rfl⟩
      have hnar : d.narrows d1 := by
        rw [hd1]
        exact ⟨rfl, rfl, rfl, by show d.mConsumer ≤ d.mConsumer + _; omega,
          by show d.mConsumer + _ ≤ d.mProducer; omega, le_refl _⟩
      obtain ⟨m1, hm1⟩ : ∃ m1 : List IOBufferData, m1 =
          if d1.IsEmpty = true then rest else d1 :: rest := ⟨_, rfl⟩
      have hcases : m1 = rest ∨ m1 = d1 :: rest := by
        rw [hm1]; split_ifs <;> simp
      have hstep : (∀ b ∈ m1, b.mConsumer ≤ b.mProducer) ∧
          (∀ b1 ∈ m1, ∃ b ∈ d :: rest, b.narrows b1) ∧
          (∀ t1 ∈ m1.getLast?, ∃ t ∈ (d :: rest).getLast?, t.narrows t1) := by
        rcases hcases with hc | hc <;> rw [hc]
        · refine ⟨hrest, ?_, ?_⟩
          · intro b1 hb1
            exact ⟨b1, List.mem_cons_of_mem _ hb1, IOBufferData.narrows_refl b1 (hrest b1 hb1)⟩
          · intro t1 ht1
            cases rest with
            | nil => simp at ht1
            | cons x xs =>
              rw [List.getLast?_cons_cons]
              exact ⟨t1, ht1, IOBufferData.narrows_refl t1
                (hrest t1 (List.mem_of_mem_getLast? ht1))⟩
        · refine ⟨?_, ?_, ?_⟩
          · intro b hb
            rcases List.mem_cons.mp hb with hb | hb
            · rw [hb]; exact hnar.2.2.2.2.1
            · exact hrest b hb
          · intro b1 hb1
            rcases List.mem_cons.mp hb1 with hb1 | hb1
            · rw [hb1]; exact ⟨d, List.mem_cons_self _ _, hnar⟩
            · exact ⟨b1, List.mem_cons_of_mem _ hb1,
                IOBufferData.narrows_refl b1 (hrest b1 hb1)⟩
          · intro t1 ht1
            cases rest with
            | nil =>
              simp only [List.getLast?_singleton, Option.mem_def, Option.some.injEq] at ht1 ⊢
              exact ⟨d, rfl, ht1 ▸ hnar⟩
            | cons x xs =>
              rw [List.getLast?_cons_cons] at ht1 ⊢
              exact ⟨t1, ht1, IOBufferData.narrows_refl t1
                (hrest t1 (List.mem_of_mem_getLast? ht1))⟩
      obtain ⟨hi1, hmem1, hlast1⟩ := hstep
      have hcast : (n : Int) - ((min n (d.mProducer - d.mConsumer) : Nat) : Int) =
          ((n - min n (d.mProducer - d.mConsumer) : Nat) : Int) := by omega
      simp only [Consume.loop, IOBufferData.Consume_nat d n hd, Res.bind, ← hd1, ← hm1,
        hcast] at hres
      split_ifs at hres with hdone
      · simp only [Res.ok.injEq, Prod.mk.injEq] at hres
        obtain ⟨rfl, -⟩ := hres
        exact ⟨hmem1, hlast1⟩
      · obtain ⟨hmem2, hlast2⟩ := ih m1 _ l1 r hres hi1
        refine ⟨?_, ?_⟩
        · intro b1 hb1
          obtain ⟨b, hb, hr⟩ := hmem2 b1 hb1
          obtain ⟨b0, hb0, hr0⟩ := hmem1 b hb
          exact ⟨b0, hb0, IOBufferData.narrows_trans hr0 hr⟩
        · intro t1 ht1
          obtain ⟨t, ht, hr⟩ := hlast2 t1 ht1
          obtain ⟨t0, ht0, hr0⟩ := hlast1 t ht
          exact ⟨t0, ht0, IOBufferData.narrows_trans hr0 hr⟩

end IOBuffer
namespace IOBuffer

theorem Trim_drain_narrows : ∀ (l l1 : List IOBufferData), Trim.drain l = .ok l1 →
    (∀ b ∈ l, b.mConsumer ≤ b.mProducer) → List.Forall₂ IOBufferData.narrows l l1 := by
  intro l
  induction l with
  | nil =>
    intro l1 hres _
    simp only [Trim.drain, Res.ok.injEq] at hres
    subst hres
    exact List.Forall₂.nil
  | cons d rest ih =>
    intro l1 hres hinv
    have hd : d.mConsumer ≤ d.mProducer := hinv d (List.mem_cons_self _ _)
    have hrest : ∀ b ∈ rest, b.mConsumer ≤ b.mProducer :=
      fun b hb => hinv b (List.mem_cons_of_mem _ hb)
    simp only [Trim.drain, IOBufferData.BytesConsumable_nat d hd,
      IOBufferData.Consume_nat d _ hd, Res.bind] at hres
    cases hr : Trim.drain rest with
    | ok rest1 =>
      rw [hr] at hres
      simp only [Res.ok.injEq] at hres
      subst hres
      refine List.Forall₂.cons ?_ (ih rest1 hr hrest)
      exact ⟨rfl, rfl, rfl, by show d.mConsumer ≤ d.mConsumer + _; omega,
        by show d.mConsumer + _ ≤ d.mProducer; omega, le_refl _⟩
    | assertFailed => rw [hr] at hres; simp at hres
    | outOfFuel => rw [hr] at hres; simp at hres

theorem Trim_cut_narrows (n : Int) : ∀ (l : List IOBufferData) (tot : Int)
    (todo1 : List IOBufferData), tot ≤ n →
    (∀ b ∈ l, b.mConsumer ≤ b.mProducer) →
    List.Forall₂ IOBufferData.narrows (Trim.cut n l tot).2 todo1 →
    List.Forall₂ IOBufferData.narrows l ((Trim.cut n l tot).1 ++ todo1) := by
  intro l
  induction l with
  | nil =>
    intro tot todo1 _ _ hf
    simpa [Trim.cut] using hf
  | cons d rest ih =>
    intro tot todo1 htot hinv hf
    have hd : d.mConsumer ≤ d.mProducer := hinv d (List.mem_cons_self _ _)
    have hrest : ∀ b ∈ rest, b.mConsumer ≤ b.mProducer :=
      fun b hb => hinv b (List.mem_cons_of_mem _ hb)
    simp only [Trim.cut] at hf ⊢
    split_ifs at hf ⊢ with h1 h2
    · have hav : 0 ≤ d.BytesConsumable := by
        rw [IOBufferData.BytesConsumable_nat d hd]; omega
      exact List.Forall₂.cons (IOBufferData.narrows_refl d hd)
        (ih (tot + d.BytesConsumable) todo1 (by omega) hrest hf)
    · simpa using hf
    · obtain ⟨k, hk⟩ := Int.eq_ofNat_of_zero_le (show 0 ≤ n - tot by omega)
      have hlt : k < d.mProducer - d.mConsumer := by
        rw [IOBufferData.BytesConsumable_nat d hd] at h1
        omega
      rw [hk, IOBufferData.Trim_nat d k hd, if_pos (by omega)]
      refine List.Forall₂.cons ?_ hf
      exact ⟨rfl, rfl, rfl, le_refl _, by show d.mConsumer ≤ d.mConsumer + k; omega,
        by show d.mConsumer + k ≤ d.mProducer; omega⟩

theorem Trim_cut_snd_mem (n : Int) : ∀ (l : List IOBufferData) (tot : Int),
    ∀ b ∈ (Trim.cut n l tot).2, b ∈ l := by
  intro l
  induction l with
  | nil => intro tot b hb; simp [Trim.cut] at hb
  | cons d rest ih =>
    intro tot b hb
    simp only [Trim.cut] at hb
    split_ifs at hb with h1 h2
    · exact List.mem_cons_of_mem _ (ih _ b hb)
    · exact hb
    · exact List.mem_cons_of_mem _ hb

theorem Trim_narrows (c c1 : IOBuffer) (n : Int) (hres : c.Trim n = .ok c1)
    (hinv : ∀ b ∈ c.mBuf, b.mConsumer ≤ b.mProducer) :
    List.Forall₂ IOBufferData.narrows c.mBuf c1.mBuf := by
  unfold Trim at hres
  split_ifs at hres with h0
  · simp only [Res.ok.injEq] at hres
    subst hres
    exact forall₂_narrows_refl _ hinv
  · dsimp only at hres
    cases hr : Trim.drain (Trim.cut n c.mBuf 0).2 with
    | ok todo1 =>
      rw [hr] at hres
      simp only [Res.bind] at hres
      split_ifs at hres
      simp only [Res.ok.injEq] at hres
      subst hres
      have hmem : ∀ b ∈ (Trim.cut n c.mBuf 0).2, b.mConsumer ≤ b.mProducer :=
        fun b hb => hinv b (Trim_cut_snd_mem n c.mBuf 0 b hb)
      exact Trim_cut_narrows n c.mBuf 0 todo1 (by omega) hinv
        (Trim_drain_narrows _ _ hr hmem)
    | assertFailed => rw [hr] at hres; simp [Res.bind] at hres
    | outOfFuel => rw [hr] at hres; simp [Res.bind] at hres

end IOBuffer
namespace IOBuffer

/-- Where `CopyIn` writes: only into the spare room of the last block and into
arrays it allocates. -/
theorem CopyIn_frame (B : Nat) (hB : 1 ≤ B) (h : Heap) (c : IOBuffer) (buf : List Byte) (n : Nat)
    (hbuf : n ≤ buf.length) (hw : c.WF h) (fuel : Nat) (hfuel : n + 1 ≤ fuel) :
    ∃ h1 c1, c.CopyIn B fuel h buf n = .ok (h1, c1, (n : Int)) ∧
      c1.WF h1 ∧ (∀ b : IOBufferData, b.WF h → b.WF h1) ∧
      (∀ b : IOBufferData, b.WF h → (∀ t ∈ c.mBuf.getLast?, t.roomFree b) →
        b.readable h1 = b.readable h) ∧
      (∀ t1 ∈ c1.mBuf.getLast?,
        (∃ t ∈ c.mBuf.getLast?, t1.mData = t.mData ∧ t1.mEnd = t.mEnd ∧
          t1.mConsumer = t.mConsumer) ∨ h.arrays.length ≤ t1.mData) := by
  obtain ⟨l⟩ := c
  rcases List.eq_nil_or_concat l with hl | ⟨front, t, hl⟩
  · subst hl
    obtain ⟨h1, c1, hres, hw1, -, hW, hR, -⟩ :=
      CopyIn_spec B hB h ⟨[]⟩ buf n hbuf hw (by intro t ht; simp at ht) fuel hfuel
    have hwI := IOBufferData.WF_Init h B
    rw [IOBufferData.Init_eq] at hwI
    obtain ⟨h2, hres2, -, -, -, -, -, -⟩ :=
      CopyIn_loop_spec B hB buf n hbuf fuel (h.alloc B).1 [] ⟨h.arrays.length, 0, B, 0, 0⟩ 0
        (min (n - 0) (B - 0)) (by omega) hwI rfl (by
          have hB0 : ¬ (0 : Nat) = B := by omega
          rw [if_neg hB0]; omega)
    have hun : CopyIn B fuel h ⟨[]⟩ buf n = CopyIn.loop B buf n fuel (h.alloc B).1 []
        ⟨h.arrays.length, 0, B, 0, 0⟩ ((0 : Nat) : Int) := by
      simp only [CopyIn, List.getLast?_nil, IOBufferData.Init_eq]
      rfl
    rw [← hun, hres] at hres2
    simp only [Res.ok.injEq, Prod.mk.injEq] at hres2
    obtain ⟨-, hc1, -⟩ := hres2
    refine ⟨h1, c1, hres, hw1, hW, hR, ?_⟩
    intro t1 ht1
    right
    rw [hc1] at ht1
    simp only [List.nil_append, Heap.length_alloc] at ht1
    cases hfr : freshBlocks B (h.arrays.length + 1)
        (blocksFor B (n - 0 - min (n - 0) (B - 0))) (n - 0 - min (n - 0) (B - 0)) with
    | nil =>
      rw [hfr] at ht1
      simp only [List.getLast?_singleton, Option.mem_def, Option.some.injEq] at ht1
      rw [← ht1]
    | cons x xs =>
      rw [hfr, List.getLast?_cons_cons] at ht1
      have hmem : t1 ∈ freshBlocks B (h.arrays.length + 1)
          (blocksFor B (n - 0 - min (n - 0) (B - 0))) (n - 0 - min (n - 0) (B - 0)) := by
        rw [hfr]; exact List.mem_of_mem_getLast? ht1
      have := (freshBlocks_mem B _ _ _ t1 hmem).1
      omega
  · rw [List.concat_eq_append] at hl
    subst hl
    have hwt : t.WF h := hw t (by simp)
    have hwf : ∀ b ∈ front, b.WF h := fun b hb => hw b (by simp [hb])
    obtain ⟨h1, hres, hW, hR, hDW, hD, hFW, hFC⟩ :=
      CopyIn_loop_spec B hB buf n hbuf fuel h front t 0
        (min (n - 0) (t.mEnd - t.mProducer)) (by omega) hwt rfl (by
          split_ifs <;> omega)
    have hun : CopyIn B fuel h ⟨front ++ [t]⟩ buf n =
        CopyIn.loop B buf n fuel h front t ((0 : Nat) : Int) := by
      simp only [CopyIn, List.getLast?_concat, List.dropLast_concat]
      rfl
    rw [← hun] at hres
    refine ⟨h1, _, hres, ?_, hW, ?_, ?_⟩
    · intro b hb
      rcases List.mem_append.mp hb with hb | hb
      · exact hW b (hwf b hb)
      · rcases List.mem_cons.mp hb with hb | hb
        · rw [hb]; exact hDW
        · exact hFW b hb
    · intro b hb ht
      exact hR b hb (ht t (by simp))
    · intro t1 ht1
      dsimp only at ht1
      rw [List.getLast?_append_of_ne_nil _ (by simp)] at ht1
      cases hfr : freshBlocks B h.arrays.length
          (blocksFor B (n - 0 - min (n - 0) (t.mEnd - t.mProducer)))
          (n - 0 - min (n - 0) (t.mEnd - t.mProducer)) with
      | nil =>
        rw [hfr] at ht1
        simp only [List.getLast?_singleton, Option.mem_def, Option.some.injEq] at ht1
        left
        refine ⟨t, by simp, ?_⟩
        rw [← ht1]
        exact ⟨rfl, rfl, rfl⟩
      | cons x xs =>
        rw [hfr, List.getLast?_cons_cons] at ht1
        have hmem : t1 ∈ freshBlocks B h.arrays.length
            (blocksFor B (n - 0 - min (n - 0) (t.mEnd - t.mProducer)))
            (n - 0 - min (n - 0) (t.mEnd - t.mProducer)) := by
          rw [hfr]; exact List.mem_of_mem_getLast? ht1
        right
        exact (freshBlocks_mem B _ _ _ t1 hmem).1

end IOBuffer
namespace IOBuffer

/-- One call on the chain `a` keeps every well-formed block well formed, and
leaves a block that the last block of `a` cannot reach as readable as before
and still out of reach of the last block afterwards. -/
theorem call_frame (B fuel : Nat) (hB : 1 ≤ B) (h h1 : Heap) (a a1 : IOBuffer) (op : ChainOp)
    (hres : a.call B fuel h op = .ok (h1, a1)) (hv : op.Valid) (hfuel : op.len + 1 ≤ fuel)
    (hw : a.WF h) :
    a1.WF h1 ∧ (∀ b : IOBufferData, b.WF h → b.WF h1) ∧
    (∀ b : IOBufferData, b.WF h → (∀ t ∈ a.mBuf.getLast?, t.reachFree b) →
      b.readable h1 = b.readable h ∧ ∀ t1 ∈ a1.mBuf.getLast?, t1.reachFree b) := by
  have hinv : ∀ b ∈ a.mBuf, b.mConsumer ≤ b.mProducer := fun b hb => (hw b hb).1.2.1
  cases op with
  | CopyIn buf n =>
    obtain ⟨hn0, hnb⟩ := hv
    obtain ⟨k, rfl⟩ := Int.eq_ofNat_of_zero_le hn0
    simp only [ChainOp.len] at hfuel
    obtain ⟨h2, c2, hres2, hw2, hW, hR, hlast⟩ :=
      CopyIn_frame B hB h a buf k (by omega) hw fuel (by omega)
    simp only [call, hres2, Res.bind, Res.ok.injEq, Prod.mk.injEq] at hres
    obtain ⟨rfl, rfl⟩ := hres
    refine ⟨hw2, hW, ?_⟩
    intro b hb hfree
    refine ⟨hR b hb ?_, ?_⟩
    · intro t ht
      exact IOBufferData.roomFree_of_reachFree
        (hinv t (List.mem_of_mem_getLast? ht)) (hfree t ht)
    · intro t1 ht1
      rcases hlast t1 ht1 with ⟨t, ht, e1, e2, e3⟩ | hfresh
      · rcases hfree t ht with hf | hf
        · left; rw [e1]; exact hf
        · right; rw [e2, e3]; exact hf
      · left
        have := hb.2.2
        omega
  | ZeroFill n =>
    obtain ⟨k, rfl⟩ := Int.eq_ofNat_of_zero_le hv
    simp only [ChainOp.len] at hfuel
    obtain ⟨h2, hres2, hlen, hold, hfresh, -⟩ :=
      ZeroFill_loop_spec B hB fuel h a.mBuf k (by omega)
    simp only [call, ZeroFill, hres2, Res.bind, Res.ok.injEq, Prod.mk.injEq] at hres
    obtain ⟨rfl, rfl⟩ := hres
    have hW : ∀ b : IOBufferData, b.WF h → b.WF h2 := by
      intro b hb
      obtain ⟨hb1, hb2, hb3⟩ := hb
      exact ⟨hb1, by rw [hold b.mData hb3]; exact hb2, by omega⟩
    refine ⟨?_, hW, ?_⟩
    · intro b hb
      rcases List.mem_append.mp hb with hb | hb
      · exact hW b (hw b hb)
      · exact (hfresh b hb).1
    · intro b hb hfree
      refine ⟨by simp only [IOBufferData.readable, hold b.mData hb.2.2], ?_⟩
      intro t1 ht1
      dsimp only at ht1
      cases hfr : freshBlocks B h.arrays.length (blocksFor B k) k with
      | nil =>
        rw [hfr, List.append_nil] at ht1
        exact hfree t1 ht1
      | cons x xs =>
        rw [hfr, List.getLast?_append_of_ne_nil _ (by simp)] at ht1
        have hmem : t1 ∈ freshBlocks B h.arrays.length (blocksFor B k) k := by
          rw [hfr]; exact List.mem_of_mem_getLast? ht1
        left
        have := (freshBlocks_mem B _ _ _ t1 hmem).1
        have := hb.2.2
        omega
  | Consume n =>
    obtain ⟨k, rfl⟩ := Int.eq_ofNat_of_zero_le hv
    have hge : ((k : Nat) : Int) ≥ 0 := by omega
    simp only [call, Consume, if_pos hge] at hres
    cases hl : Consume.loop fuel a.mBuf k with
    | ok v =>
      obtain ⟨l1, r⟩ := v
      rw [hl] at hres
      simp only [Res.bind] at hres
      split_ifs at hres
      simp only [Res.ok.injEq, Prod.mk.injEq] at hres
      obtain ⟨rfl, rfl⟩ := hres
      obtain ⟨hmem, hlast⟩ := Consume_loop_narrows fuel a.mBuf k l1 r hl hinv
      refine ⟨?_, fun b hb => hb, ?_⟩
      · intro b1 hb1
        obtain ⟨b, hb, hr⟩ := hmem b1 hb1
        exact IOBufferData.WF_narrows h (hw b hb) hr
      · intro b _ hfree
        refine ⟨rfl, ?_⟩
        intro t1 ht1
        obtain ⟨t, ht, hr⟩ := hlast t1 ht1
        exact IOBufferData.reachFree_narrows hr (hfree t ht)
    | assertFailed => rw [hl] at hres; simp [Res.bind] at hres
    | outOfFuel => rw [hl] at hres; simp [Res.bind] at hres
  | Trim n =>
    simp only [call] at hres
    cases ht : a.Trim n with
    | ok c1 =>
      rw [ht] at hres
      simp only [Res.bind, Res.ok.injEq, Prod.mk.injEq] at hres
      obtain ⟨rfl, rfl⟩ := hres
      have hf := Trim_narrows a c1 n ht hinv
      refine ⟨?_, fun b hb => hb, ?_⟩
      · intro b1 hb1
        obtain ⟨b, hb, hr⟩ := mem_forall₂ hf b1 hb1
        exact IOBufferData.WF_narrows h (hw b hb) hr
      · intro b _ hfree
        refine ⟨rfl, ?_⟩
        intro t1 ht1
        obtain ⟨t, ht, hr⟩ := getLast?_forall₂ hf t1 ht1
        exact IOBufferData.reachFree_narrows hr (hfree t ht)
    | assertFailed => rw [ht] at hres; simp [Res.bind] at hres
    | outOfFuel => rw [ht] at hres; simp [Res.bind] at hres

/-- A sequence of calls on the chain `a` leaves the content of a chain `c`
unchanged when no readable byte of `c` lies where `a` can write. -/
theorem calls_frame (B fuel : Nat) (hB : 1 ≤ B) : ∀ (ops : List ChainOp) (h h2 : Heap)
    (a a2 c : IOBuffer), calls B fuel h a ops = .ok (h2, a2) →
    (∀ op ∈ ops, op.Valid ∧ op.len + 1 ≤ fuel) → a.WF h → c.WF h → Apart a c →
    content h2 c = content h c ∧ c.WF h2 ∧ a2.WF h2 ∧ Apart a2 c := by
  intro ops
  induction ops with
  | nil =>
    intro h h2 a a2 c hres _ hwa hwc hap
    simp only [calls, Res.ok.injEq, Prod.mk.injEq] at hres
    obtain ⟨rfl, rfl⟩ := hres
    exact ⟨rfl, hwc, hwa, hap⟩
  | cons op ops ih =>
    intro h h2 a a2 c hres hops hwa hwc hap
    simp only [calls] at hres
    cases hc : a.call B fuel h op with
    | ok v =>
      obtain ⟨h1, a1⟩ := v
      rw [hc] at hres
      simp only [Res.bind] at hres
      obtain ⟨hv, hfu⟩ := hops op (List.mem_cons_self _ _)
      obtain ⟨hwa1, hW, hF⟩ := call_frame B fuel hB h h1 a a1 op hc hv hfu hwa
      have hwc1 : c.WF h1 := fun b hb => hW b (hwc b hb)
      have hap1 : Apart a1 c := by
        intro t1 ht1 d hd
        exact (hF d (hwc d hd) (fun t ht => hap t ht d hd)).2 t1 ht1
      obtain ⟨e, r1, r2, r3⟩ := ih h1 h2 a1 a2 c hres
        (fun o ho => hops o (List.mem_cons_of_mem _ ho)) hwa1 hwc1 hap1
      refine ⟨?_, r1, r2, r3⟩
      rw [e]
      exact content_congr h h1 c.mBuf
        (fun b hb => (hF b (hwc b hb) (fun t ht => hap t ht b hb)).1)
    | assertFailed => rw [hc] at hres; simp [Res.bind] at hres
    | outOfFuel => rw [hc] at hres; simp [Res.bind] at hres

end IOBuffer
namespace IOBuffer

/-- `Move` of `0 < k ≤ consumable` bytes of the first block: the split. -/
theorem Move_head (c : IOBuffer) (d : IOBufferData) (rest : List IOBufferData) (k fuel : Nat)
    (hd : d.mConsumer ≤ d.mProducer) (hk0 : 0 < k) (hk : k ≤ d.mProducer - d.mConsumer)
    (hf : 1 ≤ fuel) (hge : BytesConsumable ⟨d :: rest⟩ ≥ (k : Int)) :
    c.Move fuel ⟨d :: rest⟩ k =
      .ok (⟨c.mBuf ++ [IOBufferData.view d d.mConsumer (d.mConsumer + k)]⟩,
        ⟨if k = d.mProducer - d.mConsumer then rest
          else { d with mConsumer := d.mConsumer + k } :: rest⟩) := by
  obtain ⟨f, rfl⟩ : ∃ f, fuel = f + 1 := ⟨fuel - 1, by omega⟩
  have h1 : (0 : Int) < (k : Int) := by omega
  have h2 : ¬ d.BytesConsumable + 0 < (k : Int) := by
    rw [IOBufferData.BytesConsumable_nat d hd]; omega
  have e1 : (k : Int) - 0 = ((k : Nat) : Int) := by omega
  have e2 : ((d.mConsumer : Nat) : Int) + ((k : Nat) : Int) = ((d.mConsumer + k : Nat) : Int) := by
    omega
  have e3 : (0 : Int) + ((k : Nat) : Int) ≥ (k : Int) := by omega
  simp only [Move, if_pos hge, Move.loop, if_pos h1, if_neg h2, e1, e2, Int.toNat_ofNat,
    Consume_head d rest k (f + 1) hd hk hf, Res.bind, if_pos e3, IOBufferData.Consumer]
  rw [Move_loop_done _ _ _ _ _ _ (by omega)]

end IOBuffer

/-! ## `Splice` when no block has to be split -/

namespace IOBuffer

theorem BytesConsumable_nonneg (l : List IOBufferData)
    (hl : ∀ b ∈ l, b.mConsumer ≤ b.mProducer) : 0 ≤ BytesConsumable ⟨l⟩ := by
  induction l with
  | nil => simp [BytesConsumable_nil]
  | cons d l ih =>
    rw [BytesConsumable_cons, IOBufferData.BytesConsumable_nat d (hl d (List.mem_cons_self _ _))]
    have := ih (fun b hb => hl b (List.mem_cons_of_mem _ hb))
    omega

theorem empty_of_BytesConsumable_le (l : List IOBufferData)
    (hl : ∀ b ∈ l, b.mConsumer ≤ b.mProducer) (h0 : BytesConsumable ⟨l⟩ ≤ 0) :
    ∀ b ∈ l, b.mProducer = b.mConsumer := by
  induction l with
  | nil => intro b hb; simp at hb
  | cons d l ih =>
    have hd := hl d (List.mem_cons_self _ _)
    have hl1 : ∀ b ∈ l, b.mConsumer ≤ b.mProducer := fun b hb => hl b (List.mem_cons_of_mem _ hb)
    rw [BytesConsumable_cons, IOBufferData.BytesConsumable_nat d hd] at h0
    have := BytesConsumable_nonneg l hl1
    intro b hb
    rcases List.mem_cons.mp hb with rfl | hb
    · omega
    · exact ih hl1 (by omega) b hb

/-- The search loop of `Splice` on blocks that end at or before `offset`: it
passes whole blocks, copies nothing, and leaves `insertPt` at `iter`. -/
theorem Splice_find_pass (B : Nat) (offset : Int) :
    ∀ (rest : List IOBufferData) (fuel : Nat) (h : Heap) (passed : List IOBufferData)
      (insertPt : Option Nat) (startPos : Int),
      (∀ b ∈ rest, b.mConsumer ≤ b.mProducer) →
      startPos + BytesConsumable ⟨rest⟩ ≤ offset → rest.length ≤ fuel →
      ∃ p r ip sp, Splice.find B offset fuel h passed rest insertPt startPos =
          .ok (h, p, r, ip, sp) ∧
        p ++ r = passed ++ rest ∧ (∀ b ∈ r, b.mProducer = b.mConsumer) ∧
        (ip = iterAt p r ∨
          (ip = insertPt ∧ p = passed ∧ r = rest ∧ (rest = [] ∨ offset ≤ startPos))) := by
  intro rest
  induction rest with
  | nil =>
    intro fuel h passed insertPt startPos _ _ _
    refine ⟨passed, [], insertPt, startPos, ?_, rfl, ?_, Or.inr ⟨rfl, rfl, rfl, Or.inl rfl⟩⟩
    · cases fuel <;> simp [Splice.find]
    · intro b hb; simp at hb
  | cons data rest ih =>
    intro fuel h passed insertPt startPos hinv hsum hf
    obtain ⟨f, rfl⟩ : ∃ f, fuel = f + 1 := ⟨fuel - 1, by simp at hf; omega⟩
    have hd := hinv data (List.mem_cons_self _ _)
    have hinv1 : ∀ b ∈ rest, b.mConsumer ≤ b.mProducer :=
      fun b hb => hinv b (List.mem_cons_of_mem _ hb)
    have hnn := BytesConsumable_nonneg rest hinv1
    have hsum1 := hsum
    rw [BytesConsumable_cons] at hsum1
    by_cases hlt : startPos < offset
    · have hns : ¬ data.BytesConsumable + startPos > offset := by omega
      obtain ⟨p, r, ip, sp, hres, hpr, hr, hip⟩ :=
        ih f h (passed ++ [data]) (iterAt (passed ++ [data]) rest)
          (startPos + data.BytesConsumable) hinv1 (by omega) (by simpa using hf)
      refine ⟨p, r, ip, sp, ?_, ?_, hr, Or.inl ?_⟩
      · simp only [Splice.find, if_pos hlt, if_neg hns]
        exact hres
      · rw [hpr]; simp
      · rcases hip with hip | ⟨e1, e2, e3, -⟩
        · exact hip
        · rw [e1, e2, e3]
    · refine ⟨passed, data :: rest, insertPt, startPos, ?_, rfl, ?_,
        Or.inr ⟨rfl, rfl, rfl, Or.inr (by omega)⟩⟩
      · simp only [Splice.find, if_neg hlt]
      · exact empty_of_BytesConsumable_le (data :: rest) hinv (by omega)

/-- The erasing loop of `Splice` consumes nothing from blocks that are empty. -/
theorem Splice_erase_empty (limit : Int) :
    ∀ (r : List IOBufferData) (sp : Int), (∀ b ∈ r, b.mProducer = b.mConsumer) →
      ∃ sp1, Splice.erase limit r sp = .ok (r, sp1) := by
  intro r
  induction r with
  | nil => intro sp _; exact ⟨sp, rfl⟩
  | cons d r ih =>
    intro sp he
    have hd := he d (List.mem_cons_self _ _)
    by_cases hlt : sp < limit
    · have hbc : d.BytesConsumable = 0 := by
        simp only [IOBufferData.BytesConsumable]; omega
      have hex : ¬ sp + 0 > limit := by omega
      have hc : d.Consume 0 = .ok (d, 0) := by
        have := IOBufferData.Consume_nat d 0 (by omega)
        simp only [Nat.cast_zero, Nat.zero_min, Nat.add_zero] at this
        exact this
      obtain ⟨sp1, h1⟩ := ih (sp + 0) (fun b hb => he b (List.mem_cons_of_mem _ hb))
      refine ⟨sp1, ?_⟩
      simp only [Splice.erase, if_pos hlt, hbc, if_neg hex, hc, Res.bind, h1]
    · exact ⟨sp, by simp only [Splice.erase, if_neg hlt]⟩

theorem blocksFor_le (B n : Nat) (hB : 1 ≤ B) : blocksFor B n ≤ n := by
  unfold blocksFor
  have : (n + B - 1) / B < n + 1 := by
    rw [Nat.div_lt_iff_lt_mul (by omega), Nat.succ_mul]
    have := Nat.le_mul_of_pos_right n (show 0 < B by omega)
    omega
  omega

theorem foldl_push (l acc : List IOBufferData) :
    l.foldl (fun mBuf data => mBuf ++ [data]) acc = acc ++ l := by
  induction l generalizing acc with
  | nil => simp
  | cons d l ih => simp [ih]

/-- `Splice` at or beyond the end of the content: pad with zeros, then put the
blocks of `other` behind. -/
theorem Splice_end_spec (B : Nat) (hB : 1 ≤ B) (h : Heap) (c other : IOBuffer) (k n : Nat)
    (fuel : Nat) (hwc : c.WF h) (hwo : other.WF h) (hn : n ≤ (content h other).length)
    (hf : c.mBuf.length + k ≤ fuel) :
    ∃ h1 c1, c.Splice B fuel h other (((content h c).length + k : Nat) : Int) n =
        .ok (h1, c1, ⟨[]⟩) ∧
      content h1 c1 = content h c ++ List.replicate k 0 ++ content h other ∧
      c1.WF h1 ∧ content h1 other = content h other ∧
      (∀ id, id < h.arrays.length → h1.get id = h.get id) := by
  obtain ⟨h1, hz, hlen, hold, hfresh, hzc⟩ := ZeroFill_loop_spec B hB fuel h c.mBuf k (by omega)
  have hW : ∀ b : IOBufferData, b.WF h → b.WF h1 := by
    intro b hb
    obtain ⟨hb1, hb2, hb3⟩ := hb
    exact ⟨hb1, by rw [hold b.mData hb3]; exact hb2, by omega⟩
  have hR : ∀ b : IOBufferData, b.WF h → b.readable h1 = b.readable h := by
    intro b hb
    simp only [IOBufferData.readable, hold b.mData hb.2.2]
  have hw1 : IOBuffer.WF h1 ⟨c.mBuf ++ freshBlocks B h.arrays.length (blocksFor B k) k⟩ := by
    intro b hb
    rcases List.mem_append.mp hb with hb | hb
    · exact hW b (hwc b hb)
    · exact (hfresh b hb).1
  have hcont1 : content h1 ⟨c.mBuf ++ freshBlocks B h.arrays.length (blocksFor B k) k⟩ =
      content h c ++ List.replicate k 0 := by
    rw [content_append, hzc, content_congr h h1 c.mBuf (fun b hb => hR b (hwc b hb))]
  have hbc1 := BytesConsumable_eq_length h1 _ hw1
  rw [hcont1, List.length_append, List.length_replicate] at hbc1
  have hinv1 : ∀ b ∈ c.mBuf ++ freshBlocks B h.arrays.length (blocksFor B k) k,
      b.mConsumer ≤ b.mProducer := fun b hb => (hw1 b hb).1.2.1
  obtain ⟨p, r, ip, sp, hfind, hpr, hr, hip⟩ :=
    Splice_find_pass B (((content h c).length + k : Nat) : Int)
      (c.mBuf ++ freshBlocks B h.arrays.length (blocksFor B k) k) fuel h1 []
      (iterAt [] c.mBuf) 0 hinv1 (by rw [hbc1]; omega)
      (by rw [List.length_append, length_freshBlocks]; have := blocksFor_le B k hB; omega)
  obtain ⟨sp1, herase⟩ := Splice_erase_empty ((((content h c).length + k : Nat) : Int) + n) r sp hr
  have hip1 : ip = iterAt p r := by
    rcases hip with hip | ⟨e1, e2, e3, hcase⟩
    · exact hip
    · rw [e1, e2, e3]
      rcases hcase with hnil | h0
      · have : c.mBuf = [] := by
          rcases List.append_eq_nil.mp hnil with ⟨hc, -⟩
          exact hc
        rw [hnil, this]
      · have hk : k = 0 := by omega
        subst hk
        rw [freshBlocks_zero B _ hB, List.append_nil]
  have hcr : content h1 ⟨r⟩ = [] := by
    have : ∀ b ∈ r, b.readable h1 = [] := by
      intro b hb
      simp only [IOBufferData.readable, hr b hb, Nat.sub_self, List.take_zero]
    simp only [content]
    rw [List.flatten_eq_nil_iff]
    intro l hl
    obtain ⟨b, hb, rfl⟩ := List.mem_map.mp hl
    exact this b hb
  have hwp : ∀ b ∈ p ++ r, b.WF h1 := by
    intro b hb
    rw [hpr, List.nil_append] at hb
    exact hw1 b hb
  have hcp : content h1 ⟨p⟩ = content h c ++ List.replicate k 0 := by
    have := content_append h1 p r
    rw [hpr, List.nil_append, hcont1, hcr, List.append_nil] at this
    exact this.symm
  have hextra : ((((content h c).length + k : Nat) : Int)) - c.BytesConsumable = (k : Int) := by
    rw [BytesConsumable_eq_length h c hwc]; push_cast; omega
  have hge1 : BytesConsumable ⟨c.mBuf ++ freshBlocks B h.arrays.length (blocksFor B k) k⟩ ≥
      (((content h c).length + k : Nat) : Int) := by rw [hbc1]
  have hge2 : other.BytesConsumable ≥ (n : Int) := by
    rw [BytesConsumable_eq_length h other hwo]; omega
  have hres : ∃ c1 : IOBuffer, c.Splice B fuel h other (((content h c).length + k : Nat) : Int) n =
      .ok (h1, c1, ⟨[]⟩) ∧ (c1.mBuf = p ++ other.mBuf ++ r) := by
    simp only [Splice, hextra, hz, Res.bind, if_pos hge1, if_pos hge2, hfind, herase, hip1]
    cases r with
    | nil =>
      refine ⟨⟨p ++ other.mBuf⟩, ?_, by simp⟩
      simp [iterAt, foldl_push]
    | cons d r =>
      refine ⟨⟨p ++ other.mBuf ++ d :: r⟩, ?_, rfl⟩
      simp [iterAt]
  obtain ⟨c1, hres, hc1⟩ := hres
  refine ⟨h1, c1, hres, ?_, ?_, content_congr h h1 other.mBuf (fun b hb => hR b (hwo b hb)), hold⟩
  · obtain ⟨l⟩ := c1
    simp only at hc1
    rw [hc1, content_append, content_append, hcr, List.append_nil, hcp,
      content_congr h h1 other.mBuf (fun b hb => hR b (hwo b hb))]
  · intro b hb
    rw [hc1] at hb
    rcases List.mem_append.mp hb with hb | hb
    · rcases List.mem_append.mp hb with hb | hb
      · exact hwp b (List.mem_append_left _ hb)
      · exact hW b (hwo b hb)
    · exact hwp b (List.mem_append_right _ hb)

end IOBuffer

/-! ## `Clone` -/

namespace IOBuffer

theorem foldl_push_map (f : IOBufferData → IOBufferData) (l acc : List IOBufferData) :
    l.foldl (fun mBuf data => mBuf ++ [f data]) acc = acc ++ l.map f := by
  induction l generalizing acc with
  | nil => simp
  | cons d l ih => simp [ih]

/-- `Clone` of a well-formed chain: one view per block, on the readable window
of that block. -/
theorem Clone_spec (h : Heap) (c : IOBuffer) (hw : c.WF h) :
    c.Clone.mBuf = c.mBuf.map (fun d => IOBufferData.view d d.mConsumer d.mProducer) ∧
      c.Clone.WF h ∧ content h c.Clone = content h c := by
  have hm : c.Clone.mBuf = c.mBuf.map (fun d => IOBufferData.view d d.mConsumer d.mProducer) := by
    simp only [Clone]
    rw [foldl_push_map (fun d => IOBufferData.view d d.Consumer
      ((d.Consumer : Int) + d.BytesConsumable).toNat), List.nil_append]
    apply List.map_congr_left
    intro d hd
    have hcp := (hw d hd).1.2.1
    simp only [IOBufferData.Consumer, IOBufferData.BytesConsumable_nat d hcp]
    congr 1
    omega
  have hv : ∀ d : IOBufferData, d.mConsumer ≤ d.mProducer →
      IOBufferData.view d d.mConsumer d.mProducer =
        IOBufferData.view d d.mConsumer (d.mConsumer + (d.mProducer - d.mConsumer)) := by
    intro d hd
    congr 1
    omega
  refine ⟨hm, ?_, ?_⟩
  · intro b hb
    rw [hm] at hb
    obtain ⟨d, hd, rfl⟩ := List.mem_map.mp hb
    rw [hv d (hw d hd).1.2.1]
    exact IOBufferData.WF_view h d _ (hw d hd) (le_refl _)
  · simp only [content, hm, List.map_map]
    rfl

end IOBuffer

/-! ## Views -/

theorem Heap.memcpy_nil (h : Heap) (id off : Nat) : h.memcpy id off [] = h := by
  by_cases hid : id < h.arrays.length
  · have e : writeAt (h.get id) off [] = h.arrays[id] := by
      rw [writeAt_nil, Heap.get_of_lt h id hid]
    have e1 : h.arrays.set id h.arrays[id] = h.arrays := by
      apply List.ext_getElem (by simp)
      intro i i1 i2
      rw [List.getElem_set]
      split_ifs with hi
      · subst hi; rfl
      · rfl
    simp only [Heap.memcpy, e, e1]
  · exact Heap.memcpy_of_not_lt h id off [] hid

namespace IOBufferData

/-- One call on a block without space available, a `Trim` only with a length
of at least the window: the heap is untouched, the block still has no space
available, and a call that can write returns 0. -/
theorem call_view (h : Heap) (other : IOBufferData) (s e : Nat) (b : IOBufferData)
    (op : BlockOp) (hse : s ≤ e) (hb : IsViewOf other s e b) (hlen : 0 ≤ op.len)
    (htrim : op.isTrim = true → (e : Int) - s ≤ op.len) :
    ∃ b1 r, b.call h op = .ok (h, b1, r) ∧ IsViewOf other s e b1 ∧
      (op.isWrite = true → r = 0) := by
  obtain ⟨h1, h2, h3, h4, h5⟩ := hb
  cases op with
  | Fill n =>
    simp only [BlockOp.len] at hlen
    by_cases hn : n > 0
    · refine ⟨{ b with mProducer := b.mEnd }, 0, ?_, ⟨h1, h2, h3, h3, h5⟩, fun _ => rfl⟩
      have hgt : n > (b.mEnd : Int) - b.mProducer := by omega
      have e0 : (b.mEnd : Int) - b.mProducer = 0 := by omega
      simp only [call, Fill, e0, if_pos hn, Res.bind]
    · have hn0 : n = 0 := by omega
      subst hn0
      refine ⟨b, 0, ?_, ⟨h1, h2, h3, h4, h5⟩, fun _ => rfl⟩
      have hng : ¬ (0 : Int) > (b.mEnd : Int) - b.mProducer := by omega
      have hle : b.mProducer ≤ b.mEnd := by omega
      simp only [call, Fill, if_neg hng, Res.bind, Int.add_zero, Int.toNat_ofNat, if_pos hle]
  | ZeroFill n =>
    simp only [BlockOp.len] at hlen
    refine ⟨b, 0, ?_, ⟨h1, h2, h3, h4, h5⟩, fun _ => rfl⟩
    have := ZeroFill_nat h b n.toNat (by omega)
    rw [Int.toNat_of_nonneg hlen] at this
    rw [show b.ZeroFill h n = call h b (.ZeroFill n) from rfl] at this
    rw [this]
    have e0 : min n.toNat (b.mEnd - b.mProducer) = 0 := by omega
    simp only [e0, Heap.memset, List.replicate_zero, Heap.memcpy_nil, Nat.add_zero,
      Nat.cast_zero]
  | Consume n =>
    simp only [BlockOp.len] at hlen
    by_cases hn : n > (b.mProducer : Int) - b.mConsumer
    · refine ⟨{ b with mConsumer := b.mProducer }, (b.mProducer : Int) - b.mConsumer, ?_,
        ⟨h1, h2, h3, h4, ?_⟩, fun hw => by simp [BlockOp.isWrite] at hw⟩
      · simp only [call, Consume, if_pos hn, Res.bind]
      · show s ≤ b.mProducer
        omega
    · have hle : ((b.mConsumer : Int) + n).toNat ≤ b.mProducer := by omega
      refine ⟨{ b with mConsumer := ((b.mConsumer : Int) + n).toNat }, n, ?_,
        ⟨h1, h2, h3, h4, ?_⟩, fun hw => by simp [BlockOp.isWrite] at hw⟩
      · simp only [call, Consume, if_neg hn, Res.bind, if_pos hle]
      · show s ≤ ((b.mConsumer : Int) + n).toNat
        omega
  | Trim n =>
    simp only [BlockOp.len] at hlen
    have ht := htrim rfl
    simp only [BlockOp.len] at ht
    by_cases hn : (b.mProducer : Int) - b.mConsumer < n
    · refine ⟨b, (b.mProducer : Int) - b.mConsumer, ?_, ⟨h1, h2, h3, h4, h5⟩,
        fun hw => by simp [BlockOp.isWrite] at hw⟩
      simp only [call, Trim, if_pos hn]
    · refine ⟨{ b with mProducer := ((b.mConsumer : Int) + n).toNat }, n, ?_,
        ⟨h1, h2, h3, ?_, h5⟩, fun hw => by simp [BlockOp.isWrite] at hw⟩
      · simp only [call, Trim, if_neg hn]
      · show ((b.mConsumer : Int) + n).toNat = e
        omega
  | CopyIn buf n =>
    simp only [BlockOp.len] at hlen
    refine ⟨b, 0, ?_, ⟨h1, h2, h3, h4, h5⟩, fun _ => rfl⟩
    have := CopyIn_nat h b buf n.toNat (by omega)
    rw [Int.toNat_of_nonneg hlen] at this
    rw [show b.CopyIn h buf n = call h b (.CopyIn buf n) from rfl] at this
    rw [this]
    have e0 : min n.toNat (b.mEnd - b.mProducer) = 0 := by omega
    simp only [e0, List.take_zero, Heap.memcpy_nil, Nat.add_zero, Nat.cast_zero]

/-- A sequence of calls on a block without space available, see `call_view`. -/
theorem calls_view (other : IOBufferData) (s e : Nat) :
    ∀ (ops : List BlockOp) (h : Heap) (b : IOBufferData), s ≤ e → IsViewOf other s e b →
      (∀ op ∈ ops, 0 ≤ op.len ∧ (op.isTrim = true → (e : Int) - s ≤ op.len)) →
      ∃ b1 rets, b.calls h ops = .ok (h, b1, rets) ∧ IsViewOf other s e b1 ∧
        List.Forall₂ (fun op r => op.isWrite = true → r = 0) ops rets := by
  intro ops
  induction ops with
  | nil =>
    intro h b _ hb _
    exact ⟨b, [], rfl, hb, List.Forall₂.nil⟩
  | cons op ops ih =>
    intro h b hse hb hops
    obtain ⟨hl, ht⟩ := hops op (List.mem_cons_self _ _)
    obtain ⟨b1, r, hc, hb1, hr⟩ := call_view h other s e b op hse hb hl ht
    obtain ⟨b2, rets, hcs, hb2, hrs⟩ :=
      ih h b1 hse hb1 (fun o ho => hops o (List.mem_cons_of_mem _ ho))
    refine ⟨b2, r :: rets, ?_, hb2, List.Forall₂.cons hr hrs⟩
    simp only [calls, hc, Res.bind, hcs]

end IOBufferData

/-! ## `Read` and `Write`: a first call that fails -/

namespace IOBuffer

/-- `Read` when the first `read()` fails: the value returned is `-EAGAIN` for
`errno = 0` and `errno` itself otherwise. -/
theorem Read_first_fails (B fuel : Nat) (EAGAIN : Int) (sys : Nat → SysCall) (h : Heap)
    (c : IOBuffer) (hB : 1 ≤ B) (hw : c.WF h) (hf : 2 ≤ fuel) (hret : (sys 0).ret < 0) :
    ∃ h1 c1, c.Read B fuel EAGAIN sys h =
      .ok (h1, c1, if (sys 0).errno = 0 then -EAGAIN else (sys 0).errno) := by
  obtain ⟨f, rfl⟩ : ∃ f, fuel = f + 2 := ⟨fuel - 2, by omega⟩
  have hnpos : ¬ (sys 0).ret > 0 := by omega
  have hle : (sys 0).ret ≤ 0 := by omega
  have key : ∀ (g : Nat) (hh : Heap) (front : List IOBufferData) (data : IOBufferData),
      data.mProducer < data.mEnd →
      ∃ h1 l, Read.loop B sys (g + 1) hh front data 0 0 =
        .ok (h1, l, (sys 0).ret, 0, (sys 0).errno) := by
    intro g hh front data hd
    have hnf : data.IsFull = false := by
      simp only [IOBufferData.IsFull, beq_eq_false_iff_ne, ne_eq]; omega
    have hnb : (data.mEnd : Int) - data.mProducer > 0 := by omega
    refine ⟨hh, front ++ [data], ?_⟩
    simp only [Read.loop, hnf, Bool.false_eq_true, if_false, IOBufferData.Read, if_pos hnb,
      if_neg hnpos, Res.bind, if_pos hle]
  have hfin : ∀ (r : Res (Heap × List IOBufferData × Int × Int × Int)),
      (∃ h1 l, r = .ok (h1, l, (sys 0).ret, 0, (sys 0).errno)) →
      ∃ h1 c1, (r.bind fun (h1, mBuf, res, numRead, errno) =>
        if numRead = 0 ∧ res < 0 then
          Res.ok (h1, (⟨mBuf⟩ : IOBuffer), if errno = 0 then -EAGAIN else errno)
        else .ok (h1, ⟨mBuf⟩, numRead)) =
        .ok (h1, c1, if (sys 0).errno = 0 then -EAGAIN else (sys 0).errno) := by
    rintro r ⟨h1, l, rfl⟩
    refine ⟨h1, ⟨l⟩, ?_⟩
    simp only [Res.bind, hret, and_self, if_true]
  unfold Read
  apply hfin
  cases hl : c.mBuf.getLast? with
  | none =>
    simp only [IOBufferData.Init_eq]
    exact key (f + 1) _ _ _ (by show 0 < B; omega)
  | some data =>
    simp only
    have hdw := hw data (List.mem_of_mem_getLast? hl)
    by_cases hfull : data.mProducer = data.mEnd
    · have hisf : data.IsFull = true := by
        simp only [IOBufferData.IsFull, beq_iff_eq]; exact hfull
      obtain ⟨h1, l, hk⟩ := key f (h.alloc B).1 (c.mBuf.dropLast ++ [data])
        ⟨h.arrays.length, 0, B, 0, 0⟩ (by show 0 < B; omega)
      refine ⟨h1, l, ?_⟩
      rw [Read.loop]
      simp only [hisf, if_true, IOBufferData.Init_eq]
      exact hk
    · have := hdw.1.2.2
      exact key (f + 1) _ _ _ (by omega)

/-- The loop of `Write` up to a first `write()` that fails. -/
theorem Write_loop_first_fails (sys : Nat → SysCall)
    (hret : (sys 0).ret < 0) :
    ∀ (l : List IOBufferData) (fuel : Nat) (errno res : Int) (didSend : Bool),
      (∀ b ∈ l, b.mConsumer ≤ b.mProducer) → 0 < BytesConsumable ⟨l⟩ → l.length ≤ fuel →
      ∃ l1, Write.loop sys fuel l 0 errno res didSend 0 =
        .ok (l1, (sys 0).ret, true, 0, (sys 0).errno) := by
  intro l
  induction l with
  | nil =>
    intro fuel errno res didSend _ hpos _
    simp [BytesConsumable_nil] at hpos
  | cons d l ih =>
    intro fuel errno res didSend hinv hpos hf
    obtain ⟨f, rfl⟩ : ∃ f, fuel = f + 1 := ⟨fuel - 1, by simp at hf; omega⟩
    have hd := hinv d (List.mem_cons_self _ _)
    rw [BytesConsumable_cons, IOBufferData.BytesConsumable_nat d hd] at hpos
    by_cases he : d.mProducer = d.mConsumer
    · have hie : d.IsEmpty = true := by
        simp only [IOBufferData.IsEmpty, beq_iff_eq]; exact he
      obtain ⟨l1, h1⟩ := ih f errno res didSend
        (fun b hb => hinv b (List.mem_cons_of_mem _ hb)) (by omega) (by simpa using hf)
      refine ⟨l1, ?_⟩
      rw [Write.loop]
      simp only [hie, if_true]
      exact h1
    · have hie : d.IsEmpty = false := by
        simp only [IOBufferData.IsEmpty, beq_eq_false_iff_ne, ne_eq]; exact he
      have hbc : d.BytesConsumable > 0 := by
        rw [IOBufferData.BytesConsumable_nat d hd]; omega
      have hnb : (d.mProducer : Int) - d.mConsumer > 0 := by omega
      have hnpos : ¬ (sys 0).ret > 0 := by omega
      have hle : (sys 0).ret ≤ 0 := by omega
      refine ⟨d :: l, ?_⟩
      rw [Write.loop]
      simp only [hie, Bool.false_eq_true, if_false, if_pos hbc, IOBufferData.Write, if_pos hnb,
        if_neg hnpos, Res.bind, if_pos hle]

/-- `Write` on a chain with consumable bytes when the first `write()` fails:
the value returned is `-EAGAIN` for `errno = 0` and `errno` itself otherwise. -/
theorem Write_first_fails (fuel : Nat) (EAGAIN : Int) (sys : Nat → SysCall) (errno0 : Int)
    (h : Heap) (c : IOBuffer) (hw : c.WF h) (hpos : 0 < c.BytesConsumable)
    (hf : c.mBuf.length ≤ fuel) (hret : (sys 0).ret < 0) :
    ∃ c1, c.Write fuel EAGAIN sys errno0 =
      .ok (c1, if (sys 0).errno = 0 then -EAGAIN else (sys 0).errno) := by
  obtain ⟨l1, h1⟩ := Write_loop_first_fails sys hret c.mBuf fuel errno0 (-EAGAIN) false
    (fun b hb => (hw b hb).1.2.1) hpos hf
  refine ⟨⟨l1⟩, ?_⟩
  simp only [Write, h1, Res.bind, Bool.not_true, Bool.false_eq_true, if_false, hret, and_self,
    if_true]

end IOBuffer

/-! ## `DiskManager::Timeout` -/

namespace DiskManager

/-- With a stuck event at the head of the queue every iteration of the loop
is the same: no budget lets the loop end. -/
theorem Timeout_loop_head_stuck (k : Kernel) (event : DiskEvent_t) (rest : List DiskEvent_t)
    (hs : Stuck k event) :
    ∀ (fuel : Nat) (calls : List (DiskEvent_t × Int)) (dropped : List DiskEvent_t),
      Timeout.loop k fuel (event :: rest) calls dropped = .outOfFuel := by
  obtain ⟨hc, hk⟩ := hs
  intro fuel
  induction fuel with
  | zero => intro calls dropped; rfl
  | succ f ih =>
    intro calls dropped
    rw [Timeout.loop]
    rw [if_neg hc]
    rcases hk with hk | hk
    · simp only [if_pos hk]
      exact ih calls dropped
    · by_cases hp : k.aio_error event.aio_cb = k.EINPROGRESS
      · simp only [if_pos hp]
        exact ih calls dropped
      · simp only [if_neg hp, if_pos hk]
        exact ih calls dropped

/-- With a stuck event anywhere in the queue the loop never ends. -/
theorem Timeout_loop_blocked (k : Kernel) :
    ∀ (fuel : Nat) (q : List DiskEvent_t) (calls : List (DiskEvent_t × Int))
      (dropped : List DiskEvent_t), (∃ e ∈ q, Stuck k e) →
      ∀ r, Timeout.loop k fuel q calls dropped ≠ .ok r := by
  intro fuel
  induction fuel with
  | zero =>
    intro q calls dropped hq r
    obtain ⟨e, he, -⟩ := hq
    cases q with
    | nil => simp at he
    | cons a rest => simp [Timeout.loop]
  | succ f ih =>
    intro q calls dropped hq r
    obtain ⟨e, he, hst⟩ := hq
    cases q with
    | nil => simp at he
    | cons a rest =>
      by_cases hsa : Stuck k a
      · rw [Timeout_loop_head_stuck k a rest hsa]
        simp
      · have hne : e ≠ a := fun h => hsa (h ▸ hst)
        have her : e ∈ rest := by
          rcases List.mem_cons.mp he with h | h
          · exact absurd h hne
          · exact h
        rw [Timeout.loop]
        by_cases hc : a.status = DiskEventStatus_t.EVENT_CANCELLED
        · rw [if_pos hc]
          exact ih rest calls _ ⟨e, her, hst⟩ r
        · rw [if_neg hc]
          have h1 : ¬ k.aio_error a.aio_cb = k.EINPROGRESS := fun h => hsa ⟨hc, Or.inl h⟩
          have h2 : ¬ k.aio_error a.aio_cb = k.ECANCELED := fun h => hsa ⟨hc, Or.inr h⟩
          simp only [if_neg h1, if_neg h2]
          cases hcomp : Timeout.complete k a with
          | ok a1 =>
            simp only [Res.bind]
            exact ih rest _ dropped ⟨e, her, hst⟩ r
          | assertFailed => simp [Res.bind]
          | outOfFuel => simp [Res.bind]

/-- What the loop has done when it ends: the queue is empty, the events the
issuer had cancelled were erased without a call, in order and as they were,
and the other events were completed and handed to `HandleDone`, in order. -/
theorem Timeout_loop_ok (k : Kernel) :
    ∀ (fuel : Nat) (q : List DiskEvent_t) (calls : List (DiskEvent_t × Int))
      (dropped q1 dropped1 : List DiskEvent_t) (calls1 : List (DiskEvent_t × Int)),
      Timeout.loop k fuel q calls dropped = .ok (q1, calls1, dropped1) →
      q1 = [] ∧
      dropped1 = dropped ++ q.filter (fun e => e.status = DiskEventStatus_t.EVENT_CANCELLED) ∧
      ∃ made, calls1 = calls ++ made ∧
        List.Forall₂ (fun e (c : DiskEvent_t × Int) =>
            Timeout.complete k e = .ok c.1 ∧ c.2 = k.aio_error e.aio_cb)
          (q.filter (fun e => ¬ e.status = DiskEventStatus_t.EVENT_CANCELLED)) made := by
  intro fuel
  induction fuel with
  | zero =>
    intro q calls dropped q1 dropped1 calls1 hres
    cases q with
    | nil =>
      simp only [Timeout.loop, Res.ok.injEq, Prod.mk.injEq] at hres
      obtain ⟨rfl, rfl, rfl⟩ := hres
      exact ⟨rfl, by simp, [], by simp, by simp⟩
    | cons a rest => simp [Timeout.loop] at hres
  | succ f ih =>
    intro q calls dropped q1 dropped1 calls1 hres
    cases q with
    | nil =>
      simp only [Timeout.loop, Res.ok.injEq, Prod.mk.injEq] at hres
      obtain ⟨rfl, rfl, rfl⟩ := hres
      exact ⟨rfl, by simp, [], by simp, by simp⟩
    | cons a rest =>
      by_cases hsa : Stuck k a
      · rw [Timeout_loop_head_stuck k a rest hsa] at hres
        simp at hres
      · rw [Timeout.loop] at hres
        by_cases hc : a.status = DiskEventStatus_t.EVENT_CANCELLED
        · rw [if_pos hc] at hres
          obtain ⟨e1, e2, made, e3, e4⟩ := ih rest calls _ q1 dropped1 calls1 hres
          refine ⟨e1, ?_, made, e3, ?_⟩
          · rw [e2]; simp [hc]
          · simpa [hc] using e4
        · rw [if_neg hc] at hres
          have h1 : ¬ k.aio_error a.aio_cb = k.EINPROGRESS := fun h => hsa ⟨hc, Or.inl h⟩
          have h2 : ¬ k.aio_error a.aio_cb = k.ECANCELED := fun h => hsa ⟨hc, Or.inr h⟩
          simp only [if_neg h1, if_neg h2] at hres
          cases hcomp : Timeout.complete k a with
          | ok a1 =>
            rw [hcomp] at hres
            simp only [Res.bind] at hres
            obtain ⟨e1, e2, made, e3, e4⟩ := ih rest _ dropped q1 dropped1 calls1 hres
            refine ⟨e1, ?_, (a1, k.aio_error a.aio_cb) :: made, ?_, ?_⟩
            · rw [e2]; simp [hc]
            · rw [e3]; simp
            · simp only [hc, not_false_eq_true, decide_True, List.filter_cons_of_pos]
              exact List.Forall₂.cons ⟨hcomp, rfl⟩ e4
          | assertFailed => rw [hcomp] at hres; simp [Res.bind] at hres
          | outOfFuel => rw [hcomp] at hres; simp [Res.bind] at hres

end DiskManager

namespace DiskManager

/-- Completion of a read that returned `r > 0` into a block with
`producer ≤ end`: `Fill(r)` moves the producer by `min(r, end − producer)`. -/
theorem complete_read (k : Kernel) (e : DiskEvent_t) (d : IOBufferData)
    (hop : e.op = DiskEventOp_t.OP_READ) (hr : 0 < k.aio_return e.aio_cb)
    (hd : e.data = some d) (hpe : d.mProducer ≤ d.mEnd) :
    Timeout.complete k e = .ok ⟨e.conn,
      some ⟨d.mData, d.mStart, d.mEnd,
        d.mProducer + min (k.aio_return e.aio_cb).toNat (d.mEnd - d.mProducer), d.mConsumer⟩,
      e.op, DiskEventStatus_t.EVENT_DONE, k.aio_return e.aio_cb, e.aio_cb⟩ := by
  have hf := IOBufferData.Fill_nat d (k.aio_return e.aio_cb).toNat hpe
  rw [Int.toNat_of_nonneg (by omega)] at hf
  have hc : e.op = DiskEventOp_t.OP_READ ∧ k.aio_return e.aio_cb > 0 := ⟨hop, hr⟩
  simp only [Timeout.complete, if_pos hc, hd, hf, Res.bind]

/-- Completion of a write, of a sync, or of a read that returned `r ≤ 0`: only
`status` and `retVal` are assigned. -/
theorem complete_other (k : Kernel) (e : DiskEvent_t)
    (hc : ¬ (e.op = DiskEventOp_t.OP_READ ∧ 0 < k.aio_return e.aio_cb)) :
    Timeout.complete k e = .ok ⟨e.conn, e.data, e.op, DiskEventStatus_t.EVENT_DONE,
      k.aio_return e.aio_cb, e.aio_cb⟩ := by
  have hc1 : ¬ (e.op = DiskEventOp_t.OP_READ ∧ k.aio_return e.aio_cb > 0) := hc
  simp only [Timeout.complete, if_neg hc1, Res.bind]

/-- The loop ends within one iteration per event when no event is stuck and
every read event has its block. -/
theorem Timeout_loop_total (k : Kernel) :
    ∀ (q : List DiskEvent_t) (fuel : Nat) (calls : List (DiskEvent_t × Int))
      (dropped : List DiskEvent_t), (∀ e ∈ q, ¬ Stuck k e) →
      (∀ e ∈ q, e.op = DiskEventOp_t.OP_READ → e.data ≠ none) → q.length ≤ fuel →
      ∃ calls1 dropped1, Timeout.loop k fuel q calls dropped = .ok ([], calls1, dropped1) := by
  intro q
  induction q with
  | nil =>
    intro fuel calls dropped _ _ _
    exact ⟨calls, dropped, by cases fuel <;> rfl⟩
  | cons a rest ih =>
    intro fuel calls dropped hns hdata hf
    obtain ⟨f, rfl⟩ : ∃ f, fuel = f + 1 := ⟨fuel - 1, by simp at hf; omega⟩
    have hf1 : rest.length ≤ f := by simpa using hf
    have hns1 : ∀ e ∈ rest, ¬ Stuck k e := fun e he => hns e (List.mem_cons_of_mem _ he)
    have hdata1 : ∀ e ∈ rest, e.op = DiskEventOp_t.OP_READ → e.data ≠ none :=
      fun e he => hdata e (List.mem_cons_of_mem _ he)
    have hsa := hns a (List.mem_cons_self _ _)
    rw [Timeout.loop]
    by_cases hc : a.status = DiskEventStatus_t.EVENT_CANCELLED
    · rw [if_pos hc]
      exact ih f calls _ hns1 hdata1 hf1
    · rw [if_neg hc]
      have h1 : ¬ k.aio_error a.aio_cb = k.EINPROGRESS := fun h => hsa ⟨hc, Or.inl h⟩
      have h2 : ¬ k.aio_error a.aio_cb = k.ECANCELED := fun h => hsa ⟨hc, Or.inr h⟩
      simp only [if_neg h1, if_neg h2]
      have hcomp : ∃ a1, Timeout.complete k a = .ok a1 := by
        by_cases hrd : a.op = DiskEventOp_t.OP_READ ∧ k.aio_return a.aio_cb > 0
        · obtain ⟨d, hd⟩ := Option.ne_none_iff_exists'.mp (hdata a (List.mem_cons_self _ _) hrd.1)
          simp only [Timeout.complete, if_pos hrd, hd]
          by_cases hgt : k.aio_return a.aio_cb > (d.mEnd : Int) - d.mProducer
          · simp only [IOBufferData.Fill, if_pos hgt, Res.bind]
            exact ⟨_, rfl⟩
          · have hle : ((d.mProducer : Int) + k.aio_return a.aio_cb).toNat ≤ d.mEnd := by omega
            simp only [IOBufferData.Fill, if_neg hgt, if_pos hle, Res.bind]
            exact ⟨_, rfl⟩
        · exact ⟨_, complete_other k a hrd⟩
      obtain ⟨a1, ha1⟩ := hcomp
      rw [ha1]
      simp only [Res.bind]
      exact ih f _ dropped hns1 hdata1 hf1

end DiskManager

namespace DiskManager

theorem calls_of_forall₂ {R : DiskEvent_t → DiskEvent_t × Int → Prop} :
    ∀ {l : List DiskEvent_t} {l1 : List (DiskEvent_t × Int)}, List.Forall₂ R l l1 →
      ∀ c ∈ l1, ∃ e ∈ l, R e c := by
  intro l l1 hf
  induction hf with
  | nil => intro c hc; simp at hc
  | @cons a b l l1 hab _ ih =>
    intro c hc
    rcases List.mem_cons.mp hc with hc | hc
    · exact ⟨a, List.mem_cons_self _ _, hc ▸ hab⟩
    · obtain ⟨x, hx, hr⟩ := ih c hc
      exact ⟨x, List.mem_cons_of_mem _ hx, hr⟩

/-- A tick on a queue without stuck events: it ends, with the queue empty. -/
theorem Timeout_spec (k : Kernel) (q : List DiskEvent_t) (fuel : Nat)
    (hns : ∀ e ∈ q, ¬ Stuck k e)
    (hdata : ∀ e ∈ q, e.op = DiskEventOp_t.OP_READ → e.data ≠ none) (hf : q.length ≤ fuel) :
    ∃ calls, Timeout k fuel q = .ok ([], calls,
        q.filter (fun e => e.status = DiskEventStatus_t.EVENT_CANCELLED)) ∧
      List.Forall₂ (fun e (c : DiskEvent_t × Int) =>
          Timeout.complete k e = .ok c.1 ∧ c.2 = k.aio_error e.aio_cb)
        (q.filter (fun e => ¬ e.status = DiskEventStatus_t.EVENT_CANCELLED)) calls := by
  obtain ⟨calls1, dropped1, hres⟩ := Timeout_loop_total k q fuel [] [] hns hdata hf
  obtain ⟨-, e2, made, e3, e4⟩ := Timeout_loop_ok k fuel q [] [] [] dropped1 calls1 hres
  rw [List.nil_append] at e2 e3
  rw [e2, e3] at hres
  exact ⟨made, hres, e4⟩

end DiskManager

/-! ## Runs of the disk manager -/

namespace DiskManager

theorem complete_keeps (k : Kernel) (e e1 : DiskEvent_t) (h : Timeout.complete k e = .ok e1) :
    e1.aio_cb = e.aio_cb ∧ e1.conn = e.conn ∧ e1.op = e.op ∧
      e1.status = DiskEventStatus_t.EVENT_DONE ∧ e1.retVal = k.aio_return e.aio_cb := by
  unfold Timeout.complete at h
  dsimp only at h
  split_ifs at h with hc
  · cases hd : e.data with
    | none => rw [hd] at h; simp [Res.bind] at h
    | some d =>
      rw [hd] at h
      dsimp only at h
      cases hf : d.Fill (k.aio_return e.aio_cb) with
      | ok v =>
        rw [hf] at h
        simp only [Res.bind, Res.ok.injEq] at h
        subst h
        exact ⟨rfl, rfl, rfl, rfl, rfl⟩
      | assertFailed => rw [hf] at h; simp [Res.bind] at h
      | outOfFuel => rw [hf] at h; simp [Res.bind] at h
  · simp only [Res.bind, Res.ok.injEq] at h
    subst h
    exact ⟨rfl, rfl, rfl, rfl, rfl⟩

/-- The control blocks of the calls of a tick are those of the events that
were not cancelled, in queue order. -/
theorem calls_cb_of_forall₂ (k : Kernel) :
    ∀ {l : List DiskEvent_t} {made : List (DiskEvent_t × Int)},
      List.Forall₂ (fun e (c : DiskEvent_t × Int) =>
        Timeout.complete k e = .ok c.1 ∧ c.2 = k.aio_error e.aio_cb) l made →
      made.map (fun c => c.1.aio_cb) = l.map (fun e => e.aio_cb) := by
  intro l made hf
  induction hf with
  | nil => rfl
  | @cons a b l l1 hab _ ih =>
    simp only [List.map_cons, ih, (complete_keeps k a b.1 hab.1).1]

theorem map_cb_cancel (cb : Nat) (q : List DiskEvent_t) :
    (cancel cb q).map (fun e => e.aio_cb) = q.map (fun e => e.aio_cb) := by
  simp only [cancel, List.map_map]
  apply List.map_congr_left
  intro e _
  simp only [Function.comp]
  split_ifs <;> rfl

theorem mem_cancel (cb : Nat) (q : List DiskEvent_t) (e1 : DiskEvent_t) (h : e1 ∈ cancel cb q) :
    ∃ e ∈ q, e1.aio_cb = e.aio_cb ∧
      (e1 = e ∨ e1.status = DiskEventStatus_t.EVENT_CANCELLED) := by
  simp only [cancel, List.mem_map] at h
  obtain ⟨e, he, rfl⟩ := h
  refine ⟨e, he, ?_⟩
  split_ifs
  · exact ⟨rfl, Or.inr rfl⟩
  · exact ⟨rfl, Or.inl rfl⟩

/-- Appending an event with the next control block keeps `State.Inv`. -/
theorem Inv_push (s : State) (e : DiskEvent_t) (hs : s.Inv) (hcb : e.aio_cb = s.next)
    (hst : e.status ≠ DiskEventStatus_t.EVENT_DONE) :
    State.Inv ⟨s.mDiskEvents ++ [e], s.next + 1, s.calls⟩ := by
  obtain ⟨h1, h2, h3, h4, h5⟩ := hs
  refine ⟨?_, ?_, h3, ?_, ?_⟩
  · simp only [List.map_append, List.map_cons, List.map_nil]
    rw [List.nodup_append]
    refine ⟨h1, List.nodup_singleton _, ?_⟩
    intro x hx hx1
    obtain ⟨e0, he0, rfl⟩ := List.mem_map.mp hx
    simp only [List.mem_singleton] at hx1
    have := (h2 e0 he0).1
    omega
  · intro x hx
    rcases List.mem_append.mp hx with hx | hx
    · exact ⟨by have := (h2 x hx).1; show x.aio_cb < s.next + 1; omega, (h2 x hx).2⟩
    · simp only [List.mem_singleton] at hx
      subst hx
      exact ⟨by show x.aio_cb < s.next + 1; omega, hst⟩
  · intro c hc
    have := h4 c hc
    show c.1.aio_cb < s.next + 1
    omega
  · intro c hc x hx
    rcases List.mem_append.mp hx with hx | hx
    · exact h5 c hc x hx
    · simp only [List.mem_singleton] at hx
      subst hx
      have := h4 c hc
      omega

theorem Inv_next (s : State) (hs : s.Inv) :
    State.Inv ⟨s.mDiskEvents, s.next + 1, s.calls⟩ := by
  obtain ⟨h1, h2, h3, h4, h5⟩ := hs
  refine ⟨h1, fun x hx => ⟨?_, (h2 x hx).2⟩, h3, fun c hc => ?_, h5⟩
  · have := (h2 x hx).1
    show x.aio_cb < s.next + 1
    omega
  · have := h4 c hc
    show c.1.aio_cb < s.next + 1
    omega

/-- A tick that returns: the queue is empty afterwards, and the calls it adds
are for the events that were not cancelled, one each. -/
theorem step_tick (retVal0 : Int) (s s1 : State) (k : Kernel) (fuel : Nat) (hs : s.Inv)
    (h : step retVal0 s (.tick k fuel) = .ok s1) :
    s1.Inv ∧ s1.mDiskEvents = [] ∧ s1.next = s.next ∧
    ∃ made, s1.calls = s.calls ++ made ∧
      made.map (fun c => c.1.aio_cb) =
        (s.mDiskEvents.filter
          (fun e => ¬ e.status = DiskEventStatus_t.EVENT_CANCELLED)).map (fun e => e.aio_cb) := by
  obtain ⟨h1, h2, h3, h4, h5⟩ := hs
  simp only [step] at h
  cases ht : Timeout k fuel s.mDiskEvents with
  | ok v =>
    obtain ⟨q1, calls1, dropped1⟩ := v
    rw [ht] at h
    simp only [Res.bind, Res.ok.injEq] at h
    subst h
    obtain ⟨e1, -, made, e3, e4⟩ := Timeout_loop_ok k fuel s.mDiskEvents [] [] q1 dropped1 calls1 ht
    rw [List.nil_append] at e3
    subst e1
    rw [e3] at ht ⊢
    have hcb := calls_cb_of_forall₂ k e4
    have hsub : List.Sublist (made.map (fun c => c.1.aio_cb))
        (s.mDiskEvents.map (fun e => e.aio_cb)) := by
      rw [hcb]
      exact List.Sublist.map _ (List.filter_sublist _)
    refine ⟨⟨by simp, fun x hx => by simp at hx, ?_, ?_, fun c _ x hx => by simp at hx⟩,
      rfl, rfl, made, rfl, hcb⟩
    · simp only [List.map_append]
      rw [List.nodup_append]
      refine ⟨h3, List.Nodup.sublist hsub h1, ?_⟩
      intro x hx hx1
      obtain ⟨c, hc, rfl⟩ := List.mem_map.mp hx
      obtain ⟨e, he, hec⟩ := List.mem_map.mp (hsub.subset hx1)
      exact h5 c hc e he hec
    · intro c hc
      rcases List.mem_append.mp hc with hc | hc
      · exact h4 c hc
      · have hm : c.1.aio_cb ∈ made.map (fun c => c.1.aio_cb) := List.mem_map.mpr ⟨c, hc, rfl⟩
        obtain ⟨e, he, hec⟩ := List.mem_map.mp (hsub.subset hm)
        have := (h2 e he).1
        show c.1.aio_cb < s.next
        omega
  | assertFailed => rw [ht] at h; simp [Res.bind] at h
  | outOfFuel => rw [ht] at h; simp [Res.bind] at h

/-- Every step that returns keeps `State.Inv`. -/
theorem step_Inv (retVal0 : Int) (s s1 : State) (st : Step) (hs : s.Inv)
    (h : step retVal0 s st = .ok s1) : s1.Inv := by
  cases st with
  | read conn data aio =>
    simp only [step, Read] at h
    split_ifs at h
    · simp only [Res.bind, Res.ok.injEq] at h
      subst h
      exact Inv_next s hs
    · simp only [Res.bind, Res.ok.injEq] at h
      subst h
      exact Inv_push s _ hs rfl (by simp [DiskEvent_t.new])
  | write conn data numBytes aio =>
    simp only [step, Write] at h
    split_ifs at h
    · simp only [Res.bind, Res.ok.injEq] at h
      subst h
      exact Inv_next s hs
    · simp only [Res.bind, Res.ok.injEq] at h
      subst h
      exact Inv_push s _ hs rfl (by simp [DiskEvent_t.new])
    · simp [Res.bind] at h
  | sync conn aio =>
    simp only [step, Sync] at h
    split_ifs at h
    · simp only [Res.bind, Res.ok.injEq] at h
      subst h
      exact Inv_next s hs
    · simp only [Res.bind, Res.ok.injEq] at h
      subst h
      exact Inv_push s _ hs rfl (by simp [DiskEvent_t.new])
  | cancel cb =>
    simp only [step, Res.ok.injEq] at h
    subst h
    obtain ⟨h1, h2, h3, h4, h5⟩ := hs
    refine ⟨by rw [map_cb_cancel]; exact h1, ?_, h3, h4, ?_⟩
    · intro x hx
      obtain ⟨e, he, hcb, hor⟩ := mem_cancel cb _ x hx
      refine ⟨by rw [hcb]; exact (h2 e he).1, ?_⟩
      rcases hor with rfl | hc
      · exact (h2 _ he).2
      · rw [hc]; decide
    · intro c hc x hx
      obtain ⟨e, he, hcb, -⟩ := mem_cancel cb _ x hx
      rw [hcb]
      exact h5 c hc e he
  | tick k fuel => exact (step_tick retVal0 s s1 k fuel hs h).1

/-- Every run that returns keeps `State.Inv`. -/
theorem run_Inv (retVal0 : Int) : ∀ (sts : List Step) (s s1 : State), s.Inv →
    run retVal0 s sts = .ok s1 → s1.Inv := by
  intro sts
  induction sts with
  | nil =>
    intro s s1 hs h
    simp only [run, Res.ok.injEq] at h
    subst h
    exact hs
  | cons st sts ih =>
    intro s s1 hs h
    simp only [run] at h
    cases hst : step retVal0 s st with
    | ok s2 =>
      rw [hst] at h
      exact ih s2 s1 (step_Inv retVal0 s s2 st hs hst) h
    | assertFailed => rw [hst] at h; simp [Res.bind] at h
    | outOfFuel => rw [hst] at h; simp [Res.bind] at h

theorem Inv_init : State.init.Inv := by
  refine ⟨by simp [State.init], ?_, by simp [State.init], ?_, ?_⟩ <;>
    intro x hx <;> simp [State.init] at hx

/-- A run of two lists of steps is the run of the first followed, from the
state it returns, by the run of the second. -/
theorem run_append (retVal0 : Int) : ∀ (pre sts : List Step) (s : State),
    run retVal0 s (pre ++ sts) = (run retVal0 s pre).bind fun s1 => run retVal0 s1 sts := by
  intro pre
  induction pre with
  | nil => intro sts s; rfl
  | cons st pre ih =>
    intro sts s
    simp only [List.cons_append, run]
    cases step retVal0 s st with
    | ok s2 => simp only [Res.bind]; exact ih sts s2
    | assertFailed => rfl
    | outOfFuel => rfl

end DiskManager

/-! ## Log replay -/

namespace Replay

/-- `playlog` accepts exactly the records numbered `seq + 1, seq + 2, …`. -/
theorem playlog_spec : ∀ (rs : List LogRecord) (seq : Int) (applied : List LogRecord),
    ((∀ (i : Nat) (r : LogRecord), rs[i]? = some r → r.seq = seq + (i + 1)) →
      playlog seq applied rs = .ok (seq + rs.length) (applied ++ rs)) ∧
    (¬ (∀ (i : Nat) (r : LogRecord), rs[i]? = some r → r.seq = seq + (i + 1)) →
      playlog seq applied rs = .SequenceGap) := by
  intro rs
  induction rs with
  | nil =>
    intro seq applied
    refine ⟨fun _ => by simp [playlog], fun h => absurd (fun i r hr => by simp at hr) h⟩
  | cons r rs ih =>
    intro seq applied
    by_cases hr : r.seq = seq + 1
    · have hiff : (∀ (i : Nat) (x : LogRecord), (r :: rs)[i]? = some x → x.seq = seq + (i + 1)) ↔
          (∀ (i : Nat) (x : LogRecord), rs[i]? = some x → x.seq = r.seq + (i + 1)) := by
        constructor
        · intro h i x hx
          have := h (i + 1) x (by simpa using hx)
          push_cast at this
          omega
        · intro h i x hx
          cases i with
          | zero =>
            simp only [List.getElem?_cons_zero, Option.some.injEq] at hx
            subst hx
            simpa using hr
          | succ j =>
            have := h j x (by simpa using hx)
            push_cast
            omega
      obtain ⟨ih1, ih2⟩ := ih r.seq (applied ++ [r])
      constructor
      · intro h
        rw [playlog, if_pos hr, ih1 (hiff.mp h)]
        simp only [List.length_cons, List.append_assoc, List.singleton_append]
        congr 1
        push_cast
        omega
      · intro h
        rw [playlog, if_pos hr, ih2 (fun h1 => h (hiff.mpr h1))]
    · constructor
      · intro h
        exact absurd (by simpa using h 0 r (by simp)) hr
      · intro _
        rw [playlog, if_neg hr]

end Replay

/-! ## `CopyIn` from a block -/

namespace IOBufferData

/-- `CopyIn(other, n)` clamps `n` to the space of the destination only, and
copies from the array of `other` starting at its consumer. -/
theorem CopyInBlock_nat (h : Heap) (b other : IOBufferData) (n : Nat)
    (hb : b.mProducer ≤ b.mEnd) :
    b.CopyInBlock h other n =
      .ok (h.memcpy b.mData b.mProducer
          (((h.get other.mData).drop other.mConsumer).take (min n (b.mEnd - b.mProducer))),
        { b with mProducer := b.mProducer + min n (b.mEnd - b.mProducer) },
        ((min n (b.mEnd - b.mProducer) : Nat) : Int)) :=
  CopyIn_nat h b ((h.get other.mData).drop other.mConsumer) n hb

end IOBufferData

/-! ## Frame: what a chain can write to when it is not trimmed -/

namespace IOBuffer

/-- The last block after `Consume` is the last block before, with its array,
its end and its producer. -/
theorem Consume_loop_last :
    ∀ (fuel : Nat) (l : List IOBufferData) (n : Nat) (l1 : List IOBufferData) (r : Int),
      Consume.loop fuel l n = .ok (l1, r) → (∀ b ∈ l, b.mConsumer ≤ b.mProducer) →
      ∀ t1 ∈ l1.getLast?, ∃ t ∈ l.getLast?,
        t1.mData = t.mData ∧ t1.mEnd = t.mEnd ∧ t1.mProducer = t.mProducer := by
  intro fuel
  induction fuel with
  | zero =>
    intro l n l1 r hres _
    cases l with
    | nil =>
      simp only [Consume.loop, Res.ok.injEq, Prod.mk.injEq] at hres
      obtain ⟨rfl, -⟩ := hres
      simp
    | cons d rest => simp [Consume.loop] at hres
  | succ f ih =>
    intro l n l1 r hres hinv
    cases l with
    | nil =>
      simp only [Consume.loop, Res.ok.injEq, Prod.mk.injEq] at hres
      obtain ⟨rfl, -⟩ := hres
      simp
    | cons d rest =>
      have hd : d.mConsumer ≤ d.mProducer := hinv d (List.mem_cons_self _ _)
      have hrest : ∀ b ∈ rest, b.mConsumer ≤ b.mProducer :=
        fun b hb => hinv b (List.mem_cons_of_mem _ hb)
      obtain ⟨d1, hd1⟩ : ∃ d1 : IOBufferData, d1 =
          { d with mConsumer := d.mConsumer + min n (d.mProducer - d.mConsumer) } := ⟨_, rfl⟩
      have hd1i : d1.mConsumer ≤ d1.mProducer := by
        rw [hd1]; show d.mConsumer + _ ≤ d.mProducer; omega
      have hd1k : d1.mData = d.mData ∧ d1.mEnd = d.mEnd ∧ d1.mProducer = d.mProducer := by
        rw [hd1]; exact ⟨rfl, rfl, rfl⟩
      obtain ⟨m1, hm1⟩ : ∃ m1 : List IOBufferData, m1 =
          if d1.IsEmpty = true then rest else d1 :: rest := ⟨_, rfl⟩
      have hcases : m1 = rest ∨ m1 = d1 :: rest := by
        rw [hm1]; split_ifs <;> simp
      have hstep : (∀ b ∈ m1, b.mConsumer ≤ b.mProducer) ∧
          (∀ t1 ∈ m1.getLast?, ∃ t ∈ (d :: rest).getLast?,
            t1.mData = t.mData ∧ t1.mEnd = t.mEnd ∧ t1.mProducer = t.mProducer) := by
        rcases hcases with hc | hc <;> rw [hc]
        · refine ⟨hrest, ?_⟩
          intro t1 ht1
          cases rest with
          | nil => simp at ht1
          | cons x xs =>
            rw [List.getLast?_cons_cons]
            exact ⟨t1, ht1, rfl, rfl, rfl⟩
        · refine ⟨?_, ?_⟩
          · intro b hb
            rcases List.mem_cons.mp hb with hb | hb
            · rw [hb]; exact hd1i
            · exact hrest b hb
          · intro t1 ht1
            cases rest with
            | nil =>
              simp only [List.getLast?_singleton, Option.mem_def, Option.some.injEq] at ht1 ⊢
              exact ⟨d, rfl, ht1 ▸ hd1k⟩
            | cons x xs =>
              rw [List.getLast?_cons_cons] at ht1 ⊢
              exact ⟨t1, ht1, rfl, rfl, rfl⟩
      obtain ⟨hi1, hlast1⟩ := hstep
      have hcast : (n : Int) - ((min n (d.mProducer - d.mConsumer) : Nat) : Int) =
          ((n - min n (d.mProducer - d.mConsumer) : Nat) : Int) := by omega
      simp only [Consume.loop, IOBufferData.Consume_nat d n hd, Res.bind, ← hd1, ← hm1,
        hcast] at hres
      split_ifs at hres with hdone
      · simp only [Res.ok.injEq, Prod.mk.injEq] at hres
        obtain ⟨rfl, -⟩ := hres
        exact hlast1
      · intro t1 ht1
        obtain ⟨t, ht, e1, e2, e3⟩ := ih m1 _ l1 r hres hi1 t1 ht1
        obtain ⟨t0, ht0, f1, f2, f3⟩ := hlast1 t ht
        exact ⟨t0, ht0, by rw [e1, f1], by rw [e2, f2], by rw [e3, f3]⟩

/-- The last block after `CopyIn` is the last block before with its producer
moved up, or a block on an array allocated by the call. -/
theorem CopyIn_last (B : Nat) (hB : 1 ≤ B) (h : Heap) (c : IOBuffer) (buf : List Byte) (n : Nat)
    (hbuf : n ≤ buf.length) (hw : c.WF h) (fuel : Nat) (hfuel : n + 1 ≤ fuel) :
    ∃ h1 c1, c.CopyIn B fuel h buf n = .ok (h1, c1, (n : Int)) ∧
      ∀ t1 ∈ c1.mBuf.getLast?,
        (∃ t ∈ c.mBuf.getLast?, t1.mData = t.mData ∧ t1.mEnd = t.mEnd ∧
          t.mProducer ≤ t1.mProducer) ∨ h.arrays.length ≤ t1.mData := by
  obtain ⟨l⟩ := c
  rcases List.eq_nil_or_concat l with hl | ⟨front, t, hl⟩
  · subst hl
    obtain ⟨h1, c1, hres, -, -, -, hlast⟩ := CopyIn_frame B hB h ⟨[]⟩ buf n hbuf hw fuel hfuel
    refine ⟨h1, c1, hres, ?_⟩
    intro t1 ht1
    rcases hlast t1 ht1 with ⟨t, ht, -⟩ | hf
    · simp at ht
    · exact Or.inr hf
  · rw [List.concat_eq_append] at hl
    subst hl
    have hwt : t.WF h := hw t (by simp)
    obtain ⟨h1, hres, -, -, -, -, -, -⟩ :=
      CopyIn_loop_spec B hB buf n hbuf fuel h front t 0
        (min (n - 0) (t.mEnd - t.mProducer)) (by omega) hwt rfl (by
          split_ifs <;> omega)
    have hun : CopyIn B fuel h ⟨front ++ [t]⟩ buf n =
        CopyIn.loop B buf n fuel h front t ((0 : Nat) : Int) := by
      simp only [CopyIn, List.getLast?_concat, List.dropLast_concat]
      rfl
    rw [← hun] at hres
    refine ⟨h1, _, hres, ?_⟩
    intro t1 ht1
    dsimp only at ht1
    rw [List.getLast?_append_of_ne_nil _ (by simp)] at ht1
    cases hfr : freshBlocks B h.arrays.length
        (blocksFor B (n - 0 - min (n - 0) (t.mEnd - t.mProducer)))
        (n - 0 - min (n - 0) (t.mEnd - t.mProducer)) with
    | nil =>
      rw [hfr] at ht1
      simp only [List.getLast?_singleton, Option.mem_def, Option.some.injEq] at ht1
      left
      refine ⟨t, by simp, ?_⟩
      rw [← ht1]
      exact ⟨rfl, rfl, by show t.mProducer ≤ t.mProducer + _; omega⟩
    | cons x xs =>
      rw [hfr, List.getLast?_cons_cons] at ht1
      have hmem : t1 ∈ freshBlocks B h.arrays.length
          (blocksFor B (n - 0 - min (n - 0) (t.mEnd - t.mProducer)))
          (n - 0 - min (n - 0) (t.mEnd - t.mProducer)) := by
        rw [hfr]; exact List.mem_of_mem_getLast? ht1
      right
      exact (freshBlocks_mem B _ _ _ t1 hmem).1

/-- One call other than `Trim` on the chain `a` keeps every well-formed block
well formed, and leaves a block without readable bytes in the spare room of
the last block of `a` as readable as before and still so afterwards. -/
theorem call_room (B fuel : Nat) (hB : 1 ≤ B) (h h1 : Heap) (a a1 : IOBuffer) (op : ChainOp)
    (hres : a.call B fuel h op = .ok (h1, a1)) (hv : op.Valid) (hnt : op.isTrim = false)
    (hfuel : op.len + 1 ≤ fuel) (hw : a.WF h) :
    a1.WF h1 ∧ (∀ b : IOBufferData, b.WF h → b.WF h1) ∧
    (∀ b : IOBufferData, b.WF h → (∀ t ∈ a.mBuf.getLast?, t.roomFree b) →
      b.readable h1 = b.readable h ∧ ∀ t1 ∈ a1.mBuf.getLast?, t1.roomFree b) := by
  have hinv : ∀ b ∈ a.mBuf, b.mConsumer ≤ b.mProducer := fun b hb => (hw b hb).1.2.1
  obtain ⟨hwa1, hW, -⟩ := call_frame B fuel hB h h1 a a1 op hres hv hfuel hw
  refine ⟨hwa1, hW, ?_⟩
  cases op with
  | CopyIn buf n =>
    obtain ⟨hn0, hnb⟩ := hv
    obtain ⟨k, rfl⟩ := Int.eq_ofNat_of_zero_le hn0
    simp only [ChainOp.len] at hfuel
    obtain ⟨h2, c2, hres2, -, -, hR, -⟩ :=
      CopyIn_frame B hB h a buf k (by omega) hw fuel (by omega)
    obtain ⟨h3, c3, hres3, hlast⟩ := CopyIn_last B hB h a buf k (by omega) hw fuel (by omega)
    rw [hres2] at hres3
    simp only [Res.ok.injEq, Prod.mk.injEq] at hres3
    obtain ⟨rfl, rfl, -⟩ := hres3
    simp only [call, hres2, Res.bind, Res.ok.injEq, Prod.mk.injEq] at hres
    obtain ⟨rfl, rfl⟩ := hres
    intro b hb hfree
    refine ⟨hR b hb hfree, ?_⟩
    intro t1 ht1
    rcases hlast t1 ht1 with ⟨t, ht, e1, e2, e3⟩ | hfresh
    · rcases hfree t ht with hf | hf
      · left; rw [e1]; exact hf
      · right; rw [e2]; omega
    · left
      have := hb.2.2
      omega
  | ZeroFill n =>
    obtain ⟨k, rfl⟩ := Int.eq_ofNat_of_zero_le hv
    simp only [ChainOp.len] at hfuel
    obtain ⟨h2, hres2, hlen, hold, hfresh, -⟩ :=
      ZeroFill_loop_spec B hB fuel h a.mBuf k (by omega)
    simp only [call, ZeroFill, hres2, Res.bind, Res.ok.injEq, Prod.mk.injEq] at hres
    obtain ⟨rfl, rfl⟩ := hres
    intro b hb hfree
    refine ⟨by simp only [IOBufferData.readable, hold b.mData hb.2.2], ?_⟩
    intro t1 ht1
    dsimp only at ht1
    cases hfr : freshBlocks B h.arrays.length (blocksFor B k) k with
    | nil =>
      rw [hfr, List.append_nil] at ht1
      exact hfree t1 ht1
    | cons x xs =>
      rw [hfr, List.getLast?_append_of_ne_nil _ (by simp)] at ht1
      have hmem : t1 ∈ freshBlocks B h.arrays.length (blocksFor B k) k := by
        rw [hfr]; exact List.mem_of_mem_getLast? ht1
      left
      have := (freshBlocks_mem B _ _ _ t1 hmem).1
      have := hb.2.2
      omega
  | Consume n =>
    obtain ⟨k, rfl⟩ := Int.eq_ofNat_of_zero_le hv
    have hge : ((k : Nat) : Int) ≥ 0 := by omega
    simp only [call, Consume, if_pos hge] at hres
    cases hl : Consume.loop fuel a.mBuf k with
    | ok v =>
      obtain ⟨l1, r⟩ := v
      rw [hl] at hres
      simp only [Res.bind] at hres
      split_ifs at hres
      simp only [Res.ok.injEq, Prod.mk.injEq] at hres
      obtain ⟨rfl, rfl⟩ := hres
      have hlast := Consume_loop_last fuel a.mBuf k l1 r hl hinv
      intro b _ hfree
      refine ⟨rfl, ?_⟩
      intro t1 ht1
      obtain ⟨t, ht, e1, e2, e3⟩ := hlast t1 ht1
      rcases hfree t ht with hf | hf
      · left; rw [e1]; exact hf
      · right; rw [e2, e3]; exact hf
    | assertFailed => rw [hl] at hres; simp [Res.bind] at hres
    | outOfFuel => rw [hl] at hres; simp [Res.bind] at hres
  | Trim n => simp [ChainOp.isTrim] at hnt

/-- A sequence of calls other than `Trim` on the chain `a` leaves the content
of a chain `c` unchanged when no readable byte of `c` lies in the spare room
of the last block of `a`. -/
theorem calls_room (B fuel : Nat) (hB : 1 ≤ B) : ∀ (ops : List ChainOp) (h h2 : Heap)
    (a a2 c : IOBuffer), calls B fuel h a ops = .ok (h2, a2) →
    (∀ op ∈ ops, op.Valid ∧ op.isTrim = false ∧ op.len + 1 ≤ fuel) → a.WF h → c.WF h →
    RoomApart a c → content h2 c = content h c ∧ c.WF h2 ∧ a2.WF h2 ∧ RoomApart a2 c := by
  intro ops
  induction ops with
  | nil =>
    intro h h2 a a2 c hres _ hwa hwc hap
    simp only [calls, Res.ok.injEq, Prod.mk.injEq] at hres
    obtain ⟨rfl, rfl⟩ := hres
    exact ⟨rfl, hwc, hwa, hap⟩
  | cons op ops ih =>
    intro h h2 a a2 c hres hops hwa hwc hap
    simp only [calls] at hres
    cases hc : a.call B fuel h op with
    | ok v =>
      obtain ⟨h1, a1⟩ := v
      rw [hc] at hres
      simp only [Res.bind] at hres
      obtain ⟨hv, hnt, hfu⟩ := hops op (List.mem_cons_self _ _)
      obtain ⟨hwa1, hW, hF⟩ := call_room B fuel hB h h1 a a1 op hc hv hnt hfu hwa
      have hwc1 : c.WF h1 := fun b hb => hW b (hwc b hb)
      have hap1 : RoomApart a1 c := by
        intro t1 ht1 d hd
        exact (hF d (hwc d hd) (fun t ht => hap t ht d hd)).2 t1 ht1
      obtain ⟨e, r1, r2, r3⟩ := ih h1 h2 a1 a2 c hres
        (fun o ho => hops o (List.mem_cons_of_mem _ ho)) hwa1 hwc1 hap1
      refine ⟨?_, r1, r2, r3⟩
      rw [e]
      exact content_congr h h1 c.mBuf
        (fun b hb => (hF b (hwc b hb) (fun t ht => hap t ht b hb)).1)
    | assertFailed => rw [hc] at hres; simp [Res.bind] at hres
    | outOfFuel => rw [hc] at hres; simp [Res.bind] at hres

/-- A chain whose last block has no readable byte of its other blocks in its
spare room has none of its clone's either. -/
theorem RoomApart_Clone (h : Heap) (c : IOBuffer) (hw : c.WF h) (hfree : c.TailRoomFree) :
    RoomApart c c.Clone := by
  intro t ht v hv
  rw [(Clone_spec h c hw).1] at hv
  obtain ⟨b, hb, rfl⟩ := List.mem_map.mp hv
  have hsplit : c.mBuf = c.mBuf.dropLast ++ [t] := by
    have := List.dropLast_append_getLast? t ht
    exact this.symm
  rw [hsplit] at hb
  rcases List.mem_append.mp hb with hb | hb
  · exact hfree t ht b hb
  · simp only [List.mem_singleton] at hb
    subst hb
    right
    show min b.mProducer b.mEnd ≤ max b.mConsumer b.mProducer
    omega

end IOBuffer

/-! ## Chain `Trim` -/

namespace IOBuffer

/-- The first loop of `Trim` with `k` bytes still to keep: the blocks it has
passed hold the first `k` bytes, and it has moved none of their consumers. -/
theorem Trim_cut_spec (h : Heap) (n : Int) :
    ∀ (l : List IOBufferData) (tot : Int) (k : Nat), n - tot = k → (∀ b ∈ l, b.WF h) →
      k ≤ (content h ⟨l⟩).length →
      ∃ passed, Trim.cut n l tot = (passed, l.drop passed.length) ∧
        passed.length ≤ l.length ∧ (∀ b ∈ passed, b.WF h) ∧
        content h ⟨passed⟩ = (content h ⟨l⟩).take k ∧
        List.Forall₂ (fun b b1 : IOBufferData => b1.mData = b.mData ∧ b1.mStart = b.mStart ∧
          b1.mEnd = b.mEnd ∧ b1.mConsumer = b.mConsumer ∧ b1.mProducer ≤ b.mProducer)
          (l.take passed.length) passed := by
  intro l
  induction l with
  | nil =>
    intro tot k _ _ _
    exact ⟨[], rfl, le_refl _, by simp, by simp [content], by simp⟩
  | cons d rest ih =>
    intro tot k hk hw hlen
    have hwd : d.WF h := hw d (List.mem_cons_self _ _)
    have hwr : ∀ b ∈ rest, b.WF h := fun b hb => hw b (List.mem_cons_of_mem _ hb)
    have hcp : d.mConsumer ≤ d.mProducer := hwd.1.2.1
    have hbc := IOBufferData.BytesConsumable_nat d hcp
    have hrl := IOBufferData.length_readable h d hwd
    rw [content_cons, List.length_append, hrl] at hlen
    by_cases hle : d.mProducer - d.mConsumer ≤ k
    · have hc1 : d.BytesConsumable + tot ≤ n := by rw [hbc]; omega
      obtain ⟨passed, hcut, hpl, hpw, hpc, hpf⟩ := ih (tot + d.BytesConsumable)
        (k - (d.mProducer - d.mConsumer)) (by rw [hbc]; omega) hwr (by omega)
      refine ⟨d :: passed, ?_, by simpa using hpl, ?_, ?_, ?_⟩
      · simp only [Trim.cut, if_pos hc1, hcut, List.length_cons, List.drop_succ_cons]
      · intro b hb
        rcases List.mem_cons.mp hb with hb | hb
        · rw [hb]; exact hwd
        · exact hpw b hb
      · have ht : List.take k (d.readable h) = d.readable h :=
          List.take_of_length_le (by rw [hrl]; exact hle)
        rw [content_cons, content_cons, hpc, List.take_append_eq_append_take, hrl, ht]
      · simp only [List.length_cons, List.take_succ_cons]
        exact List.Forall₂.cons ⟨rfl, rfl, rfl, rfl, le_refl _⟩ hpf
    · have hc1 : ¬ d.BytesConsumable + tot ≤ n := by rw [hbc]; omega
      by_cases hk0 : k = 0
      · have hc2 : tot = n := by omega
        refine ⟨[], ?_, by simp, by simp, ?_, by simp⟩
        · simp only [Trim.cut, if_neg hc1, if_pos hc2, List.length_nil, List.drop_zero]
        · rw [hk0]; simp [content]
      · have hc2 : ¬ tot = n := by omega
        have hkle : k ≤ d.mProducer - d.mConsumer := by omega
        have htrim : (d.Trim (n - tot)).1 = { d with mProducer := d.mConsumer + k } := by
          rw [hk, IOBufferData.Trim_nat d k hcp, if_pos hkle]
        refine ⟨[{ d with mProducer := d.mConsumer + k }], ?_, by simp, ?_, ?_, ?_⟩
        · simp only [Trim.cut, if_neg hc1, if_neg hc2, htrim, List.length_singleton,
            List.drop_succ_cons, List.drop_zero]
        · intro b hb
          simp only [List.mem_singleton] at hb
          rw [hb]
          obtain ⟨⟨h1, h2, h3⟩, h4, h5⟩ := hwd
          exact ⟨⟨h1, by show d.mConsumer ≤ d.mConsumer + k; omega,
            by show d.mConsumer + k ≤ d.mEnd; omega⟩, h4, h5⟩
        · rw [content_cons, content_nil, List.append_nil, content_cons,
            IOBufferData.readable_trim h d k hkle,
            List.take_append_of_le_length (by rw [hrl]; exact hkle)]
        · simp only [List.length_singleton, List.take_succ_cons, List.take_zero]
          exact List.Forall₂.cons ⟨rfl, rfl, rfl, rfl,
            by show d.mConsumer + k ≤ d.mProducer; omega⟩ List.Forall₂.nil

/-- The second loop of `Trim` empties every block in place. -/
theorem Trim_drain_spec (h : Heap) :
    ∀ (l : List IOBufferData), (∀ b ∈ l, b.WF h) →
      Trim.drain l = .ok (l.map fun b => { b with mConsumer := b.mProducer }) ∧
      content h ⟨l.map fun b => { b with mConsumer := b.mProducer }⟩ = [] ∧
      (∀ b ∈ l.map fun b => { b with mConsumer := b.mProducer }, b.WF h) := by
  intro l
  induction l with
  | nil => intro _; exact ⟨rfl, by simp [content], by simp⟩
  | cons d rest ih =>
    intro hw
    have hwd : d.WF h := hw d (List.mem_cons_self _ _)
    have hcp : d.mConsumer ≤ d.mProducer := hwd.1.2.1
    obtain ⟨i1, i2, i3⟩ := ih (fun b hb => hw b (List.mem_cons_of_mem _ hb))
    have hc : d.Consume d.BytesConsumable =
        .ok ({ d with mConsumer := d.mProducer }, d.BytesConsumable) := by
      rw [IOBufferData.BytesConsumable_nat d hcp, IOBufferData.Consume_nat d _ hcp]
      have e : d.mConsumer + min (d.mProducer - d.mConsumer) (d.mProducer - d.mConsumer) =
          d.mProducer := by omega
      rw [e, Nat.min_self]
    have hwe : IOBufferData.WF h { d with mConsumer := d.mProducer } := by
      obtain ⟨⟨h1, h2, h3⟩, h4, h5⟩ := hwd
      exact ⟨⟨by show d.mStart ≤ d.mProducer; omega, le_refl _, h3⟩, h4, h5⟩
    refine ⟨?_, ?_, ?_⟩
    · simp only [Trim.drain, hc, Res.bind, i1, List.map_cons]
    · rw [List.map_cons, content_cons, i2, List.append_nil]
      simp [IOBufferData.readable]
    · intro b hb
      rw [List.map_cons] at hb
      rcases List.mem_cons.mp hb with hb | hb
      · rw [hb]; exact hwe
      · exact i3 b hb

/-- `Trim(n)` for `1 ≤ n ≤` the bytes of the chain. -/
theorem Trim_spec (h : Heap) (c : IOBuffer) (n : Nat) (hw : c.WF h) (h1 : 1 ≤ n)
    (hn : n ≤ (content h c).length) :
    ∃ c1 j, c.Trim n = .ok c1 ∧ c1.WF h ∧ content h c1 = (content h c).take n ∧
      c1.mBuf.length = c.mBuf.length ∧ j ≤ c.mBuf.length ∧
      List.Forall₂ (fun b b1 : IOBufferData => b1.mData = b.mData ∧ b1.mStart = b.mStart ∧
        b1.mEnd = b.mEnd ∧ b1.mConsumer = b.mConsumer ∧ b1.mProducer ≤ b.mProducer)
        (c.mBuf.take j) (c1.mBuf.take j) ∧
      c1.mBuf.drop j = (c.mBuf.drop j).map fun b => { b with mConsumer := b.mProducer } := by
  obtain ⟨passed, hcut, hpl, hpw, hpc, hpf⟩ :=
    Trim_cut_spec h n c.mBuf 0 n (by omega) hw hn
  obtain ⟨hd1, hd2, hd3⟩ := Trim_drain_spec h (c.mBuf.drop passed.length)
    (fun b hb => hw b (List.mem_of_mem_drop hb))
  have hw1 : IOBuffer.WF h ⟨passed ++
      (c.mBuf.drop passed.length).map fun b => { b with mConsumer := b.mProducer }⟩ := by
    intro b hb
    rcases List.mem_append.mp hb with hb | hb
    · exact hpw b hb
    · exact hd3 b hb
  have hc1 : content h ⟨passed ++
      (c.mBuf.drop passed.length).map fun b => { b with mConsumer := b.mProducer }⟩ =
      (content h c).take n := by
    rw [content_append, hd2, List.append_nil, hpc]
  have hbc := BytesConsumable_eq_length h _ hw1
  rw [hc1, List.length_take, Nat.min_eq_left hn] at hbc
  have hnp : ¬ ((n : Nat) : Int) ≤ 0 := by omega
  refine ⟨_, passed.length, ?_, hw1, hc1, ?_, hpl, ?_, ?_⟩
  · simp only [Trim, if_neg hnp, hcut, hd1, Res.bind, hbc, if_true]
  · simp only [List.length_append, List.length_map, List.length_drop]
    omega
  · rw [List.take_left']
    · exact hpf
    · rfl
  · rw [List.drop_left']
    rfl

end IOBuffer

namespace IOBuffer

/-- The loop of `Consume` ends within as many iterations as the list has
blocks, and never makes the list longer. -/
theorem Consume_loop_fuel : ∀ (fuel : Nat) (l : List IOBufferData) (n : Int),
    (∀ b ∈ l, b.mConsumer ≤ b.mProducer) → l.length ≤ fuel →
    Consume.loop fuel l n ≠ .outOfFuel ∧
    ∀ l1 r, Consume.loop fuel l n = .ok (l1, r) → l1.length ≤ l.length := by
  intro fuel
  induction fuel with
  | zero =>
    intro l n _ hf
    have : l = [] := List.length_eq_zero.mp (by omega)
    subst this
    simp [Consume.loop]
  | succ fuel ih =>
    intro l n hinv hf
    cases l with
    | nil => simp [Consume.loop]
    | cons d rest =>
      have hd := hinv d (List.mem_cons_self _ _)
      have hr : ∀ b ∈ rest, b.mConsumer ≤ b.mProducer :=
        fun b hb => hinv b (List.mem_cons_of_mem _ hb)
      simp only [List.length_cons] at hf
      by_cases hgt : n > (d.mProducer : Int) - d.mConsumer
      · have e : d.Consume n =
            .ok ({ d with mConsumer := d.mProducer }, (d.mProducer : Int) - d.mConsumer) := by
          simp only [IOBufferData.Consume, if_pos hgt]
        have hlt : ¬ (n - ((d.mProducer : Int) - d.mConsumer) ≤ 0) := by omega
        simp only [Consume.loop, e, Res.bind, IOBufferData.IsEmpty, beq_self_eq_true, if_true,
          if_neg hlt]
        obtain ⟨h1, h2⟩ := ih rest (n - (↑d.mProducer - ↑d.mConsumer)) hr (by omega)
        refine ⟨h1, fun l1 r hres => ?_⟩
        have := h2 l1 r hres
        simp only [List.length_cons]
        omega
      · have hle : ((d.mConsumer : Int) + n).toNat ≤ d.mProducer := by omega
        have e : d.Consume n =
            .ok ({ d with mConsumer := ((d.mConsumer : Int) + n).toNat }, n) := by
          simp only [IOBufferData.Consume, if_neg hgt, if_pos hle]
        simp only [Consume.loop, e, Res.bind, sub_self, le_refl, if_true]
        refine ⟨by simp, fun l1 r hres => ?_⟩
        simp only [Res.ok.injEq, Prod.mk.injEq] at hres
        obtain ⟨rfl, -⟩ := hres
        split_ifs <;> simp

/-- The second loop of `Trim` has no fuel to run out of. -/
theorem Trim_drain_fuel : ∀ l : List IOBufferData, Trim.drain l ≠ .outOfFuel := by
  intro l
  induction l with
  | nil => simp [Trim.drain]
  | cons d rest ih =>
    simp only [Trim.drain]
    cases hc : d.Consume d.BytesConsumable with
    | ok v =>
      simp only [Res.bind]
      cases hr : Trim.drain rest with
      | ok w => simp [Res.bind]
      | assertFailed => simp [Res.bind]
      | outOfFuel => exact absurd hr ih
    | assertFailed => simp [Res.bind]
    | outOfFuel =>
      unfold IOBufferData.Consume at hc
      dsimp only at hc
      split_ifs at hc

/-- The list after `CopyIn(buf, n)` has at most `n + 1` blocks more. -/
theorem CopyIn_length (B : Nat) (hB : 1 ≤ B) (h : Heap) (c : IOBuffer) (buf : List Byte)
    (n : Nat) (hbuf : n ≤ buf.length) (hw : c.WF h) (fuel : Nat) (hfuel : n + 1 ≤ fuel) :
    ∃ h1 c1, c.CopyIn B fuel h buf n = .ok (h1, c1, (n : Int)) ∧
      c1.mBuf.length ≤ c.mBuf.length + n + 1 := by
  obtain ⟨l⟩ := c
  rcases List.eq_nil_or_concat l with hl | ⟨front, t, hl⟩
  · subst hl
    have hwI := IOBufferData.WF_Init h B
    rw [IOBufferData.Init_eq] at hwI
    obtain ⟨h2, hres2, -, -, -, -, -, -⟩ :=
      CopyIn_loop_spec B hB buf n hbuf fuel (h.alloc B).1 [] ⟨h.arrays.length, 0, B, 0, 0⟩ 0
        (min (n - 0) (B - 0)) (by omega) hwI rfl (by
          have hB0 : ¬ (0 : Nat) = B := by omega
          rw [if_neg hB0]; omega)
    have hun : CopyIn B fuel h ⟨[]⟩ buf n = CopyIn.loop B buf n fuel (h.alloc B).1 []
        ⟨h.arrays.length, 0, B, 0, 0⟩ ((0 : Nat) : Int) := by
      simp only [CopyIn, List.getLast?_nil, IOBufferData.Init_eq]
      rfl
    rw [← hun] at hres2
    refine ⟨_, _, hres2, ?_⟩
    simp only [List.nil_append, List.length_cons, length_freshBlocks, List.length_nil]
    have := blocksFor_le B (n - 0 - min (n - 0) (B - 0)) hB
    omega
  · rw [List.concat_eq_append] at hl
    subst hl
    have hwt : t.WF h := hw t (by simp)
    obtain ⟨h1, hres, -, -, -, -, -, -⟩ :=
      CopyIn_loop_spec B hB buf n hbuf fuel h front t 0
        (min (n - 0) (t.mEnd - t.mProducer)) (by omega) hwt rfl (by
          split_ifs <;> omega)
    have hun : CopyIn B fuel h ⟨front ++ [t]⟩ buf n =
        CopyIn.loop B buf n fuel h front t ((0 : Nat) : Int) := by
      simp only [CopyIn, List.getLast?_concat, List.dropLast_concat]
      rfl
    rw [← hun] at hres
    refine ⟨_, _, hres, ?_⟩
    simp only [List.length_append, List.length_cons, length_freshBlocks, List.length_nil]
    have := blocksFor_le B (n - 0 - min (n - 0) (t.mEnd - t.mProducer)) hB
    omega

/-- One call on a well-formed chain does not run out of fuel when the fuel
covers the blocks of the chain and the length of the call, and it makes the
list at most `len + 1` blocks longer. -/
theorem call_fuel (B fuel : Nat) (hB : 1 ≤ B) (h : Heap) (a : IOBuffer) (op : ChainOp)
    (hv : op.Valid) (hw : a.WF h) (hf : a.mBuf.length + op.len.toNat + 1 ≤ fuel) :
    a.call B fuel h op ≠ .outOfFuel ∧
    ∀ h1 a1, a.call B fuel h op = .ok (h1, a1) →
      a1.mBuf.length ≤ a.mBuf.length + op.len.toNat + 1 := by
  have hinv : ∀ b ∈ a.mBuf, b.mConsumer ≤ b.mProducer := fun b hb => (hw b hb).1.2.1
  cases op with
  | CopyIn buf n =>
    obtain ⟨hn0, hnb⟩ := hv
    obtain ⟨k, rfl⟩ := Int.eq_ofNat_of_zero_le hn0
    simp only [ChainOp.len, Int.toNat_ofNat] at hf ⊢
    obtain ⟨h2, c2, hres2, hlen⟩ := CopyIn_length B hB h a buf k (by omega) hw fuel (by omega)
    simp only [call, hres2, Res.bind]
    refine ⟨by simp, fun h1 a1 hres => ?_⟩
    simp only [Res.ok.injEq, Prod.mk.injEq] at hres
    obtain ⟨-, rfl⟩ := hres
    exact hlen
  | ZeroFill n =>
    have hn0 : 0 ≤ n := hv
    obtain ⟨k, rfl⟩ := Int.eq_ofNat_of_zero_le hn0
    simp only [ChainOp.len, Int.toNat_ofNat] at hf ⊢
    obtain ⟨h2, hres2, -⟩ := ZeroFill_loop_spec B hB fuel h a.mBuf k (by omega)
    simp only [call, ZeroFill, hres2, Res.bind]
    refine ⟨by simp, fun h1 a1 hres => ?_⟩
    simp only [Res.ok.injEq, Prod.mk.injEq] at hres
    obtain ⟨-, rfl⟩ := hres
    simp only [List.length_append, length_freshBlocks]
    have := blocksFor_le B k hB
    omega
  | Consume n =>
    obtain ⟨h1, h2⟩ := Consume_loop_fuel fuel a.mBuf n hinv (by omega)
    simp only [call, Consume, ChainOp.len]
    split_ifs with hn
    · cases hl : Consume.loop fuel a.mBuf n with
      | ok v =>
        obtain ⟨l1, r⟩ := v
        have := h2 l1 r hl
        simp only [Res.bind]
        split_ifs with hr0
        · refine ⟨by simp, fun h1 a1 hres => ?_⟩
          simp only [Res.ok.injEq, Prod.mk.injEq] at hres
          obtain ⟨-, rfl⟩ := hres
          simp only
          omega
        · simp
      | assertFailed => simp [Res.bind]
      | outOfFuel => exact absurd hl h1
    · simp [Res.bind]
  | Trim n =>
    simp only [call, ChainOp.len]
    cases ht : a.Trim n with
    | ok c1 =>
      have := (Trim_narrows a c1 n ht hinv).length_eq
      simp only [Res.bind]
      refine ⟨by simp, fun h1 a1 hres => ?_⟩
      simp only [Res.ok.injEq, Prod.mk.injEq] at hres
      obtain ⟨-, rfl⟩ := hres
      omega
    | assertFailed => simp [Res.bind]
    | outOfFuel =>
      exfalso
      unfold Trim at ht
      split_ifs at ht
      dsimp only at ht
      cases hdr : Trim.drain (Trim.cut n a.mBuf 0).2 with
      | ok w =>
        rw [hdr] at ht
        simp only [Res.bind] at ht
        split_ifs at ht
      | assertFailed =>
        rw [hdr] at ht
        simp [Res.bind] at ht
      | outOfFuel => exact Trim_drain_fuel _ hdr

/-- A sequence of calls with non-negative lengths on a well-formed chain does
not run out of fuel when the fuel covers the blocks of the chain and, for
every call, its length plus one: the calls all return, or one of them stops
at a failed assertion. -/
theorem calls_fuel (B fuel : Nat) (hB : 1 ≤ B) : ∀ (ops : List ChainOp) (h : Heap)
    (a : IOBuffer), (∀ op ∈ ops, op.Valid) → a.WF h →
    a.mBuf.length + (ops.map fun op => op.len.toNat + 1).sum ≤ fuel →
    calls B fuel h a ops ≠ .outOfFuel := by
  intro ops
  induction ops with
  | nil =>
    intro h a _ _ _
    simp [calls]
  | cons op ops ih =>
    intro h a hv hw hf
    simp only [List.map_cons, List.sum_cons] at hf
    have hvo := hv op (List.mem_cons_self _ _)
    obtain ⟨h1, h2⟩ := call_fuel B fuel hB h a op hvo hw (by omega)
    simp only [calls]
    cases hc : a.call B fuel h op with
    | ok v =>
      obtain ⟨hh, a1⟩ := v
      simp only [Res.bind]
      have hlen := h2 hh a1 hc
      have hfu : op.len + 1 ≤ fuel := by
        have : 0 ≤ op.len := by
          cases op with
          | CopyIn buf n => exact hvo.1
          | ZeroFill n => exact hvo
          | Consume n => exact hvo
          | Trim n => exact hvo
        omega
      obtain ⟨hw1, -, -⟩ := call_frame B fuel hB h hh a a1 op hc hvo hfu hw
      exact ih hh a1 (fun o ho => hv o (List.mem_cons_of_mem _ ho)) hw1 (by omega)
    | assertFailed => simp [Res.bind]
    | outOfFuel => exact absurd hc h1

end IOBuffer

/-- The length of a valid call is not negative. -/
theorem ChainOp.len_nonneg (op : ChainOp) (hv : op.Valid) : 0 ≤ op.len := by
  cases op with
  | CopyIn buf n => exact hv.1
  | ZeroFill n => exact hv
  | Consume n => exact hv
  | Trim n => exact hv

/-- The fuel counted for a sequence of calls covers each call of it. -/
theorem ChainOp.len_le_sum : ∀ (ops : List ChainOp) (op : ChainOp), op ∈ ops →
    op.len.toNat + 1 ≤ (ops.map fun o => o.len.toNat + 1).sum := by
  intro ops
  induction ops with
  | nil => intro op hop; simp at hop
  | cons o ops ih =>
    intro op hop
    simp only [List.map_cons, List.sum_cons]
    rcases List.mem_cons.mp hop with rfl | hop
    · omega
    · have := ih op hop
      omega
/-! ## C1 – C3: the block operations -/

/-- C8, refuted as stated. With `B = 8`, `CopyIn("Hello, world!", 13)` fills the
blocks "Hello, w" and "orld!"; `Consume(7)` leaves the byte "w" in the first
block, which is therefore not empty and stays in the list: the chain holds 2
blocks, not 1. -/
theorem C8_block_count_counterexample :
    ((IOBuffer.empty.CopyIn 8 2 ⟨[], fun _ => 0⟩
        [72, 101, 108, 108, 111, 44, 32, 119, 111, 114, 108, 100, 33] 13).bind
      fun r => (r.2.1.Consume 2 7).bind fun c1 => .ok c1.mBuf.length) = .ok 2 ∧
    ¬ ((IOBuffer.empty.CopyIn 8 2 ⟨[], fun _ => 0⟩
        [72, 101, 108, 108, 111, 44, 32, 119, 111, 114, 108, 100, 33] 13).bind
      fun r => (r.2.1.Consume 2 7).bind fun c1 => .ok c1.mBuf.length) = .ok 1 := by
  refine ⟨by decide, by decide⟩

/-- C8, amended. With `B = 8`, from the empty chain (whatever fresh storage
holds), after `CopyIn("Hello, world!", 13)` and `Consume(7)` the content is
"world!", `BytesConsumable` is 6, and the chain holds 2 blocks: the first
with the single byte "w" left, the second with "orld!". -/
theorem C8_roundtrip_scenario (u : Nat → Byte) :
    ((IOBuffer.empty.CopyIn 8 2 ⟨[], u⟩
        [72, 101, 108, 108, 111, 44, 32, 119, 111, 114, 108, 100, 33] 13).bind
      fun r => (r.2.1.Consume 2 7).bind fun c1 =>
        .ok (IOBuffer.content r.1 c1, c1.BytesConsumable, c1.mBuf.length,
          c1.mBuf.map (IOBufferData.readable r.1))) =
      .ok ([119, 111, 114, 108, 100, 33], 6, 2, [[119], [111, 114, 108, 100, 33]]) := by
  rfl

/-- C9, evaluated. `IOBuffer::Trim` returns at once when `nbytes <= 0`, so
`Trim(0)` changes nothing on any chain; on a chain holding 5 bytes
`BytesConsumable` is still 5 afterwards, where truncation to 0 bytes (which the
block-level `Trim(0)` does perform) would leave 0. -/
theorem C9_trim_zero_changes_nothing :
    (∀ c : IOBuffer, c.Trim 0 = .ok c) ∧
    ((IOBuffer.Trim ⟨[⟨0, 0, 8, 5, 0⟩]⟩ 0).bind fun c1 => .ok c1.BytesConsumable) = .ok 5 ∧
    (IOBufferData.Trim ⟨0, 0, 8, 5, 0⟩ 0).1.BytesConsumable = 0 := by
  refine ⟨fun c => ?_, by decide, by decide⟩
  simp [IOBuffer.Trim]

/-- C13, where the code departs from the claim. With the unit `IOBUFSIZE = 4`,
`c` holds "ABCDEFGH" in one block of capacity 8 (made by `IOBufferData(8)` and
`CopyIn`, first conjunct) and `other` holds "XY". `c.Splice(other, 6, 0)`
meets both assertions and must split the block at offset 6: the new block has
room for 4 bytes only, `CopyIn(data, 6)` copies "ABCD", `Consume(6)` drops six
bytes, and the search goes on to the end of the list. The content afterwards is
"ABCDGHXY"; `s[0:6] ++ t ++ s[6:]` is "ABCDEFXYGH". With the unit 8 the same
call gives "ABCDEFXYGH". -/
theorem C13_splice_splits_block_larger_than_unit :
    ((IOBufferData.CopyIn (IOBufferData.Init ⟨[[88, 89]], fun _ => 0⟩ 8).1
        (IOBufferData.Init ⟨[[88, 89]], fun _ => 0⟩ 8).2 [65, 66, 67, 68, 69, 70, 71, 72] 8).bind
      fun r => .ok (r.1.arrays, r.2.1)) =
      .ok ([[88, 89], [65, 66, 67, 68, 69, 70, 71, 72]], ⟨1, 0, 8, 8, 0⟩) ∧
    IOBuffer.WF ⟨[[88, 89], [65, 66, 67, 68, 69, 70, 71, 72]], fun _ => 0⟩ ⟨[⟨1, 0, 8, 8, 0⟩]⟩ ∧
    IOBuffer.WF ⟨[[88, 89], [65, 66, 67, 68, 69, 70, 71, 72]], fun _ => 0⟩ ⟨[⟨0, 0, 2, 2, 0⟩]⟩ ∧
    (0 : Int) ≤ IOBuffer.BytesConsumable ⟨[⟨0, 0, 2, 2, 0⟩]⟩ ∧
    ((IOBuffer.Splice 4 4 ⟨[[88, 89], [65, 66, 67, 68, 69, 70, 71, 72]], fun _ => 0⟩
        ⟨[⟨1, 0, 8, 8, 0⟩]⟩ ⟨[⟨0, 0, 2, 2, 0⟩]⟩ 6 0).bind
      fun r => .ok (r.2.1, IOBuffer.content r.1 r.2.1, r.2.2)) =
      .ok (⟨[⟨2, 0, 4, 4, 0⟩, ⟨1, 0, 8, 8, 6⟩, ⟨0, 0, 2, 2, 0⟩]⟩,
        [65, 66, 67, 68, 71, 72, 88, 89], ⟨[]⟩) ∧
    (IOBuffer.content ⟨[[88, 89], [65, 66, 67, 68, 69, 70, 71, 72]], fun _ => 0⟩
        ⟨[⟨1, 0, 8, 8, 0⟩]⟩).take 6 ++
      IOBuffer.content ⟨[[88, 89], [65, 66, 67, 68, 69, 70, 71, 72]], fun _ => 0⟩
        ⟨[⟨0, 0, 2, 2, 0⟩]⟩ ++
      (IOBuffer.content ⟨[[88, 89], [65, 66, 67, 68, 69, 70, 71, 72]], fun _ => 0⟩
        ⟨[⟨1, 0, 8, 8, 0⟩]⟩).drop (6 + 0) = [65, 66, 67, 68, 69, 70, 88, 89, 71, 72] ∧
    ((IOBuffer.Splice 8 4 ⟨[[88, 89], [65, 66, 67, 68, 69, 70, 71, 72]], fun _ => 0⟩
        ⟨[⟨1, 0, 8, 8, 0⟩]⟩ ⟨[⟨0, 0, 2, 2, 0⟩]⟩ 6 0).bind
      fun r => .ok (IOBuffer.content r.1 r.2.1, r.2.2)) =
      .ok ([65, 66, 67, 68, 69, 70, 88, 89, 71, 72], ⟨[]⟩) := by
  refine ⟨by decide, by decide, by decide, by decide, by decide, by decide, by decide⟩

/-- C17, where the code departs from the claim. Whenever the first `read()`
made by `IOBuffer::Read` returns a negative value, and whenever the first
`write()` made by `IOBuffer::Write` on a chain with consumable bytes does, the
function returns `-EAGAIN` if `errno` is 0 and otherwise `errno` itself, as
`return errno == 0 ? -EAGAIN : errno;` says: for `errno = e > 0` the value
returned is `e`, which is positive, and not `-e`. -/
theorem C17_read_write_return_errno_unnegated (B fuel : Nat) (EAGAIN : Int)
    (sys : Nat → SysCall) (errno0 : Int) (h : Heap) (c : IOBuffer) (hB : 1 ≤ B)
    (hw : c.WF h) (hf : 2 ≤ fuel) (hfw : c.mBuf.length ≤ fuel) (hret : (sys 0).ret < 0) :
    (∃ h1 c1 r, c.Read B fuel EAGAIN sys h = .ok (h1, c1, r) ∧
      ((sys 0).errno = 0 → r = -EAGAIN) ∧
      ((sys 0).errno ≠ 0 → r = (sys 0).errno) ∧
      (0 < (sys 0).errno → 0 < r ∧ r ≠ -(sys 0).errno)) ∧
    (0 < c.BytesConsumable →
      ∃ c1 r, c.Write fuel EAGAIN sys errno0 = .ok (c1, r) ∧
        ((sys 0).errno = 0 → r = -EAGAIN) ∧
        ((sys 0).errno ≠ 0 → r = (sys 0).errno) ∧
        (0 < (sys 0).errno → 0 < r ∧ r ≠ -(sys 0).errno)) := by
  have hval : ∀ r : Int, r = (if (sys 0).errno = 0 then -EAGAIN else (sys 0).errno) →
      ((sys 0).errno = 0 → r = -EAGAIN) ∧ ((sys 0).errno ≠ 0 → r = (sys 0).errno) ∧
      (0 < (sys 0).errno → 0 < r ∧ r ≠ -(sys 0).errno) := by
    intro r hr
    refine ⟨fun h0 => by rw [hr, if_pos h0], fun h0 => by rw [hr, if_neg h0], fun h0 => ?_⟩
    rw [hr, if_neg (by omega)]
    omega
  constructor
  · obtain ⟨h1, c1, hres⟩ := IOBuffer.Read_first_fails B fuel EAGAIN sys h c hB hw hf hret
    exact ⟨h1, c1, _, hres, hval _ rfl⟩
  · intro hpos
    obtain ⟨c1, hres⟩ := IOBuffer.Write_first_fails fuel EAGAIN sys errno0 h c hw hpos hfw hret
    exact ⟨c1, _, hres, hval _ rfl⟩

/-- C17 with `EAGAIN = 11` on a chain holding "XY", when every call fails with
`errno = 5` (`EIO`): `Read` and `Write` both return 5, not -5. -/
theorem C17_read_write_return_errno_unnegated_witness :
    (1 ≤ 8 ∧ IOBuffer.WF ⟨[[88, 89]], fun _ => 0⟩ ⟨[⟨0, 0, 2, 2, 0⟩]⟩ ∧ 2 ≤ 2 ∧
      (IOBuffer.mk [⟨0, 0, 2, 2, 0⟩]).mBuf.length ≤ 2 ∧
      ((fun _ => ⟨-1, 5, []⟩ : Nat → SysCall) 0).ret < 0) ∧
    ((IOBuffer.Read 8 2 11 (fun _ => ⟨-1, 5, []⟩) ⟨[[88, 89]], fun _ => 0⟩
        ⟨[⟨0, 0, 2, 2, 0⟩]⟩).bind fun r => .ok r.2) =
      .ok (⟨[⟨0, 0, 2, 2, 0⟩, ⟨1, 0, 8, 0, 0⟩]⟩, 5) ∧
    IOBuffer.Write 2 11 (fun _ => ⟨-1, 5, []⟩) 0 ⟨[⟨0, 0, 2, 2, 0⟩]⟩ =
      .ok (⟨[⟨0, 0, 2, 2, 0⟩]⟩, 5) ∧
    ((IOBuffer.Read 8 2 11 (fun _ => ⟨-1, 0, []⟩) ⟨[], fun _ => 0⟩ ⟨[]⟩).bind
      fun r => .ok r.2) = .ok (⟨[⟨0, 0, 8, 0, 0⟩]⟩, -11) ∧
    (∃ h1 c1 r, IOBuffer.Read 8 2 11 (fun _ => ⟨-1, 5, []⟩) ⟨[[88, 89]], fun _ => 0⟩
        ⟨[⟨0, 0, 2, 2, 0⟩]⟩ = .ok (h1, c1, r) ∧
      (((fun _ => ⟨-1, 5, []⟩ : Nat → SysCall) 0).errno = 0 → r = -11) ∧
      (((fun _ => ⟨-1, 5, []⟩ : Nat → SysCall) 0).errno ≠ 0 →
        r = ((fun _ => ⟨-1, 5, []⟩ : Nat → SysCall) 0).errno) ∧
      (0 < ((fun _ => ⟨-1, 5, []⟩ : Nat → SysCall) 0).errno →
        0 < r ∧ r ≠ -((fun _ => ⟨-1, 5, []⟩ : Nat → SysCall) 0).errno)) ∧
    (0 < IOBuffer.BytesConsumable ⟨[⟨0, 0, 2, 2, 0⟩]⟩ →
      ∃ c1 r, IOBuffer.Write 2 11 (fun _ => ⟨-1, 5, []⟩) 0 ⟨[⟨0, 0, 2, 2, 0⟩]⟩ = .ok (c1, r) ∧
        (((fun _ => ⟨-1, 5, []⟩ : Nat → SysCall) 0).errno = 0 → r = -11) ∧
        (((fun _ => ⟨-1, 5, []⟩ : Nat → SysCall) 0).errno ≠ 0 →
          r = ((fun _ => ⟨-1, 5, []⟩ : Nat → SysCall) 0).errno) ∧
        (0 < ((fun _ => ⟨-1, 5, []⟩ : Nat → SysCall) 0).errno →
          0 < r ∧ r ≠ -((fun _ => ⟨-1, 5, []⟩ : Nat → SysCall) 0).errno)) :=
  ⟨⟨by decide, by decide, by decide, by decide, by decide⟩, by decide, by decide, by decide,
   C17_read_write_return_errno_unnegated 8 2 11 (fun _ => ⟨-1, 5, []⟩) 0
     ⟨[[88, 89]], fun _ => 0⟩ ⟨[⟨0, 0, 2, 2, 0⟩]⟩ (by decide) (by decide) (by decide)
     (by decide) (by decide)⟩

/-! ## C18 – C20: one tick of the disk manager -/

/-- C18, where the code departs from the claim. The `for` loop of
`DiskManager::Timeout` has no increment, and its `EINPROGRESS` and `ECANCELED`
cases leave the `switch` without erasing or advancing: a tick that meets an
event the issuer has not cancelled and the kernel reports as cancelled (or in
progress) inspects that event again and again. With such an event `A` at the
head of the queue, `Timeout()` does not return for any number of iterations,
so there is no "after the tick", and an event behind `A` whose status is
`EVENT_CANCELLED` stays in the queue. What holds: on a queue without such an event the tick returns on a
budget of one iteration per event, the queue is then empty, the events with
status `EVENT_CANCELLED` were erased as they were and in order, and every
`HandleDone` call was for an event that was not cancelled. -/
theorem C18_cancelled_event_behind_stuck_event (k : Kernel) (A : DiskEvent_t)
    (rest : List DiskEvent_t) (hA : DiskManager.Stuck k A) :
    (∀ fuel, DiskManager.Timeout k fuel (A :: rest) = .outOfFuel) ∧
    (∀ (q : List DiskEvent_t) (fuel : Nat), (∀ e ∈ q, ¬ DiskManager.Stuck k e) →
      (∀ e ∈ q, e.op = DiskEventOp_t.OP_READ → e.data ≠ none) → q.length ≤ fuel →
      ∃ calls, DiskManager.Timeout k fuel q = .ok ([], calls,
          q.filter (fun e => e.status = DiskEventStatus_t.EVENT_CANCELLED)) ∧
        ∀ c ∈ calls, ∃ e ∈ q, e.status ≠ DiskEventStatus_t.EVENT_CANCELLED ∧
          DiskManager.Timeout.complete k e = .ok c.1) := by
  constructor
  · intro fuel
    exact DiskManager.Timeout_loop_head_stuck k A _ hA fuel [] []
  · intro q fuel hns hdata hf
    obtain ⟨calls, hres, hall⟩ := DiskManager.Timeout_spec k q fuel hns hdata hf
    refine ⟨calls, hres, ?_⟩
    intro c hc
    obtain ⟨e, he, hce, -⟩ := DiskManager.calls_of_forall₂ hall c hc
    obtain ⟨heq, hst⟩ := List.mem_filter.mp he
    exact ⟨e, heq, by simpa using hst, hce⟩

/-- C18 with `EINPROGRESS = 115` and `ECANCELED = 125`: a sync the kernel
reports as cancelled, followed by a write the issuer has cancelled. The tick
does not end; without the sync in front it drops the write without a call. -/
theorem C18_cancelled_event_behind_stuck_event_witness :
    DiskManager.Stuck ⟨115, 125, fun cb => if cb = 0 then 125 else 0, fun _ => 0⟩
      ⟨7, none, DiskEventOp_t.OP_SYNC, DiskEventStatus_t.EVENT_QUEUED, 0, 0⟩ ∧
    DiskManager.Timeout ⟨115, 125, fun cb => if cb = 0 then 125 else 0, fun _ => 0⟩ 9
        [⟨7, none, DiskEventOp_t.OP_SYNC, DiskEventStatus_t.EVENT_QUEUED, 0, 0⟩,
          ⟨7, some ⟨0, 0, 8, 5, 0⟩, DiskEventOp_t.OP_WRITE,
            DiskEventStatus_t.EVENT_CANCELLED, 0, 1⟩] = .outOfFuel ∧
    DiskManager.Timeout ⟨115, 125, fun cb => if cb = 0 then 125 else 0, fun _ => 0⟩ 1
        [⟨7, some ⟨0, 0, 8, 5, 0⟩, DiskEventOp_t.OP_WRITE,
          DiskEventStatus_t.EVENT_CANCELLED, 0, 1⟩] =
      .ok ([], [], [⟨7, some ⟨0, 0, 8, 5, 0⟩, DiskEventOp_t.OP_WRITE,
        DiskEventStatus_t.EVENT_CANCELLED, 0, 1⟩]) ∧
    ((∀ fuel, DiskManager.Timeout ⟨115, 125, fun cb => if cb = 0 then 125 else 0, fun _ => 0⟩
        fuel (⟨7, none, DiskEventOp_t.OP_SYNC, DiskEventStatus_t.EVENT_QUEUED, 0, 0⟩ ::
          [⟨7, some ⟨0, 0, 8, 5, 0⟩, DiskEventOp_t.OP_WRITE,
            DiskEventStatus_t.EVENT_CANCELLED, 0, 1⟩]) = .outOfFuel) ∧
      (∀ (q : List DiskEvent_t) (fuel : Nat),
        (∀ e ∈ q, ¬ DiskManager.Stuck
          ⟨115, 125, fun cb => if cb = 0 then 125 else 0, fun _ => 0⟩ e) →
        (∀ e ∈ q, e.op = DiskEventOp_t.OP_READ → e.data ≠ none) → q.length ≤ fuel →
        ∃ calls, DiskManager.Timeout
            ⟨115, 125, fun cb => if cb = 0 then 125 else 0, fun _ => 0⟩ fuel q =
            .ok ([], calls,
              q.filter (fun e => e.status = DiskEventStatus_t.EVENT_CANCELLED)) ∧
          ∀ c ∈ calls, ∃ e ∈ q, e.status ≠ DiskEventStatus_t.EVENT_CANCELLED ∧
            DiskManager.Timeout.complete
              ⟨115, 125, fun cb => if cb = 0 then 125 else 0, fun _ => 0⟩ e = .ok c.1)) :=
  ⟨⟨by decide, Or.inr (by decide)⟩, by decide, by decide,
   C18_cancelled_event_behind_stuck_event
     ⟨115, 125, fun cb => if cb = 0 then 125 else 0, fun _ => 0⟩
     ⟨7, none, DiskEventOp_t.OP_SYNC, DiskEventStatus_t.EVENT_QUEUED, 0, 0⟩
     [⟨7, some ⟨0, 0, 8, 5, 0⟩, DiskEventOp_t.OP_WRITE, DiskEventStatus_t.EVENT_CANCELLED, 0, 1⟩]
     ⟨by decide, Or.inr (by decide)⟩⟩

/-- C19, where the code departs from the claim, through the defect described
at C18: a tick never gets past an event the issuer has not cancelled and the
kernel reports as cancelled or in progress. With such an event `A` at the head
of the queue `Timeout()` does not return for any number of iterations, and a
completed event behind `A` gets neither `retVal`, nor `EVENT_DONE`, nor its
`HandleDone` call. What holds: on a queue without such an event (and with a
block for every read) the tick returns, and the `HandleDone` calls are, in
queue order, one per event that was not cancelled, with `aio_error` as second
argument and the event completed: `status = EVENT_DONE`, `retVal = r`, and the
block's producer advanced by `min(r, end − producer)` for a read with `r > 0`,
all members but `status` and `retVal` as they were otherwise. -/
theorem C19_completion_behind_stuck_event (k : Kernel) (A : DiskEvent_t)
    (rest : List DiskEvent_t) (hA : DiskManager.Stuck k A) :
    (∀ fuel, DiskManager.Timeout k fuel (A :: rest) = .outOfFuel) ∧
    (∀ (q : List DiskEvent_t) (fuel : Nat), (∀ e ∈ q, ¬ DiskManager.Stuck k e) →
      (∀ e ∈ q, e.op = DiskEventOp_t.OP_READ → e.data ≠ none) → q.length ≤ fuel →
      ∃ calls dropped, DiskManager.Timeout k fuel q = .ok ([], calls, dropped) ∧
        List.Forall₂ (fun e (c : DiskEvent_t × Int) =>
            DiskManager.Timeout.complete k e = .ok c.1 ∧ c.2 = k.aio_error e.aio_cb)
          (q.filter (fun e => ¬ e.status = DiskEventStatus_t.EVENT_CANCELLED)) calls) ∧
    (∀ (e : DiskEvent_t) (d : IOBufferData), e.op = DiskEventOp_t.OP_READ →
      0 < k.aio_return e.aio_cb → e.data = some d → d.mProducer ≤ d.mEnd →
      DiskManager.Timeout.complete k e = .ok ⟨e.conn,
        some ⟨d.mData, d.mStart, d.mEnd,
          d.mProducer + min (k.aio_return e.aio_cb).toNat (d.mEnd - d.mProducer), d.mConsumer⟩,
        e.op, DiskEventStatus_t.EVENT_DONE, k.aio_return e.aio_cb, e.aio_cb⟩) ∧
    (∀ e : DiskEvent_t, ¬ (e.op = DiskEventOp_t.OP_READ ∧ 0 < k.aio_return e.aio_cb) →
      DiskManager.Timeout.complete k e = .ok ⟨e.conn, e.data, e.op,
        DiskEventStatus_t.EVENT_DONE, k.aio_return e.aio_cb, e.aio_cb⟩) := by
  refine ⟨fun fuel => DiskManager.Timeout_loop_head_stuck k A _ hA fuel [] [], ?_, ?_, ?_⟩
  · intro q fuel hns hdata hf
    obtain ⟨calls, hres, hall⟩ := DiskManager.Timeout_spec k q fuel hns hdata hf
    exact ⟨calls, _, hres, hall⟩
  · intro e d hop hr hd hpe
    exact DiskManager.complete_read k e d hop hr hd hpe
  · intro e hc
    exact DiskManager.complete_other k e hc

/-- C19 with `EINPROGRESS = 115` and `ECANCELED = 125`: a read of 100 bytes
into a fresh block, reported as 64 bytes with status 0. Alone in the queue it
is completed (producer at 64, one call with status 0, queue empty); behind a
sync that the kernel reports as cancelled it is never reached. -/
theorem C19_completion_behind_stuck_event_witness :
    DiskManager.Stuck
      ⟨115, 125, fun cb => if cb = 0 then 125 else 0, fun cb => if cb = 1 then 64 else 0⟩
      ⟨7, none, DiskEventOp_t.OP_SYNC, DiskEventStatus_t.EVENT_QUEUED, 0, 0⟩ ∧
    DiskManager.Timeout
        ⟨115, 125, fun cb => if cb = 0 then 125 else 0, fun cb => if cb = 1 then 64 else 0⟩ 1
        [⟨7, some ⟨0, 0, 4096, 0, 0⟩, DiskEventOp_t.OP_READ,
          DiskEventStatus_t.EVENT_QUEUED, 0, 1⟩] =
      .ok ([], [(⟨7, some ⟨0, 0, 4096, 64, 0⟩, DiskEventOp_t.OP_READ,
        DiskEventStatus_t.EVENT_DONE, 64, 1⟩, 0)], []) ∧
    DiskManager.Timeout
        ⟨115, 125, fun cb => if cb = 0 then 125 else 0, fun cb => if cb = 1 then 64 else 0⟩ 9
        [⟨7, none, DiskEventOp_t.OP_SYNC, DiskEventStatus_t.EVENT_QUEUED, 0, 0⟩,
          ⟨7, some ⟨0, 0, 4096, 0, 0⟩, DiskEventOp_t.OP_READ,
            DiskEventStatus_t.EVENT_QUEUED, 0, 1⟩] = .outOfFuel ∧
    ∀ fuel, DiskManager.Timeout
        ⟨115, 125, fun cb => if cb = 0 then 125 else 0, fun cb => if cb = 1 then 64 else 0⟩ fuel
        (⟨7, none, DiskEventOp_t.OP_SYNC, DiskEventStatus_t.EVENT_QUEUED, 0, 0⟩ ::
          [⟨7, some ⟨0, 0, 4096, 0, 0⟩, DiskEventOp_t.OP_READ,
            DiskEventStatus_t.EVENT_QUEUED, 0, 1⟩]) = .outOfFuel :=
  ⟨⟨by decide, Or.inr (by decide)⟩, by decide, by decide,
   (C19_completion_behind_stuck_event
     ⟨115, 125, fun cb => if cb = 0 then 125 else 0, fun cb => if cb = 1 then 64 else 0⟩
     ⟨7, none, DiskEventOp_t.OP_SYNC, DiskEventStatus_t.EVENT_QUEUED, 0, 0⟩
     [⟨7, some ⟨0, 0, 4096, 0, 0⟩, DiskEventOp_t.OP_READ, DiskEventStatus_t.EVENT_QUEUED, 0, 1⟩]
     ⟨by decide, Or.inr (by decide)⟩).1⟩

/-- C20, where the code departs from the claim, through the defect described
at C18: `case EINPROGRESS: break;` leaves the `switch`, and the `for` loop,
which has no increment, inspects the same event again. With the kernel's
answers fixed, a tick on a queue that holds an event which the issuer has not
cancelled and the kernel reports in progress does not return for any number of
iterations. Whenever a tick does return, the queue is empty and held no such
event, so no tick leaves an in-progress event in the queue. -/
theorem C20_in_progress_event_stalls_tick (k : Kernel) (q : List DiskEvent_t)
    (e : DiskEvent_t) (he : e ∈ q) (hs : e.status ≠ DiskEventStatus_t.EVENT_CANCELLED)
    (hk : k.aio_error e.aio_cb = k.EINPROGRESS) :
    (∀ fuel r, DiskManager.Timeout k fuel q ≠ .ok r) ∧
    (∀ (q0 : List DiskEvent_t) (fuel : Nat) q1 calls dropped,
      DiskManager.Timeout k fuel q0 = .ok (q1, calls, dropped) →
      q1 = [] ∧ ∀ x ∈ q0, ¬ DiskManager.Stuck k x) := by
  constructor
  · intro fuel r
    exact DiskManager.Timeout_loop_blocked k fuel q [] [] ⟨e, he, hs, Or.inl hk⟩ r
  · intro q0 fuel q1 calls dropped hres
    refine ⟨(DiskManager.Timeout_loop_ok k fuel q0 [] [] q1 dropped calls hres).1, ?_⟩
    intro x hx hst
    exact DiskManager.Timeout_loop_blocked k fuel q0 [] [] ⟨x, hx, hst⟩ _ hres

/-- C20 with `EINPROGRESS = 115` and `ECANCELED = 125`: one read that the
kernel reports in progress, behind a completed write. The write is handled,
then the tick stays on the read. -/
theorem C20_in_progress_event_stalls_tick_witness :
    ((DiskEvent_t.mk 7 (some ⟨0, 0, 4096, 0, 0⟩) DiskEventOp_t.OP_READ
          DiskEventStatus_t.EVENT_QUEUED 0 1) ∈
        [DiskEvent_t.mk 7 (some ⟨1, 0, 8, 5, 0⟩) DiskEventOp_t.OP_WRITE
            DiskEventStatus_t.EVENT_QUEUED 0 0,
          DiskEvent_t.mk 7 (some ⟨0, 0, 4096, 0, 0⟩) DiskEventOp_t.OP_READ
            DiskEventStatus_t.EVENT_QUEUED 0 1] ∧
      (DiskEvent_t.mk 7 (some ⟨0, 0, 4096, 0, 0⟩) DiskEventOp_t.OP_READ
          DiskEventStatus_t.EVENT_QUEUED 0 1).status ≠ DiskEventStatus_t.EVENT_CANCELLED ∧
      (Kernel.mk 115 125 (fun cb => if cb = 1 then 115 else 0) (fun _ => 5)).aio_error
          (DiskEvent_t.mk 7 (some ⟨0, 0, 4096, 0, 0⟩) DiskEventOp_t.OP_READ
            DiskEventStatus_t.EVENT_QUEUED 0 1).aio_cb =
        (Kernel.mk 115 125 (fun cb => if cb = 1 then 115 else 0) (fun _ => 5)).EINPROGRESS) ∧
    DiskManager.Timeout ⟨115, 125, fun cb => if cb = 1 then 115 else 0, fun _ => 5⟩ 9
        [⟨7, some ⟨1, 0, 8, 5, 0⟩, DiskEventOp_t.OP_WRITE, DiskEventStatus_t.EVENT_QUEUED, 0, 0⟩,
          ⟨7, some ⟨0, 0, 4096, 0, 0⟩, DiskEventOp_t.OP_READ,
            DiskEventStatus_t.EVENT_QUEUED, 0, 1⟩] = .outOfFuel ∧
    ∀ fuel r, DiskManager.Timeout ⟨115, 125, fun cb => if cb = 1 then 115 else 0, fun _ => 5⟩
        fuel
        [⟨7, some ⟨1, 0, 8, 5, 0⟩, DiskEventOp_t.OP_WRITE, DiskEventStatus_t.EVENT_QUEUED, 0, 0⟩,
          ⟨7, some ⟨0, 0, 4096, 0, 0⟩, DiskEventOp_t.OP_READ,
            DiskEventStatus_t.EVENT_QUEUED, 0, 1⟩] ≠ .ok r :=
  ⟨⟨by decide, by decide, by decide⟩, by decide,
   (C20_in_progress_event_stalls_tick
     ⟨115, 125, fun cb => if cb = 1 then 115 else 0, fun _ => 5⟩
     [⟨7, some ⟨1, 0, 8, 5, 0⟩, DiskEventOp_t.OP_WRITE, DiskEventStatus_t.EVENT_QUEUED, 0, 0⟩,
       ⟨7, some ⟨0, 0, 4096, 0, 0⟩, DiskEventOp_t.OP_READ, DiskEventStatus_t.EVENT_QUEUED, 0, 1⟩]
     ⟨7, some ⟨0, 0, 4096, 0, 0⟩, DiskEventOp_t.OP_READ, DiskEventStatus_t.EVENT_QUEUED, 0, 1⟩
     (by decide) (by decide) (by decide)).1⟩

/-! ## C21 – C24: kernel-cancelled events, submission, order, callbacks -/

/-- C21, where the code departs from the claim, through the defect described
at C18. The `ECANCELED` case of the switch reads
`// remove the event from the queue.` followed by `break;`: nothing is erased
and `iter` stays where it is. A tick on a queue that holds an event which the
issuer has not cancelled and the kernel reports as cancelled does not return
for any number of iterations, and with the event at the head every budget is
spent on that event: it is never removed. (`HandleDone` is indeed not invoked
for it.) -/
theorem C21_kernel_cancelled_event_never_removed (k : Kernel) (q : List DiskEvent_t)
    (e : DiskEvent_t) (he : e ∈ q) (hs : e.status ≠ DiskEventStatus_t.EVENT_CANCELLED)
    (hk : k.aio_error e.aio_cb = k.ECANCELED) :
    (∀ fuel r, DiskManager.Timeout k fuel q ≠ .ok r) ∧
    (∀ rest fuel calls dropped,
      DiskManager.Timeout.loop k (fuel + 1) (e :: rest) calls dropped =
        DiskManager.Timeout.loop k fuel (e :: rest) calls dropped) ∧
    (∀ rest fuel, DiskManager.Timeout k fuel (e :: rest) = .outOfFuel) := by
  have hst : DiskManager.Stuck k e := ⟨hs, Or.inr hk⟩
  refine ⟨fun fuel r => DiskManager.Timeout_loop_blocked k fuel q [] [] ⟨e, he, hst⟩ r, ?_,
    fun rest fuel => DiskManager.Timeout_loop_head_stuck k e rest hst fuel [] []⟩
  intro rest fuel calls dropped
  rw [DiskManager.Timeout_loop_head_stuck k e rest hst (fuel + 1),
    DiskManager.Timeout_loop_head_stuck k e rest hst fuel]

/-- C21 with `EINPROGRESS = 115` and `ECANCELED = 125`: a queue holding one
write that the kernel reports as cancelled. -/
theorem C21_kernel_cancelled_event_never_removed_witness :
    ((DiskEvent_t.mk 7 (some ⟨0, 0, 8, 5, 0⟩) DiskEventOp_t.OP_WRITE
          DiskEventStatus_t.EVENT_QUEUED 0 0) ∈
        [DiskEvent_t.mk 7 (some ⟨0, 0, 8, 5, 0⟩) DiskEventOp_t.OP_WRITE
          DiskEventStatus_t.EVENT_QUEUED 0 0] ∧
      (DiskEvent_t.mk 7 (some ⟨0, 0, 8, 5, 0⟩) DiskEventOp_t.OP_WRITE
          DiskEventStatus_t.EVENT_QUEUED 0 0).status ≠ DiskEventStatus_t.EVENT_CANCELLED ∧
      (Kernel.mk 115 125 (fun _ => 125) (fun _ => -1)).aio_error
          (DiskEvent_t.mk 7 (some ⟨0, 0, 8, 5, 0⟩) DiskEventOp_t.OP_WRITE
            DiskEventStatus_t.EVENT_QUEUED 0 0).aio_cb =
        (Kernel.mk 115 125 (fun _ => 125) (fun _ => -1)).ECANCELED) ∧
    DiskManager.Timeout ⟨115, 125, fun _ => 125, fun _ => -1⟩ 9
        [⟨7, some ⟨0, 0, 8, 5, 0⟩, DiskEventOp_t.OP_WRITE,
          DiskEventStatus_t.EVENT_QUEUED, 0, 0⟩] = .outOfFuel ∧
    ∀ fuel r, DiskManager.Timeout ⟨115, 125, fun _ => 125, fun _ => -1⟩ fuel
        [⟨7, some ⟨0, 0, 8, 5, 0⟩, DiskEventOp_t.OP_WRITE,
          DiskEventStatus_t.EVENT_QUEUED, 0, 0⟩] ≠ .ok r :=
  ⟨⟨by decide, by decide, by decide⟩, by decide,
   (C21_kernel_cancelled_event_never_removed ⟨115, 125, fun _ => 125, fun _ => -1⟩
     [⟨7, some ⟨0, 0, 8, 5, 0⟩, DiskEventOp_t.OP_WRITE, DiskEventStatus_t.EVENT_QUEUED, 0, 0⟩]
     ⟨7, some ⟨0, 0, 8, 5, 0⟩, DiskEventOp_t.OP_WRITE, DiskEventStatus_t.EVENT_QUEUED, 0, 0⟩
     (by decide) (by decide) (by decide)).1⟩

/-- C22. For each of `DiskManager::Read`, `Write` and `Sync`: when the kernel
accepts the request (`aio_read`, `aio_write`, `aio_fsync` return a value
`≥ 0`) the function returns 0, the queue is the old queue followed by one new
event, which carries the operation kind, the connection and (for a read or a
write) the block, with the cursors the block had, and `resultEvent` is that
event; when the kernel refuses (a value `< 0`) the function returns `-1`, and
the queue and `resultEvent` are what they were. `Write` asks the kernel only
after `assert(numBytes <= data->BytesConsumable())`: with more bytes than the
block holds no request is made. -/
theorem C22_submission (q : List DiskEvent_t) (conn cb : Nat) (data : IOBufferData)
    (numBytes retVal0 aio : Int) (resultEvent : Option DiskEvent_t) :
    (0 ≤ aio →
      DiskManager.Read q conn data cb retVal0 aio resultEvent =
        .ok (q ++ [⟨conn, some data, DiskEventOp_t.OP_READ, DiskEventStatus_t.EVENT_QUEUED,
            retVal0, cb⟩],
          some ⟨conn, some data, DiskEventOp_t.OP_READ, DiskEventStatus_t.EVENT_QUEUED,
            retVal0, cb⟩, 0) ∧
      (numBytes ≤ data.BytesConsumable →
        DiskManager.Write q conn data numBytes cb retVal0 aio resultEvent =
          .ok (q ++ [⟨conn, some data, DiskEventOp_t.OP_WRITE, DiskEventStatus_t.EVENT_QUEUED,
              retVal0, cb⟩],
            some ⟨conn, some data, DiskEventOp_t.OP_WRITE, DiskEventStatus_t.EVENT_QUEUED,
              retVal0, cb⟩, 0)) ∧
      DiskManager.Sync q conn cb retVal0 aio resultEvent =
        .ok (q ++ [⟨conn, none, DiskEventOp_t.OP_SYNC, DiskEventStatus_t.EVENT_QUEUED,
            retVal0, cb⟩],
          some ⟨conn, none, DiskEventOp_t.OP_SYNC, DiskEventStatus_t.EVENT_QUEUED,
            retVal0, cb⟩, 0)) ∧
    (aio < 0 →
      DiskManager.Read q conn data cb retVal0 aio resultEvent = .ok (q, resultEvent, -1) ∧
      (numBytes ≤ data.BytesConsumable →
        DiskManager.Write q conn data numBytes cb retVal0 aio resultEvent =
          .ok (q, resultEvent, -1)) ∧
      DiskManager.Sync q conn cb retVal0 aio resultEvent = .ok (q, resultEvent, -1) ∧
      (-1 : Int) < 0) ∧
    (¬ numBytes ≤ data.BytesConsumable →
      DiskManager.Write q conn data numBytes cb retVal0 aio resultEvent = .assertFailed) := by
  refine ⟨fun h0 => ?_, fun h0 => ?_, fun hn => ?_⟩
  · have hn : ¬ aio < 0 := by omega
    refine ⟨?_, fun hb => ?_, ?_⟩
    · simp only [DiskManager.Read, if_neg hn, DiskEvent_t.new]
    · simp only [DiskManager.Write, if_pos hb, if_neg hn, DiskEvent_t.new]
    · simp only [DiskManager.Sync, if_neg hn, DiskEvent_t.new]
  · refine ⟨?_, fun hb => ?_, ?_, by omega⟩
    · simp only [DiskManager.Read, if_pos h0]
    · simp only [DiskManager.Write, if_pos hb, if_pos h0]
    · simp only [DiskManager.Sync, if_pos h0]
  · simp only [DiskManager.Write, if_neg hn]

/-- C22 on a queue holding one sync event: a write of 5 bytes from a block
holding 5 is appended behind it when the kernel answers 0, and leaves the
queue alone when the kernel answers -1. -/
theorem C22_submission_witness :
    DiskManager.Write [⟨7, none, DiskEventOp_t.OP_SYNC, DiskEventStatus_t.EVENT_QUEUED, 0, 0⟩] 7
        ⟨0, 0, 8, 5, 0⟩ 5 1 0 0 none =
      .ok ([⟨7, none, DiskEventOp_t.OP_SYNC, DiskEventStatus_t.EVENT_QUEUED, 0, 0⟩,
          ⟨7, some ⟨0, 0, 8, 5, 0⟩, DiskEventOp_t.OP_WRITE, DiskEventStatus_t.EVENT_QUEUED, 0, 1⟩],
        some ⟨7, some ⟨0, 0, 8, 5, 0⟩, DiskEventOp_t.OP_WRITE,
          DiskEventStatus_t.EVENT_QUEUED, 0, 1⟩, 0) ∧
    DiskManager.Write [⟨7, none, DiskEventOp_t.OP_SYNC, DiskEventStatus_t.EVENT_QUEUED, 0, 0⟩] 7
        ⟨0, 0, 8, 5, 0⟩ 5 1 0 (-1) none =
      .ok ([⟨7, none, DiskEventOp_t.OP_SYNC, DiskEventStatus_t.EVENT_QUEUED, 0, 0⟩], none, -1) ∧
    (DiskManager.Read [⟨7, none, DiskEventOp_t.OP_SYNC, DiskEventStatus_t.EVENT_QUEUED, 0, 0⟩] 7
        ⟨0, 0, 8, 5, 0⟩ 1 0 (-1) none =
      .ok ([⟨7, none, DiskEventOp_t.OP_SYNC, DiskEventStatus_t.EVENT_QUEUED, 0, 0⟩], none, -1) ∧
      ((5 : Int) ≤ IOBufferData.BytesConsumable ⟨0, 0, 8, 5, 0⟩ →
        DiskManager.Write
            [⟨7, none, DiskEventOp_t.OP_SYNC, DiskEventStatus_t.EVENT_QUEUED, 0, 0⟩] 7
            ⟨0, 0, 8, 5, 0⟩ 5 1 0 (-1) none =
          .ok ([⟨7, none, DiskEventOp_t.OP_SYNC, DiskEventStatus_t.EVENT_QUEUED, 0, 0⟩],
            none, -1)) ∧
      DiskManager.Sync [⟨7, none, DiskEventOp_t.OP_SYNC, DiskEventStatus_t.EVENT_QUEUED, 0, 0⟩]
          7 1 0 (-1) none =
        .ok ([⟨7, none, DiskEventOp_t.OP_SYNC, DiskEventStatus_t.EVENT_QUEUED, 0, 0⟩],
          none, -1) ∧
      (-1 : Int) < 0) :=
  ⟨by decide, by decide,
   (C22_submission [⟨7, none, DiskEventOp_t.OP_SYNC, DiskEventStatus_t.EVENT_QUEUED, 0, 0⟩]
     7 1 ⟨0, 0, 8, 5, 0⟩ 5 0 (-1) none).2.1 (by decide)⟩

/-- C23, where the code departs from the claim, through the defect described
at C18. Submissions append at the tail and a tick only removes, but a tick
that meets an event the issuer has not cancelled and the kernel reports in
progress or cancelled never gets past it: with such an event at the head of
the queue `Timeout()` does not return for any number of iterations, and the
completed events behind it, which the claim puts into the sequence of
`HandleDone` calls of the tick, get no call. On a queue without such an event
the calls of the tick are, in queue order, for the events that were not
cancelled, each with its `aio_error` as second argument. -/
theorem C23_dispatch_stops_at_stuck_event (k : Kernel) (A : DiskEvent_t)
    (rest : List DiskEvent_t) (hA : DiskManager.Stuck k A) :
    (∀ fuel, DiskManager.Timeout k fuel (A :: rest) = .outOfFuel) ∧
    (∀ (q : List DiskEvent_t) (fuel : Nat), (∀ e ∈ q, ¬ DiskManager.Stuck k e) →
      (∀ e ∈ q, e.op = DiskEventOp_t.OP_READ → e.data ≠ none) → q.length ≤ fuel →
      ∃ calls dropped, DiskManager.Timeout k fuel q = .ok ([], calls, dropped) ∧
        calls.map (fun c => (c.1.aio_cb, c.2)) =
          (q.filter (fun e => ¬ e.status = DiskEventStatus_t.EVENT_CANCELLED)).map
            (fun e => (e.aio_cb, k.aio_error e.aio_cb))) ∧
    (∀ (q q1 : List DiskEvent_t) (conn cb : Nat) (data : IOBufferData)
      (numBytes retVal0 aio v : Int) (re re1 : Option DiskEvent_t),
      (DiskManager.Read q conn data cb retVal0 aio re = .ok (q1, re1, v) ∨
        DiskManager.Write q conn data numBytes cb retVal0 aio re = .ok (q1, re1, v) ∨
        DiskManager.Sync q conn cb retVal0 aio re = .ok (q1, re1, v)) →
      ∃ l, q1 = q ++ l ∧ l.length ≤ 1) := by
  refine ⟨fun fuel => DiskManager.Timeout_loop_head_stuck k A _ hA fuel [] [], ?_, ?_⟩
  · intro q fuel hns hdata hf
    obtain ⟨calls, hres, hall⟩ := DiskManager.Timeout_spec k q fuel hns hdata hf
    refine ⟨calls, _, hres, ?_⟩
    clear hres
    generalize q.filter (fun e => ¬ e.status = DiskEventStatus_t.EVENT_CANCELLED) = l at hall
    induction hall with
    | nil => rfl
    | @cons a b l l1 hab _ ih =>
      simp only [List.map_cons, ih, (DiskManager.complete_keeps k a b.1 hab.1).1, hab.2]
  · intro q q1 conn cb data numBytes retVal0 aio v re re1 h
    rcases h with h | h | h
    · simp only [DiskManager.Read] at h
      split_ifs at h <;> simp only [Res.ok.injEq, Prod.mk.injEq] at h
      · exact ⟨[], by rw [← h.1, List.append_nil], by simp⟩
      · exact ⟨_, h.1.symm, by simp⟩
    · simp only [DiskManager.Write] at h
      split_ifs at h <;> simp only [Res.ok.injEq, Prod.mk.injEq] at h
      · exact ⟨[], by rw [← h.1, List.append_nil], by simp⟩
      · exact ⟨_, h.1.symm, by simp⟩
    · simp only [DiskManager.Sync] at h
      split_ifs at h <;> simp only [Res.ok.injEq, Prod.mk.injEq] at h
      · exact ⟨[], by rw [← h.1, List.append_nil], by simp⟩
      · exact ⟨_, h.1.symm, by simp⟩

/-- C23 with `EINPROGRESS = 115` and `ECANCELED = 125`: a sync the kernel
reports as cancelled, in front of two completed writes. The tick makes no
call; without the sync it calls `HandleDone` for both writes, in queue order. -/
theorem C23_dispatch_stops_at_stuck_event_witness :
    DiskManager.Stuck ⟨115, 125, fun cb => if cb = 0 then 125 else 0, fun _ => 5⟩
      ⟨7, none, DiskEventOp_t.OP_SYNC, DiskEventStatus_t.EVENT_QUEUED, 0, 0⟩ ∧
    DiskManager.Timeout ⟨115, 125, fun cb => if cb = 0 then 125 else 0, fun _ => 5⟩ 9
        [⟨7, none, DiskEventOp_t.OP_SYNC, DiskEventStatus_t.EVENT_QUEUED, 0, 0⟩,
          ⟨7, some ⟨0, 0, 8, 5, 0⟩, DiskEventOp_t.OP_WRITE, DiskEventStatus_t.EVENT_QUEUED, 0, 1⟩,
          ⟨8, some ⟨1, 0, 8, 5, 0⟩, DiskEventOp_t.OP_WRITE,
            DiskEventStatus_t.EVENT_QUEUED, 0, 2⟩] = .outOfFuel ∧
    DiskManager.Timeout ⟨115, 125, fun cb => if cb = 0 then 125 else 0, fun _ => 5⟩ 2
        [⟨7, some ⟨0, 0, 8, 5, 0⟩, DiskEventOp_t.OP_WRITE, DiskEventStatus_t.EVENT_QUEUED, 0, 1⟩,
          ⟨8, some ⟨1, 0, 8, 5, 0⟩, DiskEventOp_t.OP_WRITE,
            DiskEventStatus_t.EVENT_QUEUED, 0, 2⟩] =
      .ok ([], [(⟨7, some ⟨0, 0, 8, 5, 0⟩, DiskEventOp_t.OP_WRITE,
            DiskEventStatus_t.EVENT_DONE, 5, 1⟩, 0),
          (⟨8, some ⟨1, 0, 8, 5, 0⟩, DiskEventOp_t.OP_WRITE,
            DiskEventStatus_t.EVENT_DONE, 5, 2⟩, 0)], []) ∧
    ∀ fuel, DiskManager.Timeout ⟨115, 125, fun cb => if cb = 0 then 125 else 0, fun _ => 5⟩
        fuel
        (⟨7, none, DiskEventOp_t.OP_SYNC, DiskEventStatus_t.EVENT_QUEUED, 0, 0⟩ ::
          [⟨7, some ⟨0, 0, 8, 5, 0⟩, DiskEventOp_t.OP_WRITE, DiskEventStatus_t.EVENT_QUEUED, 0, 1⟩,
            ⟨8, some ⟨1, 0, 8, 5, 0⟩, DiskEventOp_t.OP_WRITE,
              DiskEventStatus_t.EVENT_QUEUED, 0, 2⟩]) = .outOfFuel :=
  ⟨⟨by decide, Or.inr (by decide)⟩, by decide, by decide,
   (C23_dispatch_stops_at_stuck_event
     ⟨115, 125, fun cb => if cb = 0 then 125 else 0, fun _ => 5⟩
     ⟨7, none, DiskEventOp_t.OP_SYNC, DiskEventStatus_t.EVENT_QUEUED, 0, 0⟩
     [⟨7, some ⟨0, 0, 8, 5, 0⟩, DiskEventOp_t.OP_WRITE, DiskEventStatus_t.EVENT_QUEUED, 0, 1⟩,
       ⟨8, some ⟨1, 0, 8, 5, 0⟩, DiskEventOp_t.OP_WRITE, DiskEventStatus_t.EVENT_QUEUED, 0, 2⟩]
     ⟨by decide, Or.inr (by decide)⟩).1⟩

/-- C24, where the code departs from the claim, through the defect described
at C18. Let a run of submissions, cancellations and ticks have returned with
the queue `A :: rest`, where `A` is an event the issuer has not cancelled and
the kernel reports in progress or cancelled during the next tick. That tick
does not return for any number of iterations, whatever steps follow it; each
iteration leaves the queue and the calls made as they were; and none of the
events in the queue has had a `HandleDone` call before the tick. So an event
of `rest` that was submitted successfully, is never marked cancelled and is
complete for the kernel gets no `HandleDone` call, where the claim gives it
exactly one. What the claim says beyond that holds: over every run that
returns no event has had two calls, no event in the queue has status
`EVENT_DONE`, and no event in the queue has had its call. -/
theorem C24_no_callback_behind_stuck_event (retVal0 : Int) (pre : List DiskManager.Step)
    (s : DiskManager.State) (k : Kernel) (A : DiskEvent_t) (rest : List DiskEvent_t)
    (hpre : DiskManager.run retVal0 DiskManager.State.init pre = .ok s)
    (hq : s.mDiskEvents = A :: rest) (hA : DiskManager.Stuck k A) :
    (∀ fuel sts, DiskManager.run retVal0 DiskManager.State.init
        (pre ++ DiskManager.Step.tick k fuel :: sts) = .outOfFuel) ∧
    (∀ fuel calls dropped,
      DiskManager.Timeout.loop k (fuel + 1) (A :: rest) calls dropped =
        DiskManager.Timeout.loop k fuel (A :: rest) calls dropped) ∧
    (∀ e ∈ A :: rest, ∀ c ∈ s.calls, e.aio_cb ≠ c.1.aio_cb) ∧
    (∀ sts s1, DiskManager.run retVal0 DiskManager.State.init sts = .ok s1 →
      (s1.calls.map (fun c => c.1.aio_cb)).Nodup ∧
      ∀ e ∈ s1.mDiskEvents, e.status ≠ DiskEventStatus_t.EVENT_DONE ∧
        ∀ c ∈ s1.calls, e.aio_cb ≠ c.1.aio_cb) := by
  refine ⟨?_, ?_, ?_, ?_⟩
  · intro fuel sts
    rw [DiskManager.run_append, hpre]
    simp only [Res.bind, DiskManager.run, DiskManager.step, DiskManager.Timeout, hq,
      DiskManager.Timeout_loop_head_stuck k A rest hA fuel [] []]
  · intro fuel calls dropped
    rw [DiskManager.Timeout_loop_head_stuck k A rest hA (fuel + 1),
      DiskManager.Timeout_loop_head_stuck k A rest hA fuel]
  · obtain ⟨-, -, -, -, h5⟩ :=
      DiskManager.run_Inv retVal0 pre _ s DiskManager.Inv_init hpre
    intro e he c hc
    exact h5 c hc e (by rw [hq]; exact he)
  · intro sts s1 h
    obtain ⟨-, h2, h3, -, h5⟩ := DiskManager.run_Inv retVal0 sts _ s1 DiskManager.Inv_init h
    exact ⟨h3, fun e he => ⟨(h2 e he).2, fun c hc => h5 c hc e he⟩⟩

/-- C24 with `EINPROGRESS = 115` and `ECANCELED = 125`: a sync and a write are
submitted and accepted; at the tick the kernel reports the sync as cancelled
and the write as complete with 5 bytes. A tick on the write alone calls
`HandleDone` for it; the tick of the run stays on the sync and does not
return, so the write gets no call. -/
theorem C24_no_callback_behind_stuck_event_witness :
    (DiskManager.run 0 DiskManager.State.init
        [DiskManager.Step.sync 7 0, DiskManager.Step.write 8 ⟨1, 0, 8, 5, 0⟩ 5 0] =
      .ok ⟨[⟨7, none, DiskEventOp_t.OP_SYNC, DiskEventStatus_t.EVENT_QUEUED, 0, 0⟩,
        ⟨8, some ⟨1, 0, 8, 5, 0⟩, DiskEventOp_t.OP_WRITE,
          DiskEventStatus_t.EVENT_QUEUED, 0, 1⟩], 2, []⟩ ∧
      DiskManager.Stuck ⟨115, 125, fun cb => if cb = 0 then 125 else 0, fun _ => 5⟩
        ⟨7, none, DiskEventOp_t.OP_SYNC, DiskEventStatus_t.EVENT_QUEUED, 0, 0⟩) ∧
    DiskManager.Timeout ⟨115, 125, fun cb => if cb = 0 then 125 else 0, fun _ => 5⟩ 1
        [⟨8, some ⟨1, 0, 8, 5, 0⟩, DiskEventOp_t.OP_WRITE,
          DiskEventStatus_t.EVENT_QUEUED, 0, 1⟩] =
      .ok ([], [(⟨8, some ⟨1, 0, 8, 5, 0⟩, DiskEventOp_t.OP_WRITE,
        DiskEventStatus_t.EVENT_DONE, 5, 1⟩, 0)], []) ∧
    DiskManager.run 0 DiskManager.State.init
        [DiskManager.Step.sync 7 0, DiskManager.Step.write 8 ⟨1, 0, 8, 5, 0⟩ 5 0,
          DiskManager.Step.tick
            ⟨115, 125, fun cb => if cb = 0 then 125 else 0, fun _ => 5⟩ 9] = .outOfFuel ∧
    ∀ fuel sts, DiskManager.run 0 DiskManager.State.init
        ([DiskManager.Step.sync 7 0, DiskManager.Step.write 8 ⟨1, 0, 8, 5, 0⟩ 5 0] ++
          DiskManager.Step.tick
            ⟨115, 125, fun cb => if cb = 0 then 125 else 0, fun _ => 5⟩ fuel :: sts) =
      .outOfFuel :=
  ⟨⟨by decide, by decide, Or.inr (by decide)⟩, by decide, by decide,
   (C24_no_callback_behind_stuck_event 0
     [DiskManager.Step.sync 7 0, DiskManager.Step.write 8 ⟨1, 0, 8, 5, 0⟩ 5 0]
     ⟨[⟨7, none, DiskEventOp_t.OP_SYNC, DiskEventStatus_t.EVENT_QUEUED, 0, 0⟩,
       ⟨8, some ⟨1, 0, 8, 5, 0⟩, DiskEventOp_t.OP_WRITE,
         DiskEventStatus_t.EVENT_QUEUED, 0, 1⟩], 2, []⟩
     ⟨115, 125, fun cb => if cb = 0 then 125 else 0, fun _ => 5⟩
     ⟨7, none, DiskEventOp_t.OP_SYNC, DiskEventStatus_t.EVENT_QUEUED, 0, 0⟩
     [⟨8, some ⟨1, 0, 8, 5, 0⟩, DiskEventOp_t.OP_WRITE, DiskEventStatus_t.EVENT_QUEUED, 0, 1⟩]
     (by decide) rfl ⟨by decide, Or.inr (by decide)⟩).1⟩

/-! ## C25: log replay -/

/-- C25, against `playlog` as the spec describes it (its body is not among
the sources). From the counter `seq`, `playlog` succeeds only on records
numbered `seq + 1, seq + 2, …` in that order: it then applies all of them, in
order, and leaves the counter at the number of the last one; a record with any
other number, missing or out of order, makes it fail with `SequenceGap`. With
a checkpoint at sequence 100 and the log files 100 to 105 holding the records
101 to 105, startup applies 101 to 105 in order and ends with the counter at
105; without log file 103 it fails with `SequenceGap`. -/
theorem C25_replay_gap_free (seq : Int) (rs : List LogRecord) :
    (∀ seq1 applied, Replay.playlog seq [] rs = .ok seq1 applied →
      applied = rs ∧ seq1 = seq + rs.length ∧
      ∀ (i : Nat) (r : LogRecord), rs[i]? = some r → r.seq = seq + (i + 1)) ∧
    ((∀ (i : Nat) (r : LogRecord), rs[i]? = some r → r.seq = seq + (i + 1)) →
      Replay.playlog seq [] rs = .ok (seq + rs.length) rs) ∧
    ((∃ (i : Nat) (r : LogRecord), rs[i]? = some r ∧ r.seq ≠ seq + (i + 1)) →
      Replay.playlog seq [] rs = .SequenceGap) ∧
    Replay.startup 100 [⟨100, []⟩, ⟨101, [⟨101⟩]⟩, ⟨102, [⟨102⟩]⟩, ⟨103, [⟨103⟩]⟩,
        ⟨104, [⟨104⟩]⟩, ⟨105, [⟨105⟩]⟩] =
      .ok 105 [⟨101⟩, ⟨102⟩, ⟨103⟩, ⟨104⟩, ⟨105⟩] ∧
    Replay.startup 100 [⟨100, []⟩, ⟨101, [⟨101⟩]⟩, ⟨102, [⟨102⟩]⟩,
        ⟨104, [⟨104⟩]⟩, ⟨105, [⟨105⟩]⟩] = .SequenceGap := by
  obtain ⟨h1, h2⟩ := Replay.playlog_spec rs seq []
  refine ⟨?_, ?_, ?_, by decide, by decide⟩
  · intro seq1 applied hres
    by_cases hc : ∀ (i : Nat) (r : LogRecord), rs[i]? = some r → r.seq = seq + (i + 1)
    · rw [h1 hc] at hres
      simp only [List.nil_append, ReplayResult.ok.injEq] at hres
      exact ⟨hres.2.symm, hres.1.symm, hc⟩
    · rw [h2 hc] at hres
      cases hres
  · intro hc
    rw [h1 hc, List.nil_append]
  · rintro ⟨i, r, hr, hne⟩
    exact h2 (fun hc => hne (hc i r hr))

/-- C25 on the records 101, 102, 104 after a checkpoint at 100: the record at
index 2 is not number 103, and `playlog` fails with `SequenceGap`. -/
theorem C25_replay_gap_free_witness :
    (∃ (i : Nat) (r : LogRecord), [LogRecord.mk 101, ⟨102⟩, ⟨104⟩][i]? = some r ∧
      r.seq ≠ (100 : Int) + (i + 1)) ∧
    Replay.playlog 100 [] [⟨101⟩, ⟨102⟩, ⟨104⟩] = .SequenceGap :=
  ⟨⟨2, ⟨104⟩, by decide, by decide⟩,
   (C25_replay_gap_free 100 [⟨101⟩, ⟨102⟩, ⟨104⟩]).2.2.1 ⟨2, ⟨104⟩, by decide, by decide⟩⟩

/-! ## C26 – C29: block `CopyIn` from a block, `Clone` as a snapshot, chain
`Trim`, negative lengths -/

/-- C26, where the code departs from the claim. `CopyIn(other, n)` compares
`n` with the space of the destination only and then runs
`memcpy(mProducer, other->mConsumer, n)`: for every destination `d` with
`producer ≤ end`, every source `o` and every `n ≥ 0` it returns
`min(n, end − producer of d)`, whatever `o` holds, and the bytes it writes are
the bytes of the array of `o` from the consumer of `o` on, those at and beyond
the producer of `o` included. -/
theorem C26_block_copyIn_ignores_source_window (h : Heap) (d o : IOBufferData) (n : Int)
    (hd : d.mProducer ≤ d.mEnd) (hn : 0 ≤ n) :
    d.CopyInBlock h o n =
      .ok (h.memcpy d.mData d.mProducer
          (((h.get o.mData).drop o.mConsumer).take (min n.toNat (d.mEnd - d.mProducer))),
        { d with mProducer := d.mProducer + min n.toNat (d.mEnd - d.mProducer) },
        min n ((d.mEnd : Int) - d.mProducer)) ∧
    (o.BytesConsumable < n → n ≤ (d.mEnd : Int) - d.mProducer →
      ∃ h1 d1 r, d.CopyInBlock h o n = .ok (h1, d1, r) ∧
        r ≠ min n (min ((d.mEnd : Int) - d.mProducer) o.BytesConsumable)) := by
  obtain ⟨k, rfl⟩ := Int.eq_ofNat_of_zero_le hn
  have hres := IOBufferData.CopyInBlock_nat h d o k hd
  have e : (((min k (d.mEnd - d.mProducer) : Nat)) : Int) =
      min (k : Int) ((d.mEnd : Int) - d.mProducer) := by omega
  constructor
  · rw [hres, Int.toNat_ofNat, e]
  · intro h1 h2
    refine ⟨_, _, _, hres, ?_⟩
    omega

/-- C26 on the failing input: the source holds "ABC" (consumer 0, producer 3)
in the array "ABCDEFGH", the destination is an empty block of 8 bytes, and
`n = 5`. The call returns 5 and the destination reads "ABCDE"; the claim gives
3 and "ABC". -/
theorem C26_block_copyIn_ignores_source_window_witness :
    ((IOBufferData.mk 1 0 8 0 0).mProducer ≤ (IOBufferData.mk 1 0 8 0 0).mEnd ∧ (0 : Int) ≤ 5) ∧
    IOBufferData.readable ⟨[[65, 66, 67, 68, 69, 70, 71, 72], [0, 0, 0, 0, 0, 0, 0, 0]],
      fun _ => 0⟩ ⟨0, 0, 8, 3, 0⟩ = [65, 66, 67] ∧
    ((IOBufferData.CopyInBlock ⟨[[65, 66, 67, 68, 69, 70, 71, 72], [0, 0, 0, 0, 0, 0, 0, 0]],
        fun _ => 0⟩ ⟨1, 0, 8, 0, 0⟩ ⟨0, 0, 8, 3, 0⟩ 5).bind
      fun r => .ok (r.1.arrays, r.2.1, r.2.2, r.2.1.readable r.1)) =
      .ok ([[65, 66, 67, 68, 69, 70, 71, 72], [65, 66, 67, 68, 69, 0, 0, 0]],
        ⟨1, 0, 8, 5, 0⟩, 5, [65, 66, 67, 68, 69]) ∧
    min (5 : Int) (min (((IOBufferData.mk 1 0 8 0 0).mEnd : Int) -
        (IOBufferData.mk 1 0 8 0 0).mProducer)
      (IOBufferData.BytesConsumable ⟨0, 0, 8, 3, 0⟩)) = 3 ∧
    (IOBufferData.BytesConsumable ⟨0, 0, 8, 3, 0⟩ < 5 →
      (5 : Int) ≤ ((IOBufferData.mk 1 0 8 0 0).mEnd : Int) -
        (IOBufferData.mk 1 0 8 0 0).mProducer →
      ∃ h1 d1 r, IOBufferData.CopyInBlock
          ⟨[[65, 66, 67, 68, 69, 70, 71, 72], [0, 0, 0, 0, 0, 0, 0, 0]], fun _ => 0⟩
          ⟨1, 0, 8, 0, 0⟩ ⟨0, 0, 8, 3, 0⟩ 5 = .ok (h1, d1, r) ∧
        r ≠ min (5 : Int) (min (((IOBufferData.mk 1 0 8 0 0).mEnd : Int) -
            (IOBufferData.mk 1 0 8 0 0).mProducer)
          (IOBufferData.BytesConsumable ⟨0, 0, 8, 3, 0⟩))) :=
  ⟨⟨by decide, by decide⟩, by decide, by decide, by decide,
   (C26_block_copyIn_ignores_source_window
     ⟨[[65, 66, 67, 68, 69, 70, 71, 72], [0, 0, 0, 0, 0, 0, 0, 0]], fun _ => 0⟩
     ⟨1, 0, 8, 0, 0⟩ ⟨0, 0, 8, 3, 0⟩ 5 (by decide) (by decide)).2⟩

end KFS
